import Mathlib

/-!
# dgit: `index-pack` command wrapper and packfile unpacking

A shallow embedding of `cmd/indexpack.go` (the command-line wrapper
`cmd.IndexPack`) and of the packfile unpacking exercised by
`git/packfile_test.go`.

The wrapper talks to the operating system and to the `git` package. Those
collaborators are an explicit `World` of answers, and every call the wrapper
makes is recorded, in order, in a trace of `Event`s.
-/

namespace cmd

/-- A Go `error` value, identified by its message. A `nil` error is `none`
in `Option GoError`. -/
abbrev GoError := String

/-- The fields of `git.IndexPackOptions` that `cmd.IndexPack` fills in.
`Output` is the `io.Writer`: the name of the open file behind it. -/
structure IndexPackOptions where
  Verbose : Bool
  FixThin : Bool
  Keep : String
  Strict : Bool
  Threads : Nat
  Output : Option String
  deriving DecidableEq, Repr

/-- The values held by the flag set after `flags.Parse(args)`, with
`args = flags.Args()`. -/
structure FlagValues where
  options : IndexPackOptions
  output : String
  stdin : Bool
  args : List String
  deriving DecidableEq, Repr

/-- The defaults given in the `BoolVar` / `String` / `Bool` / `StringVar` /
`UintVar` declarations. -/
def flagDefaults : FlagValues :=
  { options := { Verbose := false, FixThin := false, Keep := "", Strict := false,
                 Threads := 0, Output := none },
    output := "", stdin := false, args := [] }

/-- What `flags.Parse` does under `flag.ExitOnError`: it either leaves flag
values behind or ends the process. -/
inductive ParseResult
  | ok (fl : FlagValues)
  | exit
  deriving DecidableEq, Repr

/-- The three kinds of flag value declared on the flag set. -/
inductive FlagKind
  | bool
  | string
  | uint
  deriving DecidableEq, Repr

/-- The flags declared on the `index-pack` flag set, by name. -/
def flagKind (name : String) : Option FlagKind :=
  if name = "v" then some .bool
  else if name = "o" then some .string
  else if name = "stdin" then some .bool
  else if name = "fix-thin" then some .bool
  else if name = "keep" then some .string
  else if name = "strict" then some .bool
  else if name = "threads" then some .uint
  else none

/-- Go's `strconv.ParseBool`, which the flag package uses for boolean flags. -/
def parseBool (s : String) : Option Bool :=
  if s = "1" ∨ s = "t" ∨ s = "T" ∨ s = "TRUE" ∨ s = "true" ∨ s = "True" then some true
  else if s = "0" ∨ s = "f" ∨ s = "F" ∨ s = "FALSE" ∨ s = "false" ∨ s = "False" then some false
  else none

/-- Scan for the first `=`; the text before it and, when found, the text after. -/
def findEq : List Char → List Char × Option (List Char)
  | [] => ([], none)
  | c :: cs =>
    if c = '=' then ([], some cs)
    else ((c :: (findEq cs).1), (findEq cs).2)

/-- Split `name=value`; the flag package starts looking for `=` at index 1. -/
def splitValue : List Char → List Char × Option (List Char)
  | [] => ([], none)
  | c :: cs => ((c :: (findEq cs).1), (findEq cs).2)

/-- Store a boolean flag. -/
def setBool (fl : FlagValues) (name : String) (b : Bool) : FlagValues :=
  if name = "v" then { fl with options := { fl.options with Verbose := b } }
  else if name = "stdin" then { fl with stdin := b }
  else if name = "fix-thin" then { fl with options := { fl.options with FixThin := b } }
  else if name = "strict" then { fl with options := { fl.options with Strict := b } }
  else fl

/-- Store a string flag. -/
def setString (fl : FlagValues) (name : String) (v : String) : FlagValues :=
  if name = "o" then { fl with output := v }
  else if name = "keep" then { fl with options := { fl.options with Keep := v } }
  else fl

/-- Store a flag that takes a value (`-o`, `-keep`, `-threads`). `parseUint`
is `strconv.ParseUint(s, 0, UintSize)`. -/
def setValued (parseUint : String → Option Nat) (fl : FlagValues) (k : FlagKind)
    (name : String) (v : String) : Option FlagValues :=
  match k with
  | .uint =>
    match parseUint v with
    | some n => some { fl with options := { fl.options with Threads := n } }
    | none => none
  | _ => some (setString fl name v)

/-- The flag package's `Parse` over the flags declared by `cmd.IndexPack`,
followed by `args = flags.Args()`. Parsing stops at the first argument that
is not a flag (shorter than two bytes, or not starting with `-`) and at `--`;
an undefined flag, `-h`/`-help`, a bad value or a missing value ends the
process because the flag set is `flag.ExitOnError`. -/
def flagsParse (parseUint : String → Option Nat) : FlagValues → List String → ParseResult
  | fl, [] => .ok { fl with args := [] }
  | fl, s :: rest =>
    match s.data with
    | '-' :: c :: cs =>
      if c = '-' ∧ cs = [] then .ok { fl with args := rest }
      else
        match (if c = '-' then cs else c :: cs) with
        | [] => .exit
        | n0 :: ns =>
          if n0 = '-' ∨ n0 = '=' then .exit
          else
            match flagKind ⟨(splitValue (n0 :: ns)).1⟩, (splitValue (n0 :: ns)).2 with
            | none, _ => .exit
            | some .bool, none =>
              flagsParse parseUint (setBool fl ⟨(splitValue (n0 :: ns)).1⟩ true) rest
            | some .bool, some v =>
              match parseBool ⟨v⟩ with
              | some b => flagsParse parseUint (setBool fl ⟨(splitValue (n0 :: ns)).1⟩ b) rest
              | none => .exit
            | some k, some v =>
              match setValued parseUint fl k ⟨(splitValue (n0 :: ns)).1⟩ ⟨v⟩ with
              | some fl' => flagsParse parseUint fl' rest
              | none => .exit
            | some k, none =>
              match rest with
              | [] => .exit
              | v :: rest' =>
                match setValued parseUint fl k ⟨(splitValue (n0 :: ns)).1⟩ v with
                | some fl' => flagsParse parseUint fl' rest'
                | none => .exit
    | _ => .ok { fl with args := s :: rest }

/-- The `io.ReadSeeker` handed to `git.IndexPack`: `os.Stdin` itself, or an
open file. -/
inductive PackSource
  | stdin
  | file (name : String)
  deriving DecidableEq, Repr

/-- A non-nil `git.PackfileIndex`: the pack hash its `GetTrailer` yields
(as `%s` prints it) and the result of `WriteIndex` on the chosen output. -/
structure PackfileIndex where
  trailer : String
  writeErr : Option GoError
  deriving DecidableEq, Repr

/-- The collaborators of `cmd.IndexPack`. `none` from `openFile` / `createFile`
means the call succeeded. `tempFile n dir pfx` is the result of the `n`-th
call of `ioutil.TempFile(dir, pfx)`: the new file's name, or an error. -/
structure World where
  packDir : String
  parseUint : String → Option Nat
  openFile : String → Option GoError
  createFile : String → Option GoError
  tempFile : Nat → String → String → Except GoError String
  gitIndexPack : IndexPackOptions → PackSource → Option PackfileIndex × Option GoError

/-- One call made by `cmd.IndexPack`. -/
inductive Event
  | usage
  | openFile (name : String)
  | createFile (name : String)
  | tempFile (dir pfx : String)
  | copyStdinTo (name : String)
  | seekStart (name : String)
  | indexPack (options : IndexPackOptions) (src : PackSource)
  | writeIndex (dst : Option String)
  | getTrailer
  | rename (oldpath newpath : String)
  | close (name : String)
  deriving DecidableEq, Repr

/-- The value a Go `panic` carries here: an `err` variable (`none` when it is
nil), the runtime error of calling a method on a nil interface, or the
runtime error of indexing an empty slice. -/
inductive PanicValue
  | error (e : Option GoError)
  | nilDereference
  | indexOutOfRange
  deriving DecidableEq, Repr

/-- How a call of `cmd.IndexPack` ends. -/
inductive Outcome
  | returned (err : Option GoError)
  | panicked (v : PanicValue)
  | exited
  deriving DecidableEq, Repr

/-- A deferred call: `f.Close()`, or the closure that closes and renames the
two temporary files. -/
inductive Deferred
  | closeFile (name : String)
  | finishTemp (fidx pack : String)
  deriving DecidableEq, Repr

/-- Run the deferred calls, most recent first. `idx` is the function's
variable as the closure sees it at that time. The `err` the closure names is
the one declared with `:=` on line 82, inside the block: it is nil once both
`TempFile` calls have succeeded, and the named result assigned on line 131 is
another variable. So `panic(err)` panics with nil. -/
def runDeferred (w : World) (idx : Option PackfileIndex) :
    List Deferred → Outcome → Outcome × List Event
  | [], out => (out, [])
  | .closeFile n :: ds, out =>
    ((runDeferred w idx ds out).1, Event.close n :: (runDeferred w idx ds out).2)
  | .finishTemp fidx pack :: ds, out =>
    match idx with
    | some i =>
      ((runDeferred w idx ds out).1,
        [Event.close fidx, Event.close pack, Event.getTrailer,
          Event.rename fidx (w.packDir ++ "/pack-" ++ i.trailer ++ ".idx"),
          Event.rename pack (w.packDir ++ "/pack-" ++ i.trailer ++ ".pack")]
          ++ (runDeferred w idx ds out).2)
    | none =>
      ((runDeferred w idx ds (.panicked (.error none))).1,
        [Event.close fidx, Event.close pack]
          ++ (runDeferred w idx ds (.panicked (.error none))).2)

/-- Go's `filepath.Ext` scanning the path backwards: the suffix from the
final dot of the final path element, or empty. The path separator is `/`. -/
def extScan : List Char → List Char → List Char
  | [], _ => []
  | c :: rest, acc =>
    if c = '/' then []
    else if c = '.' then c :: acc
    else extScan rest (c :: acc)

/-- Go's `filepath.Ext`. -/
def filepathExt (path : String) : String := ⟨extScan path.data.reverse []⟩

/-- Go's `strings.TrimSuffix`. -/
def trimSuffix (s suffix : String) : String :=
  if suffix.data.isSuffixOf s.data then ⟨s.data.take (s.data.length - suffix.data.length)⟩
  else s

/-- A `return e` before `git.IndexPack` was called: `idx` is still nil. -/
def returnEarly (w : World) (defers : List Deferred) (events : List Event)
    (e : Option GoError) : Outcome × List Event :=
  ((runDeferred w none defers (.returned e)).1,
    events ++ (runDeferred w none defers (.returned e)).2)

/-- Lines 131-136: call `git.IndexPack`, return its error, or else return
what `idx.WriteIndex(options.Output)` returns; then the deferred calls. -/
def runCore (w : World) (options : IndexPackOptions) (packfile : PackSource)
    (defers : List Deferred) (events : List Event) : Outcome × List Event :=
  match w.gitIndexPack options packfile with
  | (idx, some e) =>
    ((runDeferred w idx defers (.returned (some e))).1,
      events ++ [Event.indexPack options packfile]
        ++ (runDeferred w idx defers (.returned (some e))).2)
  | (some i, none) =>
    ((runDeferred w (some i) defers (.returned i.writeErr)).1,
      events ++ [Event.indexPack options packfile, Event.writeIndex options.Output]
        ++ (runDeferred w (some i) defers (.returned i.writeErr)).2)
  | (none, none) =>
    ((runDeferred w none defers (.panicked .nilDereference)).1,
      events ++ [Event.indexPack options packfile]
        ++ (runDeferred w none defers (.panicked .nilDereference)).2)

/-- Lines 54-130: decide where the index goes, then run the core. -/
def chooseOutput (w : World) (fl : FlagValues) (packfile : PackSource)
    (defers : List Deferred) (events : List Event) : Outcome × List Event :=
  if fl.output ≠ "" then
    match w.createFile fl.output with
    | some e => returnEarly w defers (events ++ [Event.createFile fl.output]) (some e)
    | none =>
      runCore w { fl.options with Output := some fl.output } packfile
        (Deferred.closeFile fl.output :: defers) (events ++ [Event.createFile fl.output])
  else if fl.stdin then
    match fl.args with
    | a0 :: _ =>
      match w.createFile a0 with
      | some e => returnEarly w defers (events ++ [Event.createFile a0]) (some e)
      | none =>
        runCore w { fl.options with Output := some a0 } packfile
          (Deferred.closeFile a0 :: defers) (events ++ [Event.createFile a0])
    | [] =>
      match w.tempFile 0 w.packDir ".tmppackfileidx" with
      | .error e =>
        returnEarly w defers (events ++ [Event.tempFile w.packDir ".tmppackfileidx"]) (some e)
      | .ok fidx =>
        match w.tempFile 1 w.packDir ".tmppackfileidx" with
        | .error e =>
          returnEarly w defers
            (events ++ [Event.tempFile w.packDir ".tmppackfileidx",
              Event.tempFile w.packDir ".tmppackfileidx", Event.close fidx]) (some e)
        | .ok pack =>
          runCore w { fl.options with Output := some fidx } (PackSource.file pack)
            (Deferred.finishTemp fidx pack :: defers)
            (events ++ [Event.tempFile w.packDir ".tmppackfileidx",
              Event.tempFile w.packDir ".tmppackfileidx",
              Event.copyStdinTo pack, Event.seekStart pack])
  else
    match fl.args with
    | [] =>
      ((runDeferred w none defers (.panicked .indexOutOfRange)).1,
        events ++ (runDeferred w none defers (.panicked .indexOutOfRange)).2)
    | a0 :: _ =>
      if filepathExt a0 ≠ "pack" then
        returnEarly w defers events (some "File name does not end in .pack")
      else
        match w.createFile (trimSuffix a0 "pack" ++ "idx") with
        | some e =>
          returnEarly w defers (events ++ [Event.createFile (trimSuffix a0 "pack" ++ "idx")])
            (some e)
        | none =>
          runCore w { fl.options with Output := some (trimSuffix a0 "pack" ++ "idx") } packfile
            (Deferred.closeFile (trimSuffix a0 "pack" ++ "idx") :: defers)
            (events ++ [Event.createFile (trimSuffix a0 "pack" ++ "idx")])

/-- The command `cmd.IndexPack(c, args)`: parse the flags, choose the pack
source (lines 36-52), choose the output, run the core. The result is how the
call ends together with the calls it made. -/
def IndexPack (w : World) (args : List String) : Outcome × List Event :=
  match flagsParse w.parseUint flagDefaults args with
  | .exit => (.exited, [Event.usage])
  | .ok fl =>
    if fl.stdin then chooseOutput w fl PackSource.stdin [] []
    else
      match fl.args with
      | [] => (.returned (some "Must provide pack file name or --stdin"), [Event.usage])
      | a0 :: _ =>
        match w.openFile a0 with
        | some e => (.returned (some e), [Event.openFile a0])
        | none =>
          chooseOutput w fl (PackSource.file a0) [Deferred.closeFile a0] [Event.openFile a0]

/-- The mode of lines 72-116: `--stdin`, no `-o`, no pack file argument. -/
def tempMode (fl : FlagValues) : Prop :=
  fl.stdin = true ∧ fl.output = "" ∧ fl.args = []

instance (fl : FlagValues) : Decidable (tempMode fl) :=
  inferInstanceAs (Decidable (fl.stdin = true ∧ fl.output = "" ∧ fl.args = []))

/-- The name handed out by the `n`-th `ioutil.TempFile` call in the sample worlds. -/
def sampleTemp (n : Nat) (dir pfx : String) : Except GoError String :=
  .ok (dir ++ "/" ++ pfx ++ (if n = 0 then "101" else "202"))

/-- A world in which every system call succeeds and `git.IndexPack` returns an
index with trailer `3a5f` whose `WriteIndex` succeeds. -/
def okWorld : World where
  packDir := ".git/objects/pack"
  parseUint := fun _ => none
  openFile := fun _ => none
  createFile := fun _ => none
  tempFile := sampleTemp
  gitIndexPack := fun _ _ => (some { trailer := "3a5f", writeErr := none }, none)

/-- As `okWorld`, but `git.IndexPack` fails: a nil index and an error. -/
def badPackWorld : World :=
  { okWorld with gitIndexPack := fun _ _ => (none, some "corrupt pack") }

/-- As `okWorld`, but `WriteIndex` fails on the index `git.IndexPack` returned. -/
def writeFailWorld : World :=
  { okWorld with
    gitIndexPack := fun _ _ => (some { trailer := "3a5f", writeErr := some "disk full" }, none) }

end cmd

namespace git
/-- A byte string: every element is below 256. -/
abbrev Bytes := List Nat

/-- Rotate a 32-bit word left by `n` bits. -/
def rotl32 (x n : Nat) : Nat := ((x <<< n) ||| (x >>> (32 - n))) % 4294967296

/-- The `width` bytes of `n`, most significant first. -/
def beWord (n : Nat) (width : Nat) : Bytes :=
  (List.range width).reverse.map (fun i => (n >>> (8 * i)) % 256)

/-- The number written by bytes, most significant first. -/
def wordOf (bs : Bytes) : Nat := bs.foldl (fun acc b => acc * 256 + b) 0

/-- SHA-1 padding: a one bit, zeros up to 56 modulo 64 bytes, then the bit
length as eight bytes. -/
def sha1Pad (msg : Bytes) : Bytes :=
  msg ++ [128] ++ List.replicate ((119 - msg.length % 64) % 64) 0 ++ beWord (8 * msg.length) 8

/-- The first `n` 32-bit words of a block. -/
def blockWords : Nat → Bytes → List Nat
  | 0, _ => []
  | n + 1, bs => wordOf (bs.take 4) :: blockWords n (bs.drop 4)

/-- Extend the message schedule by `n` words; the list is newest word first. -/
def extendW : Nat → List Nat → List Nat
  | 0, ws => ws
  | n + 1, ws =>
    extendW n (rotl32 (ws.getD 2 0 ^^^ ws.getD 7 0 ^^^ ws.getD 13 0 ^^^ ws.getD 15 0) 1 :: ws)

/-- The 80-word message schedule of one 64-byte block. -/
def schedule (block : Bytes) : List Nat :=
  (extendW 64 (blockWords 16 block).reverse).reverse

/-- The five working words of SHA-1. -/
structure Sha1State where
  a : Nat
  b : Nat
  c : Nat
  d : Nat
  e : Nat
  deriving DecidableEq, Repr

/-- Round `i` of the SHA-1 compression function with schedule word `w`. -/
def sha1Round (i w : Nat) (s : Sha1State) : Sha1State :=
  let f :=
    if i < 20 then (s.b &&& s.c) ||| ((s.b ^^^ 4294967295) &&& s.d)
    else if i < 40 then s.b ^^^ s.c ^^^ s.d
    else if i < 60 then (s.b &&& s.c) ||| (s.b &&& s.d) ||| (s.c &&& s.d)
    else s.b ^^^ s.c ^^^ s.d
  let k :=
    if i < 20 then 0x5A827999 else if i < 40 then 0x6ED9EBA1
    else if i < 60 then 0x8F1BBCDC else 0xCA62C1D6
  { a := (rotl32 s.a 5 + f + s.e + k + w) % 4294967296,
    b := s.a, c := rotl32 s.b 30, d := s.c, e := s.d }

/-- The rounds of one block, one per schedule word, counting from `i`. -/
def sha1Rounds : Nat → List Nat → Sha1State → Sha1State
  | _, [], s => s
  | i, w :: ws, s => sha1Rounds (i + 1) ws (sha1Round i w s)

/-- Compress one block into the chaining value. -/
def sha1Block (h : Sha1State) (block : Bytes) : Sha1State :=
  let r := sha1Rounds 0 (schedule block) h
  { a := (h.a + r.a) % 4294967296, b := (h.b + r.b) % 4294967296,
    c := (h.c + r.c) % 4294967296, d := (h.d + r.d) % 4294967296,
    e := (h.e + r.e) % 4294967296 }

/-- Compress `n` consecutive 64-byte blocks. -/
def sha1Blocks : Nat → Bytes → Sha1State → Sha1State
  | 0, _, h => h
  | n + 1, bs, h => sha1Blocks n (bs.drop 64) (sha1Block h (bs.take 64))

/-- The initial chaining value of SHA-1. -/
def sha1Init : Sha1State :=
  { a := 0x67452301, b := 0xEFCDAB89, c := 0x98BADCFE, d := 0x10325476, e := 0xC3D2E1F0 }

/-- Modelled from the spec: the hash of section 3 and of the trailer is Git's
SHA-1 (FIPS 180-4), 20 bytes; the `git` package's hashing is not among the
sources. -/
def sha1 (msg : Bytes) : Bytes :=
  let h := sha1Blocks ((sha1Pad msg).length / 64) (sha1Pad msg) sha1Init
  beWord h.a 4 ++ beWord h.b 4 ++ beWord h.c 4 ++ beWord h.d 4 ++ beWord h.e 4

/-- One lower-case hexadecimal digit. -/
def hexDigit (n : Nat) : Char := "0123456789abcdef".data.getD n '0'

/-- The 40-digit text of an object id, as `sha.String()` prints it. -/
def hex (bs : Bytes) : String := ⟨bs.flatMap (fun b => [hexDigit (b / 16), hexDigit (b % 16)])⟩


/-- Adler-32 checksum of RFC 1950. -/
def adler32Loop : Bytes → Nat → Nat → Nat
  | [], a, b => b * 65536 + a
  | x :: xs, a, b => adler32Loop xs ((a + x) % 65521) ((b + (a + x) % 65521) % 65521)

/-- Adler-32 of a byte string. -/
def adler32 (bs : Bytes) : Nat := adler32Loop bs 1 0

/-- The bits of a byte stream, least significant bit of each byte first. -/
def bitsOf : Bytes → List Bool
  | [] => []
  | b :: bs =>
    b.testBit 0 :: b.testBit 1 :: b.testBit 2 :: b.testBit 3 :: b.testBit 4 :: b.testBit 5
      :: b.testBit 6 :: b.testBit 7 :: bitsOf bs

/-- Read an `n`-bit integer, least significant bit first. -/
def readBits : Nat → List Bool → Option (Nat × List Bool)
  | 0, bs => some (0, bs)
  | _ + 1, [] => none
  | n + 1, b :: bs =>
    match readBits n bs with
    | some (v, r) => some (b.toNat + 2 * v, r)
    | none => none

/-- A canonical Huffman code: how many codes there are of each length 1..15,
and the symbols ordered by code. -/
structure Huffman where
  counts : List Nat
  symbols : List Nat
  deriving DecidableEq, Repr

/-- The symbols whose code length is `l`, in increasing order. -/
def symbolsOfLength (lens : List Nat) (l : Nat) : List Nat :=
  (lens.enum.filter (fun p => p.2 = l)).map (fun p => p.1)

/-- Build the canonical code from per-symbol code lengths (0 = unused). -/
def mkHuffman (lens : List Nat) : Huffman :=
  { counts := (List.range 15).map (fun l => lens.count (l + 1)),
    symbols := (List.range 15).flatMap (fun l => symbolsOfLength lens (l + 1)) }

/-- The code space left after assigning the codes: `none` when the lengths
over-subscribe the code space, `some 0` when they use it exactly. -/
def codeSpaceLeft : List Nat → Nat → Option Nat
  | [], left => some left
  | c :: cs, left => if 2 * left < c then none else codeSpaceLeft cs (2 * left - c)

/-- Decode one symbol, reading the code bit by bit. -/
def decodeSym (symbols : List Nat) : List Nat → Nat → Nat → Nat → List Bool
    → Option (Nat × List Bool)
  | [], _, _, _, _ => none
  | _ :: _, _, _, _, [] => none
  | count :: rest, code, first, index, b :: bs =>
    if code + b.toNat < first + count then
      match symbols.get? (index + (code + b.toNat - first)) with
      | some s => some (s, bs)
      | none => none
    else
      decodeSym symbols rest (2 * (code + b.toNat)) (2 * (first + count)) (index + count) bs

/-- Decode one symbol with a code. -/
def Huffman.decode (h : Huffman) (bits : List Bool) : Option (Nat × List Bool) :=
  decodeSym h.symbols h.counts 0 0 0 bits

/-- Base match length and number of extra bits of the length symbols
257..285 (RFC 1951, section 3.2.5). -/
def lengthTable : List (Nat × Nat) :=
  [
    (3, 0), (4, 0), (5, 0), (6, 0), (7, 0), (8, 0),
    (9, 0), (10, 0), (11, 1), (13, 1), (15, 1), (17, 1),
    (19, 2), (23, 2), (27, 2), (31, 2), (35, 3), (43, 3),
    (51, 3), (59, 3), (67, 4), (83, 4), (99, 4), (115, 4),
    (131, 5), (163, 5), (195, 5), (227, 5), (258, 0)
  ]

/-- Base distance and number of extra bits of the distance symbols 0..29
(RFC 1951, section 3.2.5). -/
def distTable : List (Nat × Nat) :=
  [
    (1, 0), (2, 0), (3, 0), (4, 0), (5, 1), (7, 1),
    (9, 2), (13, 2), (17, 3), (25, 3), (33, 4), (49, 4),
    (65, 5), (97, 5), (129, 6), (193, 6), (257, 7), (385, 7),
    (513, 8), (769, 8), (1025, 9), (1537, 9), (2049, 10), (3073, 10),
    (4097, 11), (6145, 11), (8193, 12), (12289, 12), (16385, 13), (24577, 13)
  ]

/-- Append `len` bytes, each copied from `dist` bytes back. The output is kept
newest byte first. -/
def copyBack : Nat → Nat → Bytes → Option Bytes
  | 0, _, out => some out
  | len + 1, dist, out =>
    match out.get? (dist - 1) with
    | some b => copyBack len dist (b :: out)
    | none => none

/-- Decode literal/length and distance codes until the end-of-block symbol. -/
def inflateCodes (lit dist : Huffman) : Nat → List Bool → Bytes → Option (List Bool × Bytes)
  | 0, _, _ => none
  | fuel + 1, bits, out =>
    match lit.decode bits with
    | none => none
    | some (sym, bits1) =>
      if sym < 256 then inflateCodes lit dist fuel bits1 (sym :: out)
      else if sym = 256 then some (bits1, out)
      else
        match lengthTable.get? (sym - 257) with
        | some (lb, le) =>
          match readBits le bits1 with
          | none => none
          | some (lx, bits2) =>
            match dist.decode bits2 with
            | none => none
            | some (dsym, bits3) =>
              match distTable.get? dsym with
              | some (db, de) =>
                match readBits de bits3 with
                | none => none
                | some (dx, bits4) =>
                  if db + dx = 0 then none
                  else
                    match copyBack (lb + lx) (db + dx) out with
                    | some out1 => inflateCodes lit dist fuel bits4 out1
                    | none => none
              | none => none
        | none => none

/-- The fixed literal/length code of RFC 1951, section 3.2.6. -/
def fixedLit : Huffman :=
  mkHuffman (List.replicate 144 8 ++ List.replicate 112 9 ++ List.replicate 24 7
    ++ List.replicate 8 8)

/-- The fixed distance code. -/
def fixedDist : Huffman := mkHuffman (List.replicate 30 5)

/-- Read `n` whole bytes from a bit stream. -/
def readBytes : Nat → List Bool → Bytes → Option (List Bool × Bytes)
  | 0, bits, out => some (bits, out)
  | n + 1, bits, out =>
    match readBits 8 bits with
    | some (b, r) => readBytes n r (b :: out)
    | none => none

/-- A stored block: skip to the byte boundary, then LEN, NLEN and LEN bytes. -/
def inflateStored (bits : List Bool) (out : Bytes) : Option (List Bool × Bytes) :=
  match readBits 16 (bits.drop (bits.length % 8)) with
  | none => none
  | some (len, r1) =>
    match readBits 16 r1 with
    | none => none
    | some (nlen, r2) => if len + nlen = 65535 then readBytes len r2 out else none

/-- The order in which code-length code lengths are stored. -/
def lengthOrder : List Nat :=
  [16, 17, 18, 0] ++ [8, 7, 9, 6, 10, 5, 11, 4] ++ [12, 3, 13, 2, 14, 1, 15]

/-- Read the `n` three-bit code-length code lengths; the result lists
`(symbol, length)`. -/
def readLengthLengths : List Nat → Nat → List Bool → Option (List (Nat × Nat) × List Bool)
  | _, 0, bits => some ([], bits)
  | [], _ + 1, _ => none
  | s :: order, n + 1, bits =>
    match readBits 3 bits with
    | none => none
    | some (v, r) =>
      match readLengthLengths order n r with
      | some (l, r1) => some ((s, v) :: l, r1)
      | none => none

/-- Decode `total` literal/length and distance code lengths with the
code-length code (symbols 16, 17, 18 repeat). The result is newest first. -/
def readCodeLengths (lencode : Huffman) (total : Nat) : Nat → List Bool → List Nat
    → Option (List Nat × List Bool)
  | 0, _, _ => none
  | fuel + 1, bits, acc =>
    if acc.length = total then some (acc, bits)
    else if total < acc.length then none
    else
      match lencode.decode bits with
      | none => none
      | some (sym, r) =>
        if sym < 16 then readCodeLengths lencode total fuel r (sym :: acc)
        else if sym = 16 then
          match acc, readBits 2 r with
          | prev :: _, some (n, r1) =>
            readCodeLengths lencode total fuel r1 (List.replicate (3 + n) prev ++ acc)
          | _, _ => none
        else if sym = 17 then
          match readBits 3 r with
          | some (n, r1) =>
            readCodeLengths lencode total fuel r1 (List.replicate (3 + n) 0 ++ acc)
          | none => none
        else
          match readBits 7 r with
          | some (n, r1) =>
            readCodeLengths lencode total fuel r1 (List.replicate (11 + n) 0 ++ acc)
          | none => none

/-- A set of code lengths is usable when it fills the code space exactly, or
leaves space while holding only codes of length one. -/
def usableLengths (lens : List Nat) : Bool :=
  match codeSpaceLeft (mkHuffman lens).counts 1 with
  | none => false
  | some left =>
    left = 0 || lens.length - lens.count 0 = lens.count 1

/-- A block compressed with dynamic Huffman codes. -/
def inflateDynamic (bits : List Bool) (out : Bytes) : Option (List Bool × Bytes) :=
  match readBits 5 bits with
  | none => none
  | some (hlit, r1) =>
    match readBits 5 r1 with
    | none => none
    | some (hdist, r2) =>
      match readBits 4 r2 with
      | none => none
      | some (hclen, r3) =>
        if 286 < hlit + 257 ∨ 30 < hdist + 1 then none
        else
          match readLengthLengths lengthOrder (hclen + 4) r3 with
          | none => none
          | some (pairs, r4) =>
            if codeSpaceLeft
                (mkHuffman ((List.range 19).map (fun s => (pairs.lookup s).getD 0))).counts 1
                ≠ some 0 then none
            else
              match readCodeLengths
                  (mkHuffman ((List.range 19).map (fun s => (pairs.lookup s).getD 0)))
                  (hlit + 257 + (hdist + 1)) (r4.length + 1) r4 [] with
              | none => none
              | some (revLens, r5) =>
                if revLens.reverse.getD 256 0 = 0 then none
                else if ¬ usableLengths (revLens.reverse.take (hlit + 257)) then none
                else if ¬ usableLengths (revLens.reverse.drop (hlit + 257)) then none
                else
                  inflateCodes (mkHuffman (revLens.reverse.take (hlit + 257)))
                    (mkHuffman (revLens.reverse.drop (hlit + 257))) (r5.length + 1) r5 out

/-- The blocks of a DEFLATE stream (RFC 1951), up to and including the one
marked final. -/
def inflateBlocks : Nat → List Bool → Bytes → Option (List Bool × Bytes)
  | 0, _, _ => none
  | fuel + 1, bits, out =>
    match readBits 1 bits with
    | none => none
    | some (final, r1) =>
      match readBits 2 r1 with
      | none => none
      | some (btype, r2) =>
        match (if btype = 0 then inflateStored r2 out
               else if btype = 1 then inflateCodes fixedLit fixedDist (r2.length + 1) r2 out
               else if btype = 2 then inflateDynamic r2 out
               else none) with
        | none => none
        | some (r3, out1) =>
          if final = 1 then some (r3, out1) else inflateBlocks fuel r3 out1

/-- Modelled from the spec: the standard deflate decompressor that section 4.2
wraps, which is not among the sources. It reads a zlib stream (RFC 1950 and
RFC 1951) at the head of `data`: the inflated bytes and the number of input
bytes the stream occupies, header and Adler-32 included. -/
def zlibInflate (data : Bytes) : Option (Bytes × Nat) :=
  match data with
  | cmf :: flg :: rest =>
    if cmf % 16 ≠ 8 ∨ 7 < cmf / 16 ∨ (cmf * 256 + flg) % 31 ≠ 0 ∨ (flg / 32) % 2 = 1 then none
    else
      match inflateBlocks ((bitsOf rest).length + 1) (bitsOf rest) [] with
      | none => none
      | some (left, out) =>
        if ((rest.drop (rest.length - left.length / 8)).take 4).length = 4
            ∧ wordOf ((rest.drop (rest.length - left.length / 8)).take 4)
              = adler32 out.reverse then
          some (out.reverse, 2 + (rest.length - left.length / 8) + 4)
        else none
  | _ => none

/-- The error taxonomy of the spec, section 7. -/
inductive PackError
  | MalformedHeader
  | UnexpectedEOF
  | UnsupportedObjectType
  | CycleDetected
  | MissingBase
  | CorruptPack
  | CorruptObject
  deriving DecidableEq, Repr

/-- The four kinds a resolved object can have. -/
inductive ObjectKind
  | commit
  | tree
  | blob
  | tag
  deriving DecidableEq, Repr

/-- The kind of a pack entry: a whole object, or a delta naming its base by
back-offset (OFS_DELTA) or by 20-byte hash (REF_DELTA). -/
inductive EntryKind
  | object (kind : ObjectKind)
  | ofsDelta (backOffset : Nat)
  | refDelta (baseHash : Bytes)
  deriving DecidableEq, Repr

/-- Modelled from the spec: the PackEntry of section 3 (offset of the entry
header, kind, declared inflated size, payload), with the payload inflated. -/
structure PackEntry where
  offset : Nat
  kind : EntryKind
  size : Nat
  payload : Bytes
  deriving DecidableEq, Repr

/-- Modelled from the spec: the ResolvedObject of section 3. -/
structure ResolvedObject where
  offset : Nat
  kind : ObjectKind
  content : Bytes
  hash : Bytes
  deriving DecidableEq, Repr

/-- Modelled from the spec: the PackHeader of section 3. The signature must
be `PACK`, the version 2; the result is the declared object count (bytes
8..11, big-endian). -/
def parseHeader (pack : Bytes) : Except PackError Nat :=
  if pack.length < 12 then .error .UnexpectedEOF
  else if pack.take 4 ≠ [80, 65, 67, 75] then .error .MalformedHeader
  else if wordOf ((pack.drop 4).take 4) ≠ 2 then .error .MalformedHeader
  else .ok (wordOf ((pack.drop 8).take 4))

/-- The continuation bytes of an entry header: seven more size bits each. -/
def readSizeTail : Bytes → Nat → Nat → Option (Nat × Bytes)
  | [], _, _ => none
  | b :: bs, shift, acc =>
    if 128 ≤ b then readSizeTail bs (shift + 7) (acc + (b % 128) <<< shift)
    else some (acc + b <<< shift, bs)

/-- Modelled from the spec: the entry header of section 4.1. The first byte
holds the low four size bits and three type bits; bit 7 signals continuation.
The result is the type code, the declared size and the remaining bytes. -/
def readEntryHeader : Bytes → Option (Nat × Nat × Bytes)
  | [] => none
  | b :: bs =>
    if 128 ≤ b then
      match readSizeTail bs 4 (b % 16) with
      | some (size, rest) => some ((b / 16) % 8, size, rest)
      | none => none
    else some ((b / 16) % 8, b % 16, bs)

/-- Modelled from the spec: the OFS_DELTA back-offset of section 4.1. Each
byte gives seven bits, most significant group first, with an implicit
"+1, shift" between bytes. -/
def readOffsetTail : Bytes → Nat → Option (Nat × Bytes)
  | [], _ => none
  | b :: bs, acc =>
    if 128 ≤ b then readOffsetTail bs ((acc + 1) * 128 + b % 128)
    else some ((acc + 1) * 128 + b, bs)

/-- Modelled from the spec: the first byte of the OFS_DELTA back-offset
(section 4.1). -/
def readBackOffset : Bytes → Option (Nat × Bytes)
  | [] => none
  | b :: bs => if 128 ≤ b then readOffsetTail bs (b % 128) else some (b, bs)

/-- Modelled from the spec: the Object Decompressor of section 4.2. The
inflated payload must have the declared size; a corrupt or short stream is
`CorruptPack`. The result is the payload and the bytes the stream occupies. -/
def decompress (data : Bytes) (size : Nat) : Except PackError (Bytes × Nat) :=
  match zlibInflate data with
  | none => .error .CorruptPack
  | some (payload, used) =>
    if payload.length = size then .ok (payload, used) else .error .CorruptPack

/-- Modelled from the spec: one pack entry read at byte `offset` (sections
4.1 and 4.2). The result is the entry and the offset of what follows it. -/
def parseEntry (pack : Bytes) (offset : Nat) : Except PackError (PackEntry × Nat) :=
  match readEntryHeader (pack.drop offset) with
  | none => .error .UnexpectedEOF
  | some (type, size, rest) =>
    if type = 6 then
      match readBackOffset rest with
      | none => .error .UnexpectedEOF
      | some (back, rest1) =>
        if offset < back then .error .CorruptPack
        else
          match decompress rest1 size with
          | .error e => .error e
          | .ok (payload, used) =>
            .ok ({ offset := offset, kind := .ofsDelta back, size := size, payload := payload },
              pack.length - rest1.length + used)
    else if type = 7 then
      if rest.length < 20 then .error .UnexpectedEOF
      else
        match decompress (rest.drop 20) size with
        | .error e => .error e
        | .ok (payload, used) =>
          .ok ({ offset := offset, kind := .refDelta (rest.take 20), size := size,
                 payload := payload },
            pack.length - rest.length + 20 + used)
    else
      match (if type = 1 then some ObjectKind.commit else if type = 2 then some ObjectKind.tree
             else if type = 3 then some ObjectKind.blob else if type = 4 then some ObjectKind.tag
             else none) with
      | none => .error .UnsupportedObjectType
      | some k =>
        match decompress rest size with
        | .error e => .error e
        | .ok (payload, used) =>
          .ok ({ offset := offset, kind := .object k, size := size, payload := payload },
            pack.length - rest.length + used)

/-- Read `n` entries one after the other, starting at `offset`. -/
def parseEntries (pack : Bytes) : Nat → Nat → Except PackError (List PackEntry × Nat)
  | 0, offset => .ok ([], offset)
  | n + 1, offset =>
    match parseEntry pack offset with
    | .error e => .error e
    | .ok (entry, next) =>
      match parseEntries pack n next with
      | .error e => .error e
      | .ok (entries, stop) => .ok (entry :: entries, stop)

/-- A size of the delta stream: seven bits per byte, least significant first. -/
def readVarint : Bytes → Nat → Nat → Option (Nat × Bytes)
  | [], _, _ => none
  | b :: bs, shift, acc =>
    if 128 ≤ b then readVarint bs (shift + 7) (acc + (b % 128) <<< shift)
    else some (acc + b <<< shift, bs)

/-- The variable-width field of a copy opcode: one byte for each listed bit
that is set in the opcode, placed at that bit's shift. -/
def readMasked (opcode : Nat) : List (Nat × Nat) → Bytes → Nat → Option (Nat × Bytes)
  | [], bs, acc => some (acc, bs)
  | (bit, shift) :: fields, bs, acc =>
    if opcode.testBit bit then
      match bs with
      | [] => none
      | b :: rest => readMasked opcode fields rest (acc + b <<< shift)
    else readMasked opcode fields bs acc

/-- Replay the opcodes of a delta against `base`. -/
def applyOps (base : Bytes) : Nat → Bytes → Bytes → Except PackError Bytes
  | 0, _, _ => .error .CorruptObject
  | _ + 1, [], out => .ok out
  | fuel + 1, op :: rest, out =>
    if 128 ≤ op then
      match readMasked op [(0, 0), (1, 8), (2, 16), (3, 24)] rest 0 with
      | none => .error .CorruptObject
      | some (off, rest1) =>
        match readMasked op [(4, 0), (5, 8), (6, 16)] rest1 0 with
        | none => .error .CorruptObject
        | some (len, rest2) =>
          if base.length < off + (if len = 0 then 65536 else len) then .error .CorruptObject
          else
            applyOps base fuel rest2
              (out ++ (base.drop off).take (if len = 0 then 65536 else len))
    else if op = 0 then .error .CorruptObject
    else if rest.length < op then .error .CorruptObject
    else applyOps base fuel (rest.drop op) (out ++ rest.take op)

/-- Modelled from the spec: the Delta Applicator of section 4.4 over the
DeltaInstructionStream of section 3 (base size, result size, opcodes). The
result must have the declared result size. -/
def applyDelta (base delta : Bytes) : Except PackError Bytes :=
  match readVarint delta 0 0 with
  | none => .error .CorruptObject
  | some (_, rest) =>
    match readVarint rest 0 0 with
    | none => .error .CorruptObject
    | some (resultSize, ops) =>
      match applyOps base (ops.length + 1) ops [] with
      | .error e => .error e
      | .ok out => if out.length = resultSize then .ok out else .error .CorruptObject

/-- The name of a kind as it appears in the object header. -/
def ObjectKind.name : ObjectKind → String
  | .commit => "commit"
  | .tree => "tree"
  | .blob => "blob"
  | .tag => "tag"

/-- Decimal digits of a number, as bytes. -/
def decimal : Nat → Nat → Bytes
  | 0, _ => []
  | fuel + 1, n => if n < 10 then [48 + n] else decimal fuel (n / 10) ++ [48 + n % 10]

/-- Modelled from the spec: the content-addressed hash of section 3, the
SHA-1 of the header `<kind> <length>\0` followed by the content. -/
def objectHash (kind : ObjectKind) (content : Bytes) : Bytes :=
  sha1 (kind.name.data.map Char.toNat ++ [32] ++ decimal (content.length + 1) content.length
    ++ [0] ++ content)

/-- A resolved object with its hash computed from kind and content. -/
def mkResolved (offset : Nat) (kind : ObjectKind) (content : Bytes) : ResolvedObject :=
  { offset := offset, kind := kind, content := content, hash := objectHash kind content }

/-- Modelled from the spec: one step of the Delta Resolver of section 4.3 on
the result table. A whole object resolves to its payload; a delta whose base
is in the table (by offset, or by hash) resolves to the delta applied to the
base's content and takes the base's kind; otherwise it stays pending. -/
def resolveEntry (table : List ResolvedObject) (e : PackEntry) :
    Except PackError (Option ResolvedObject) :=
  match e.kind with
  | .object k => .ok (some (mkResolved e.offset k e.payload))
  | .ofsDelta back =>
    match table.find? (fun r => r.offset = e.offset - back) with
    | none => .ok none
    | some b =>
      match applyDelta b.content e.payload with
      | .error err => .error err
      | .ok content => .ok (some (mkResolved e.offset b.kind content))
  | .refDelta h =>
    match table.find? (fun r => r.hash = h) with
    | none => .ok none
    | some b =>
      match applyDelta b.content e.payload with
      | .error err => .error err
      | .ok content => .ok (some (mkResolved e.offset b.kind content))

/-- One pass over the entries: every entry not yet in the table is resolved
if it can be. -/
def resolvePass : List PackEntry → List ResolvedObject → Except PackError (List ResolvedObject)
  | [], table => .ok table
  | e :: es, table =>
    if table.any (fun r => r.offset = e.offset) then resolvePass es table
    else
      match resolveEntry table e with
      | .error err => .error err
      | .ok none => resolvePass es table
      | .ok (some r) => resolvePass es (table ++ [r])

/-- Modelled from the spec: passes are repeated until one makes no progress
(section 4.3). A pass that makes progress resolves at least one entry, so
`n` passes are enough for `n` entries. -/
def resolvePasses (entries : List PackEntry) : Nat → List ResolvedObject
    → Except PackError (List ResolvedObject)
  | 0, table => .ok table
  | n + 1, table =>
    match resolvePass entries table with
    | .error err => .error err
    | .ok table1 =>
      if table1.length = table.length then .ok table1 else resolvePasses entries n table1

/-- The error for an entry still pending when no pass makes progress: an
OFS_DELTA pointing at itself is a cycle, one pointing at no entry is corrupt,
anything else waits on a base that is not in the pack. -/
def pendingError (entries : List PackEntry) (e : PackEntry) : PackError :=
  match e.kind with
  | .ofsDelta back =>
    if back = 0 then .CycleDetected
    else if entries.any (fun b => b.offset = e.offset - back) then .MissingBase
    else .CorruptPack
  | _ => .MissingBase

/-- The hash of every entry, in pack order, from the result table. -/
def collectHashes (entries : List PackEntry) (table : List ResolvedObject) :
    List PackEntry → Except PackError (List Bytes)
  | [] => .ok []
  | e :: es =>
    match table.find? (fun r => r.offset = e.offset) with
    | none => .error (pendingError entries e)
    | some r =>
      match collectHashes entries table es with
      | .error err => .error err
      | .ok hs => .ok (r.hash :: hs)

/-- Modelled from the spec: `UnpackObjects` of the `git` package, which is
not among the sources. It reads the header and the declared number of
entries (sections 3, 4.1, 4.2), checks the trailer against the hash of the
bytes before it (section 4.7), resolves every entry (sections 4.3, 4.4) with
no external object store, and returns the object ids in pack order. -/
def UnpackObjects (pack : Bytes) : Except PackError (List Bytes) :=
  match parseHeader pack with
  | .error e => .error e
  | .ok count =>
    match parseEntries pack count 12 with
    | .error e => .error e
    | .ok (entries, stop) =>
      if stop + 20 ≠ pack.length then .error .CorruptPack
      else if sha1 (pack.take stop) ≠ pack.drop stop then .error .CorruptPack
      else
        match resolvePasses entries entries.length [] with
        | .error e => .error e
        | .ok table => collectHashes entries table entries

/-- The first pack of `TestPackfileUnpack`: a blob and a REF_DELTA on it. -/
def packRefDelta2 : Bytes :=
  [
    0x50, 0x41, 0x43, 0x4b, 0x00, 0x00, 0x00, 0x02, 0x00, 0x00, 0x00, 0x02, 0xbc, 0x08, 0x78, 0x9c,
    0x73, 0xe4, 0x72, 0xc4, 0x09, 0x9d, 0xb8, 0x9c, 0xb9, 0x5c, 0xb8, 0x5c, 0xe9, 0x46, 0x03, 0x00,
    0xcc, 0xc9, 0x15, 0x0f, 0x75, 0xbe, 0x22, 0xa5, 0xc7, 0xd7, 0xb2, 0x5c, 0x99, 0x0d, 0x89, 0xd7,
    0xc1, 0x83, 0x82, 0xf0, 0x81, 0x5f, 0x68, 0x3f, 0x17, 0x78, 0x9c, 0xeb, 0x61, 0x2c, 0x9a, 0x50,
    0x04, 0x00, 0x05, 0xad, 0x02, 0x02, 0x75, 0xb8, 0x48, 0x6c, 0x4d, 0xda, 0x43, 0x46, 0x17, 0x0b,
    0x29, 0x86, 0x95, 0x51, 0x0a, 0x29, 0x29, 0x68, 0x86, 0xe4
  ]

/-- The second pack of `TestPackfileUnpack`: a REF_DELTA chain of depth 2. -/
def packRefDelta3 : Bytes :=
  [
    0x50, 0x41, 0x43, 0x4b, 0x00, 0x00, 0x00, 0x02, 0x00, 0x00, 0x00, 0x03, 0xbc, 0x08, 0x78, 0x9c,
    0x73, 0xe4, 0x72, 0xc4, 0x09, 0x9d, 0xb8, 0x9c, 0xb9, 0x5c, 0xb8, 0x5c, 0xe9, 0x46, 0x03, 0x00,
    0xcc, 0xc9, 0x15, 0x0f, 0x75, 0xbe, 0x22, 0xa5, 0xc7, 0xd7, 0xb2, 0x5c, 0x99, 0x0d, 0x89, 0xd7,
    0xc1, 0x83, 0x82, 0xf0, 0x81, 0x5f, 0x68, 0x3f, 0x17, 0x78, 0x9c, 0xeb, 0x61, 0x2c, 0x9a, 0x50,
    0x04, 0x00, 0x05, 0xad, 0x02, 0x02, 0x75, 0x84, 0xdf, 0xc6, 0xfb, 0x0e, 0x86, 0xcf, 0x29, 0x04,
    0x9d, 0x53, 0x04, 0x1e, 0x2d, 0x55, 0xf8, 0x63, 0xea, 0xcf, 0xd8, 0x78, 0x9c, 0x2b, 0x4a, 0x9a,
    0x28, 0x90, 0x04, 0x00, 0x05, 0xfc, 0x01, 0xd8, 0x2d, 0xec, 0xe2, 0xa0, 0x76, 0x47, 0xdd, 0xad,
    0xd9, 0xae, 0xb3, 0x07, 0x4f, 0x8d, 0x9e, 0x62, 0x1b, 0xec, 0x69, 0x79
  ]

/-- The third pack of `TestPackfileUnpack`: the first, with OFS_DELTA. -/
def packOfsDelta2 : Bytes :=
  [
    0x50, 0x41, 0x43, 0x4b, 0x00, 0x00, 0x00, 0x02, 0x00, 0x00, 0x00, 0x02, 0xbc, 0x08, 0x78, 0x9c,
    0x73, 0xe4, 0x72, 0xc4, 0x09, 0x9d, 0xb8, 0x9c, 0xb9, 0x5c, 0xb8, 0x5c, 0xe9, 0x46, 0x03, 0x00,
    0xcc, 0xc9, 0x15, 0x0f, 0x65, 0x18, 0x78, 0x9c, 0xeb, 0x61, 0x2c, 0x9a, 0x50, 0x04, 0x00, 0x05,
    0xad, 0x02, 0x02, 0x25, 0x15, 0xc5, 0xe5, 0xae, 0xc7, 0x2b, 0x3a, 0xc9, 0x80, 0xfc, 0x8b, 0x7f,
    0x61, 0xc8, 0xd0, 0x6d, 0xf0, 0x62, 0xf2
  ]

/-- The fourth pack of `TestPackfileUnpack`: an OFS_DELTA chain of depth 2. -/
def packOfsDelta3 : Bytes :=
  [
    0x50, 0x41, 0x43, 0x4b, 0x00, 0x00, 0x00, 0x02, 0x00, 0x00, 0x00, 0x03, 0xbc, 0x08, 0x78, 0x9c,
    0x73, 0xe4, 0x72, 0xc4, 0x09, 0x9d, 0xb8, 0x9c, 0xb9, 0x5c, 0xb8, 0x5c, 0xe9, 0x46, 0x03, 0x00,
    0xcc, 0xc9, 0x15, 0x0f, 0x65, 0x18, 0x78, 0x9c, 0xeb, 0x61, 0x2c, 0x9a, 0x50, 0x04, 0x00, 0x05,
    0xad, 0x02, 0x02, 0x65, 0x0f, 0x78, 0x9c, 0x2b, 0x4a, 0x9a, 0x28, 0x90, 0x04, 0x00, 0x05, 0xfc,
    0x01, 0xd8, 0x75, 0xcc, 0x90, 0x92, 0xc3, 0xd9, 0x93, 0xba, 0xcf, 0xe4, 0x1d, 0x7c, 0xed, 0x5d,
    0x8f, 0x46, 0xdf, 0xc2, 0x19, 0x0f
  ]

/-- The object count declared in the pack header: bytes 8..11, big-endian. -/
def declaredCount (pack : Bytes) : Nat := wordOf ((pack.drop 8).take 4)

/-- The object id `be22a5c7d7b25c990d89d7c18382f0815f683f17`. -/
def idBe22 : Bytes :=
  [0xbe, 0x22, 0xa5, 0xc7, 0xd7, 0xb2, 0x5c, 0x99, 0x0d, 0x89, 0xd7, 0xc1, 0x83, 0x82, 0xf0, 0x81, 0x5f, 0x68, 0x3f, 0x17]

/-- The object id `84dfc6fb0e86cf29049d53041e2d55f863eacfd8`. -/
def id84df : Bytes :=
  [0x84, 0xdf, 0xc6, 0xfb, 0x0e, 0x86, 0xcf, 0x29, 0x04, 0x9d, 0x53, 0x04, 0x1e, 0x2d, 0x55, 0xf8, 0x63, 0xea, 0xcf, 0xd8]

/-- The object id `bbd835f67c0ef19084d9b97e9219c1b38e66bd80`. -/
def idBbd8 : Bytes :=
  [0xbb, 0xd8, 0x35, 0xf6, 0x7c, 0x0e, 0xf1, 0x90, 0x84, 0xd9, 0xb9, 0x7e, 0x92, 0x19, 0xc1, 0xb3, 0x8e, 0x66, 0xbd, 0x80]

/-- Results of the pack functions can be compared. -/
instance decEqExcept {ε α : Type} [DecidableEq ε] [DecidableEq α] : DecidableEq (Except ε α)
  | .ok a, .ok b =>
    if h : a = b then isTrue (congrArg Except.ok h)
    else isFalse (fun h1 => h (Except.ok.inj h1))
  | .error a, .error b =>
    if h : a = b then isTrue (congrArg Except.error h)
    else isFalse (fun h1 => h (Except.error.inj h1))
  | .ok _, .error _ => isFalse (fun h => Except.noConfusion h)
  | .error _, .ok _ => isFalse (fun h => Except.noConfusion h)

/-! ### What a valid pack is

The bytes of a pack are described from the encoder's side: a zlib stream by
its blocks and their symbols, a delta by its instructions, an entry by its
header fields and what it stands for. A valid pack is the bytes of a
well-formed description. -/

/-- The `n` low bits of `v`, least significant first: how DEFLATE packs
integers (RFC 1951, section 3.1.1). -/
def natBits : Nat → Nat → List Bool
  | 0, _ => []
  | n + 1, v => decide (v % 2 = 1) :: natBits n (v / 2)

/-- The `n` low bits of `v`, most significant first: how DEFLATE packs
Huffman codes. -/
def codeBits : Nat → Nat → List Bool
  | 0, _ => []
  | n + 1, v => decide (v / 2 ^ n % 2 = 1) :: codeBits n v

/-- The byte whose bits, least significant first, are the given eight. -/
def byteOfBits (b0 b1 b2 b3 b4 b5 b6 b7 : Bool) : Nat :=
  b0.toNat + 2 * b1.toNat + 4 * b2.toNat + 8 * b3.toNat + 16 * b4.toNat + 32 * b5.toNat
    + 64 * b6.toNat + 128 * b7.toNat

/-- Pack a bit string into bytes, eight bits a byte, least significant first. -/
def packBits : List Bool → Bytes
  | b0 :: b1 :: b2 :: b3 :: b4 :: b5 :: b6 :: b7 :: rest =>
    byteOfBits b0 b1 b2 b3 b4 b5 b6 b7 :: packBits rest
  | _ => []

/-- The number of symbols whose code has length `l`; length 0 marks a symbol
that is not used (RFC 1951, section 3.2.2, step 1). -/
def codeCount (lens : List Nat) (l : Nat) : Nat := if l = 0 then 0 else lens.count l

/-- The numerically smallest code of length `l` (RFC 1951, section 3.2.2,
step 2). -/
def nextCode (lens : List Nat) : Nat → Nat
  | 0 => 0
  | l + 1 => (nextCode lens l + codeCount lens l) * 2

/-- The code of symbol `s`: codes of one length are consecutive, in symbol
order (RFC 1951, section 3.2.2, step 3). -/
def codeValue (lens : List Nat) (s : Nat) : Nat :=
  nextCode lens (lens.getD s 0) + (lens.take s).count (lens.getD s 0)

/-- The bits that encode symbol `s` under the code lengths `lens`. -/
def symbolBits (lens : List Nat) (s : Nat) : List Bool :=
  codeBits (lens.getD s 0) (codeValue lens s)

/-- The code space taken by `counts` codes of lengths 1, 2, ..., in units of
the longest length. -/
def kraftWeight : List Nat → Nat
  | [] => 0
  | c :: cs => c * 2 ^ cs.length + kraftWeight cs

/-- The number of codes of each length 1..15. -/
def lengthCounts (lens : List Nat) : List Nat :=
  (List.range 15).map (fun i => lens.count (i + 1))

/-- The code lengths do not over-subscribe the code space (Kraft's
inequality), so that they determine a prefix code. -/
def KraftOk (lens : List Nat) : Prop := kraftWeight (lengthCounts lens) ≤ 2 ^ 15

/-- Symbol `s` has a code: it is in range and its length is between 1 and 15. -/
def HasCode (lens : List Nat) (s : Nat) : Prop :=
  s < lens.length ∧ 1 ≤ lens.getD s 0 ∧ lens.getD s 0 ≤ 15

/-- One element of a block's compressed data: a literal byte, or a
back-reference given by its length symbol (257 + `lenIdx`), distance symbol
and the values of their extra bits (RFC 1951, section 3.2.5). -/
inductive Sym
  | lit (b : Nat)
  | copy (lenIdx lenExtra distIdx distExtra : Nat)
  deriving DecidableEq, Repr

/-- The match length a back-reference stands for. -/
def Sym.copyLength (lenIdx lenExtra : Nat) : Nat := (lengthTable.getD lenIdx (0, 0)).1 + lenExtra

/-- The distance a back-reference stands for. -/
def Sym.copyDist (distIdx distExtra : Nat) : Nat := (distTable.getD distIdx (0, 0)).1 + distExtra

/-- The bits of one element under the literal/length and distance code
lengths: Huffman codes, each followed by its extra bits. -/
def Sym.bits (litLens distLens : List Nat) : Sym → List Bool
  | .lit b => symbolBits litLens b
  | .copy li lx di dx =>
    symbolBits litLens (257 + li) ++ natBits (lengthTable.getD li (0, 0)).2 lx
      ++ symbolBits distLens di ++ natBits (distTable.getD di (0, 0)).2 dx

/-- The bits of a block's compressed data: its elements, then the
end-of-block symbol 256. -/
def symsBits (litLens distLens : List Nat) (syms : List Sym) : List Bool :=
  syms.flatMap (Sym.bits litLens distLens) ++ symbolBits litLens 256

/-- Append `len` bytes, each a copy of the byte `dist` positions back. -/
def lzCopy : Nat → Nat → Bytes → Bytes
  | 0, _, out => out
  | len + 1, dist, out => lzCopy len dist (out ++ [out.getD (out.length - dist) 0])

/-- The output after one element. -/
def Sym.output (out : Bytes) : Sym → Bytes
  | .lit b => out ++ [b]
  | .copy li lx di dx => lzCopy (Sym.copyLength li lx) (Sym.copyDist di dx) out

/-- The output after a list of elements. -/
def symsOutput (out : Bytes) (syms : List Sym) : Bytes := syms.foldl Sym.output out

/-- An element is well formed after the output `out`: its symbols have codes,
its extra bits fit, and a back-reference stays inside the output so far. -/
def Sym.Ok (litLens distLens : List Nat) (out : Bytes) : Sym → Prop
  | .lit b => b < 256 ∧ HasCode litLens b
  | .copy li lx di dx =>
    li < 29 ∧ lx < 2 ^ (lengthTable.getD li (0, 0)).2 ∧ HasCode litLens (257 + li) ∧
    di < 30 ∧ dx < 2 ^ (distTable.getD di (0, 0)).2 ∧ HasCode distLens di ∧
    1 ≤ Sym.copyDist di dx ∧ Sym.copyDist di dx ≤ out.length

/-- Every element of the list is well formed where it stands. -/
def SymsOk (litLens distLens : List Nat) : Bytes → List Sym → Prop
  | _, [] => True
  | out, s :: syms =>
    Sym.Ok litLens distLens out s ∧ SymsOk litLens distLens (s.output out) syms

/-- The literal/length code lengths of a fixed block (RFC 1951, 3.2.6). -/
def fixedLitLens : List Nat :=
  List.replicate 144 8 ++ List.replicate 112 9 ++ List.replicate 24 7 ++ List.replicate 8 8

/-- The distance code lengths of a fixed block. -/
def fixedDistLens : List Nat := List.replicate 30 5

/-- One element of the run-length coded list of code lengths in the header of
a dynamic block (RFC 1951, section 3.2.7): a length 0..15, a repeat of the
previous length 3..6 times (symbol 16), or a run of 3..138 zeros (symbols 17
and 18). -/
inductive CLSym
  | len (l : Nat)
  | rep (n : Nat)
  | zeros (n : Nat)
  deriving DecidableEq, Repr

/-- The bits of one element under the code-length code `clLens`. -/
def CLSym.bits (clLens : List Nat) : CLSym → List Bool
  | .len l => symbolBits clLens l
  | .rep n => symbolBits clLens 16 ++ natBits 2 (n - 3)
  | .zeros n =>
    if n ≤ 10 then symbolBits clLens 17 ++ natBits 3 (n - 3)
    else symbolBits clLens 18 ++ natBits 7 (n - 11)

/-- The code lengths after one element. -/
def CLSym.expand (acc : List Nat) : CLSym → List Nat
  | .len l => acc ++ [l]
  | .rep n => acc ++ List.replicate n (acc.getLastD 0)
  | .zeros n => acc ++ List.replicate n 0

/-- The code lengths a list of elements stands for. -/
def rleExpand (acc : List Nat) (rle : List CLSym) : List Nat := rle.foldl CLSym.expand acc

/-- An element is well formed after the lengths `acc`. -/
def CLSym.Ok (clLens : List Nat) (acc : List Nat) : CLSym → Prop
  | .len l => l ≤ 15 ∧ HasCode clLens l
  | .rep n => 3 ≤ n ∧ n ≤ 6 ∧ acc ≠ [] ∧ HasCode clLens 16
  | .zeros n => 3 ≤ n ∧ n ≤ 138 ∧ (if n ≤ 10 then HasCode clLens 17 else HasCode clLens 18)

/-- Every element of the list is well formed where it stands. -/
def RleOk (clLens : List Nat) : List Nat → List CLSym → Prop
  | _, [] => True
  | acc, c :: rle => CLSym.Ok clLens acc c ∧ RleOk clLens (c.expand acc) rle

/-- A set of code lengths may be used: it does not over-subscribe the code
space, and it fills it unless no code is longer than one bit. -/
def CodeUsable (lens : List Nat) : Prop :=
  KraftOk lens ∧ (kraftWeight (lengthCounts lens) = 2 ^ 15 ∨ ∀ l ∈ lens, l ≤ 1)

/-- One block of a DEFLATE stream (RFC 1951, section 3.2.3): stored bytes
after padding to the byte boundary, data under the fixed codes, or data
under codes sent in the block. -/
inductive Block
  | stored (pad : List Bool) (data : Bytes)
  | fixed (syms : List Sym)
  | dynamic (litLens distLens clLens : List Nat) (hclen : Nat) (rle : List CLSym)
      (syms : List Sym)
  deriving DecidableEq, Repr

/-- The two-bit block type. -/
def Block.type : Block → Nat
  | .stored _ _ => 0
  | .fixed _ => 1
  | .dynamic _ _ _ _ _ _ => 2

/-- The bits of a block after its three header bits. -/
def Block.bits : Block → List Bool
  | .stored pad data =>
    pad ++ natBits 16 data.length ++ natBits 16 (65535 - data.length)
      ++ data.flatMap (natBits 8)
  | .fixed syms => symsBits fixedLitLens fixedDistLens syms
  | .dynamic litLens distLens clLens hclen rle syms =>
    natBits 5 (litLens.length - 257) ++ natBits 5 (distLens.length - 1) ++ natBits 4 hclen
      ++ (lengthOrder.take (hclen + 4)).flatMap (fun s => natBits 3 (clLens.getD s 0))
      ++ rle.flatMap (CLSym.bits clLens)
      ++ symsBits litLens distLens syms

/-- The output after a block. -/
def Block.output (out : Bytes) : Block → Bytes
  | .stored _ data => out ++ data
  | .fixed syms => symsOutput out syms
  | .dynamic _ _ _ _ _ syms => symsOutput out syms

/-- A block is well formed when it starts `pos` bits into the stream, after
the output `out`. -/
def Block.Ok (pos : Nat) (out : Bytes) : Block → Prop
  | .stored pad data =>
    pad.length < 8 ∧ (pos + 3 + pad.length) % 8 = 0 ∧ data.length < 65536 ∧
    ∀ b ∈ data, b < 256
  | .fixed syms => SymsOk fixedLitLens fixedDistLens out syms
  | .dynamic litLens distLens clLens hclen rle syms =>
    257 ≤ litLens.length ∧ litLens.length ≤ 286 ∧ 1 ≤ distLens.length ∧ distLens.length ≤ 30 ∧
    hclen < 16 ∧ clLens.length = 19 ∧ (∀ l ∈ clLens, l < 8) ∧
    (∀ s ∈ lengthOrder.drop (hclen + 4), clLens.getD s 0 = 0) ∧
    kraftWeight (lengthCounts clLens) = 2 ^ 15 ∧
    RleOk clLens [] rle ∧ rleExpand [] rle = litLens ++ distLens ∧
    HasCode litLens 256 ∧ CodeUsable litLens ∧ CodeUsable distLens ∧
    SymsOk litLens distLens out syms

/-- The bits of a sequence of blocks; the last one carries the final flag. -/
def blocksBits : List Block → List Bool
  | [] => []
  | [b] => true :: (natBits 2 b.type ++ b.bits)
  | b :: bs => false :: (natBits 2 b.type ++ b.bits) ++ blocksBits bs

/-- The output of a sequence of blocks. -/
def blocksOutput (out : Bytes) (blocks : List Block) : Bytes := blocks.foldl Block.output out

/-- Every block of the sequence is well formed where it stands. -/
def BlocksOk : Nat → Bytes → List Block → Prop
  | _, _, [] => True
  | pos, out, b :: bs =>
    b.Ok pos out ∧ BlocksOk (pos + 3 + b.bits.length) (b.output out) bs

/-- A zlib stream (RFC 1950): the two header bytes, the blocks, and the
padding bits that fill the last byte. -/
structure ZStream where
  cmf : Nat
  flg : Nat
  blocks : List Block
  pad : List Bool
  deriving DecidableEq, Repr

/-- The bytes the stream inflates to. -/
def ZStream.output (z : ZStream) : Bytes := blocksOutput [] z.blocks

/-- The bytes of the stream: header, packed blocks, Adler-32 of the output. -/
def ZStream.bytes (z : ZStream) : Bytes :=
  [z.cmf, z.flg] ++ packBits (blocksBits z.blocks ++ z.pad) ++ beWord (adler32 z.output) 4

/-- The stream is well formed: method 8 with a window of at most 32K, a valid
header check, no preset dictionary, well-formed blocks, and padding to a
whole number of bytes. -/
def ZStream.Ok (z : ZStream) : Prop :=
  z.cmf % 16 = 8 ∧ z.cmf / 16 ≤ 7 ∧ (z.cmf * 256 + z.flg) % 31 = 0 ∧ (z.flg / 32) % 2 = 0 ∧
  z.blocks ≠ [] ∧ BlocksOk 0 [] z.blocks ∧
  z.pad.length < 8 ∧ ((blocksBits z.blocks).length + z.pad.length) % 8 = 0

/-- The bytes of a number written in groups of seven bits: every byte but the
last has its high bit set. -/
def groupBytes : List Nat → Bytes
  | [] => []
  | [g] => [g]
  | g :: g2 :: gs => (128 + g) :: groupBytes (g2 :: gs)

/-- The number a list of groups stands for, least significant group first
(entry sizes and delta sizes). -/
def groupValue : List Nat → Nat
  | [] => 0
  | g :: gs => g + 128 * groupValue gs

/-- The number a list of groups stands for in an OFS_DELTA back-offset: most
significant group first, one added before each shift. -/
def offsetValue : Nat → List Nat → Nat
  | acc, [] => acc
  | acc, g :: gs => offsetValue ((acc + 1) * 128 + g) gs

/-- The groups are seven bits wide and there is at least one. -/
def GroupsOk (gs : List Nat) : Prop := gs ≠ [] ∧ ∀ g ∈ gs, g < 128

/-- The three-bit type of a pack entry. -/
def typeCode : EntryKind → Nat
  | .object .commit => 1
  | .object .tree => 2
  | .object .blob => 3
  | .object .tag => 4
  | .ofsDelta _ => 6
  | .refDelta _ => 7

/-- The header of a pack entry: type and the low four size bits in the first
byte, the rest of the size in groups. -/
def entryHeaderBytes (type low : Nat) (groups : List Nat) : Bytes :=
  match groups with
  | [] => [16 * type + low]
  | g :: gs => (128 + 16 * type + low) :: groupBytes (g :: gs)

/-- One instruction of a delta: copy a range of the base, given by the bytes
of offset and length that are present, or insert literal bytes. -/
inductive DeltaOp
  | copy (o0 o1 o2 o3 l0 l1 l2 : Option Nat)
  | insert (data : Bytes)
  deriving DecidableEq, Repr

/-- The bit of the opcode that says a field byte is present. -/
def presentBit (x : Option Nat) (bit : Nat) : Nat := if x.isSome then 2 ^ bit else 0

/-- The bytes of an instruction. -/
def DeltaOp.bytes : DeltaOp → Bytes
  | .copy o0 o1 o2 o3 l0 l1 l2 =>
    (128 + presentBit o0 0 + presentBit o1 1 + presentBit o2 2 + presentBit o3 3
        + presentBit l0 4 + presentBit l1 5 + presentBit l2 6)
      :: (o0.toList ++ o1.toList ++ o2.toList ++ o3.toList ++ l0.toList ++ l1.toList
        ++ l2.toList)
  | .insert data => data.length :: data

/-- The base offset a copy starts at. -/
def DeltaOp.copyOffset (o0 o1 o2 o3 : Option Nat) : Nat :=
  o0.getD 0 + o1.getD 0 * 2 ^ 8 + o2.getD 0 * 2 ^ 16 + o3.getD 0 * 2 ^ 24

/-- The number of bytes a copy takes; an absent length means 65536. -/
def DeltaOp.copyLength (l0 l1 l2 : Option Nat) : Nat :=
  if l0.getD 0 + l1.getD 0 * 2 ^ 8 + l2.getD 0 * 2 ^ 16 = 0 then 65536
  else l0.getD 0 + l1.getD 0 * 2 ^ 8 + l2.getD 0 * 2 ^ 16

/-- The bytes an instruction produces from the base. -/
def DeltaOp.output (base : Bytes) : DeltaOp → Bytes
  | .copy o0 o1 o2 o3 l0 l1 l2 =>
    (base.drop (DeltaOp.copyOffset o0 o1 o2 o3)).take (DeltaOp.copyLength l0 l1 l2)
  | .insert data => data

/-- A field byte, when present, is a byte. -/
def FieldOk (x : Option Nat) : Prop := x.getD 0 < 256

/-- An instruction is well formed against the base: a copy stays inside the
base, an insert carries 1..127 bytes. -/
def DeltaOp.Ok (base : Bytes) : DeltaOp → Prop
  | .copy o0 o1 o2 o3 l0 l1 l2 =>
    FieldOk o0 ∧ FieldOk o1 ∧ FieldOk o2 ∧ FieldOk o3 ∧ FieldOk l0 ∧ FieldOk l1 ∧ FieldOk l2 ∧
    DeltaOp.copyOffset o0 o1 o2 o3 + DeltaOp.copyLength l0 l1 l2 ≤ base.length
  | .insert data => 1 ≤ data.length ∧ data.length ≤ 127

/-- A delta instruction stream: the groups of the base size and of the
result size, then the instructions. -/
structure DeltaDesc where
  baseSize : List Nat
  resultSize : List Nat
  ops : List DeltaOp
  deriving DecidableEq, Repr

/-- The bytes of the stream. -/
def DeltaDesc.bytes (d : DeltaDesc) : Bytes :=
  groupBytes d.baseSize ++ groupBytes d.resultSize ++ d.ops.flatMap DeltaOp.bytes

/-- The object the stream rebuilds from the base. -/
def DeltaDesc.result (d : DeltaDesc) (base : Bytes) : Bytes :=
  d.ops.flatMap (DeltaOp.output base)

/-- The stream is well formed against the base: its instructions are, and
they produce as many bytes as the result size says. -/
def DeltaDesc.Ok (d : DeltaDesc) (base : Bytes) : Prop :=
  GroupsOk d.baseSize ∧ GroupsOk d.resultSize ∧ (∀ op ∈ d.ops, op.Ok base) ∧
  groupValue d.resultSize = (d.result base).length

/-- How a pack entry gives its object: whole, or as a delta against a base
named by back-offset (its groups) or by hash. `base` is the position in the
pack of the base entry and `delta` the instruction stream the payload holds. -/
inductive EntryForm
  | whole (kind : ObjectKind)
  | ofsDelta (groups : List Nat) (base : Nat) (delta : DeltaDesc)
  | refDelta (hash : Bytes) (base : Nat) (delta : DeltaDesc)
  deriving DecidableEq, Repr

/-- The back-offset a list of groups stands for. -/
def backOffsetOf : List Nat → Nat
  | [] => 0
  | g :: gs => offsetValue g gs

/-- One entry of a pack: its form, the encoding of the payload size (low four
bits and groups), the compressed payload, and the object the entry stands for
(kind and content) with the length of its delta chain. -/
structure EntryDesc where
  form : EntryForm
  sizeLow : Nat
  sizeGroups : List Nat
  stream : ZStream
  kind : ObjectKind
  content : Bytes
  depth : Nat
  deriving DecidableEq, Repr

/-- The kind of entry the header declares. -/
def EntryDesc.entryKind (d : EntryDesc) : EntryKind :=
  match d.form with
  | .whole k => .object k
  | .ofsDelta groups _ _ => .ofsDelta (backOffsetOf groups)
  | .refDelta hash _ _ => .refDelta hash

/-- The bytes that name the base, between header and payload. -/
def EntryDesc.baseBytes (d : EntryDesc) : Bytes :=
  match d.form with
  | .whole _ => []
  | .ofsDelta groups _ _ => groupBytes groups
  | .refDelta hash _ _ => hash

/-- The bytes of the entry: header, base reference, compressed payload. -/
def EntryDesc.bytes (d : EntryDesc) : Bytes :=
  entryHeaderBytes (typeCode d.entryKind) d.sizeLow d.sizeGroups ++ d.baseBytes ++ d.stream.bytes

/-- The id of the object the entry stands for. -/
def EntryDesc.id (d : EntryDesc) : Bytes := objectHash d.kind d.content

/-- The base reference of a form is well formed: the groups of a back-offset
are, a hash has 20 bytes. -/
def EntryForm.Ok : EntryForm → Prop
  | .whole _ => True
  | .ofsDelta groups _ _ => GroupsOk groups
  | .refDelta hash _ _ => hash.length = 20

/-- The entry is well formed on its own: the size fields are in range and
give the length of the payload, the base reference is well formed, and the
compressed payload is a well-formed zlib stream. -/
def EntryDesc.EncodingOk (d : EntryDesc) : Prop :=
  d.sizeLow < 16 ∧ (∀ g ∈ d.sizeGroups, g < 128) ∧
  d.sizeLow + 16 * groupValue d.sizeGroups = d.stream.output.length ∧ d.stream.Ok ∧
  d.form.Ok

/-- The offset of each entry when the first starts at `offset`. -/
def entryOffsets : Nat → List EntryDesc → List Nat
  | _, [] => []
  | offset, d :: ds => offset :: entryOffsets (offset + d.bytes.length) ds

/-- The delta `delta` of entry `d` rebuilds the object of `d` from the base
entry `b`: the base has a shorter delta chain, the payload is the delta, the
delta is well formed against the base's content and yields the content of
`d`, and `d` has the base's kind. No base, no link. -/
def DeltaLinkTo (d : EntryDesc) (delta : DeltaDesc) : Option EntryDesc → Prop
  | none => False
  | some b =>
    b.depth < d.depth ∧ d.stream.output = delta.bytes ∧ delta.Ok b.content ∧
    d.content = delta.result b.content ∧ d.kind = b.kind

/-- The delta of `d` rebuilds its object from the entry at position `base`. -/
def DeltaLinkOk (ds : List EntryDesc) (d : EntryDesc) (base : Nat) (delta : DeltaDesc) : Prop :=
  DeltaLinkTo d delta (ds.get? base)

/-- What the form of entry `d`, at position `i`, says of its object. A whole
entry stands for its payload; an OFS_DELTA names the entry that starts its
back-offset before it; a REF_DELTA names the entry whose object has the given
id. -/
def FormOkIn (ds : List EntryDesc) (i : Nat) (d : EntryDesc) : EntryForm → Prop
  | .whole k => d.kind = k ∧ d.content = d.stream.output
  | .ofsDelta groups base delta =>
    (entryOffsets 12 ds).getD base 0 + backOffsetOf groups = (entryOffsets 12 ds).getD i 0 ∧
    DeltaLinkOk ds d base delta
  | .refDelta hash base delta =>
    hash = ((ds.get? base).map EntryDesc.id).getD [] ∧ DeltaLinkOk ds d base delta

/-- An entry at position `i` is well formed on its own and in its form. -/
def EntryOkAt (ds : List EntryDesc) (i : Nat) : Option EntryDesc → Prop
  | none => False
  | some d => d.EncodingOk ∧ FormOkIn ds i d d.form

/-- Entry `i` of the pack `ds` is well formed in the pack. -/
def EntryOkIn (ds : List EntryDesc) (i : Nat) : Prop := EntryOkAt ds i (ds.get? i)

/-- The pack described by `ds` is well formed: fewer than 2^32 entries, every
entry well formed in the pack, and no object twice. -/
def PackOk (ds : List EntryDesc) : Prop :=
  ds.length < 2 ^ 32 ∧ (∀ i ∈ List.range ds.length, EntryOkIn ds i) ∧
  (ds.map EntryDesc.id).Nodup

/-- The bytes of the pack before the trailer: signature, version 2, the
number of entries, the entries. -/
def packBody (ds : List EntryDesc) : Bytes :=
  [80, 65, 67, 75] ++ beWord 2 4 ++ beWord ds.length 4 ++ ds.flatMap EntryDesc.bytes

/-- The bytes of the pack: the body and its hash. -/
def packBytes (ds : List EntryDesc) : Bytes := packBody ds ++ sha1 (packBody ds)

/-- A valid pack, the spec's "well-formed Git pack (header + N entries +
trailing hash)": the bytes of a well-formed description. The definition does
not mention the unpacker. -/
def ValidPack (pack : Bytes) : Prop := ∃ ds, PackOk ds ∧ pack = packBytes ds

instance (lens : List Nat) : Decidable (KraftOk lens) :=
  inferInstanceAs (Decidable (kraftWeight (lengthCounts lens) ≤ 2 ^ 15))

instance (lens : List Nat) (s : Nat) : Decidable (HasCode lens s) :=
  inferInstanceAs (Decidable (s < lens.length ∧ 1 ≤ lens.getD s 0 ∧ lens.getD s 0 ≤ 15))

instance (litLens distLens : List Nat) (out : Bytes) : (s : Sym) →
    Decidable (Sym.Ok litLens distLens out s)
  | .lit b => inferInstanceAs (Decidable (b < 256 ∧ HasCode litLens b))
  | .copy li lx di dx =>
    inferInstanceAs (Decidable (
      li < 29 ∧ lx < 2 ^ (lengthTable.getD li (0, 0)).2 ∧ HasCode litLens (257 + li) ∧
      di < 30 ∧ dx < 2 ^ (distTable.getD di (0, 0)).2 ∧ HasCode distLens di ∧
      1 ≤ Sym.copyDist di dx ∧ Sym.copyDist di dx ≤ out.length))

/-- Well-formedness of a list of elements can be checked. -/
def SymsOk.dec (litLens distLens : List Nat) :
    (out : Bytes) → (syms : List Sym) → Decidable (SymsOk litLens distLens out syms)
  | _, [] => isTrue trivial
  | out, s :: syms =>
    @instDecidableAnd _ _ inferInstance (SymsOk.dec litLens distLens (s.output out) syms)

instance (litLens distLens : List Nat) (out : Bytes) (syms : List Sym) :
    Decidable (SymsOk litLens distLens out syms) := SymsOk.dec litLens distLens out syms

instance (clLens acc : List Nat) : (c : CLSym) → Decidable (CLSym.Ok clLens acc c)
  | .len l => inferInstanceAs (Decidable (l ≤ 15 ∧ HasCode clLens l))
  | .rep n => inferInstanceAs (Decidable (3 ≤ n ∧ n ≤ 6 ∧ acc ≠ [] ∧ HasCode clLens 16))
  | .zeros n =>
    inferInstanceAs (Decidable (3 ≤ n ∧ n ≤ 138 ∧
      (if n ≤ 10 then HasCode clLens 17 else HasCode clLens 18)))

/-- Well-formedness of a run-length coded list can be checked. -/
def RleOk.dec (clLens : List Nat) :
    (acc : List Nat) → (rle : List CLSym) → Decidable (RleOk clLens acc rle)
  | _, [] => isTrue trivial
  | acc, c :: rle => @instDecidableAnd _ _ inferInstance (RleOk.dec clLens (c.expand acc) rle)

instance (clLens acc : List Nat) (rle : List CLSym) : Decidable (RleOk clLens acc rle) :=
  RleOk.dec clLens acc rle

instance (lens : List Nat) : Decidable (CodeUsable lens) :=
  inferInstanceAs (Decidable (
    KraftOk lens ∧ (kraftWeight (lengthCounts lens) = 2 ^ 15 ∨ ∀ l ∈ lens, l ≤ 1)))

instance (pos : Nat) (out : Bytes) : (b : Block) → Decidable (b.Ok pos out)
  | .stored pad data =>
    inferInstanceAs (Decidable (
      pad.length < 8 ∧ (pos + 3 + pad.length) % 8 = 0 ∧ data.length < 65536 ∧
      ∀ b ∈ data, b < 256))
  | .fixed syms => inferInstanceAs (Decidable (SymsOk fixedLitLens fixedDistLens out syms))
  | .dynamic litLens distLens clLens hclen rle syms =>
    inferInstanceAs (Decidable (
      257 ≤ litLens.length ∧ litLens.length ≤ 286 ∧ 1 ≤ distLens.length ∧
      distLens.length ≤ 30 ∧
      hclen < 16 ∧ clLens.length = 19 ∧ (∀ l ∈ clLens, l < 8) ∧
      (∀ s ∈ lengthOrder.drop (hclen + 4), clLens.getD s 0 = 0) ∧
      kraftWeight (lengthCounts clLens) = 2 ^ 15 ∧
      RleOk clLens [] rle ∧ rleExpand [] rle = litLens ++ distLens ∧
      HasCode litLens 256 ∧ CodeUsable litLens ∧ CodeUsable distLens ∧
      SymsOk litLens distLens out syms))

/-- Well-formedness of a sequence of blocks can be checked. -/
def BlocksOk.dec : (pos : Nat) → (out : Bytes) → (blocks : List Block) →
    Decidable (BlocksOk pos out blocks)
  | _, _, [] => isTrue trivial
  | pos, out, b :: bs =>
    @instDecidableAnd _ _ inferInstance (BlocksOk.dec (pos + 3 + b.bits.length) (b.output out) bs)

instance (pos : Nat) (out : Bytes) (blocks : List Block) : Decidable (BlocksOk pos out blocks) :=
  BlocksOk.dec pos out blocks

instance (z : ZStream) : Decidable z.Ok :=
  inferInstanceAs (Decidable (
    z.cmf % 16 = 8 ∧ z.cmf / 16 ≤ 7 ∧ (z.cmf * 256 + z.flg) % 31 = 0 ∧ (z.flg / 32) % 2 = 0 ∧
    z.blocks ≠ [] ∧ BlocksOk 0 [] z.blocks ∧
    z.pad.length < 8 ∧ ((blocksBits z.blocks).length + z.pad.length) % 8 = 0))

instance (gs : List Nat) : Decidable (GroupsOk gs) :=
  inferInstanceAs (Decidable (gs ≠ [] ∧ ∀ g ∈ gs, g < 128))

instance (x : Option Nat) : Decidable (FieldOk x) :=
  inferInstanceAs (Decidable (x.getD 0 < 256))

instance (base : Bytes) : (op : DeltaOp) → Decidable (op.Ok base)
  | .copy o0 o1 o2 o3 l0 l1 l2 =>
    inferInstanceAs (Decidable (
      FieldOk o0 ∧ FieldOk o1 ∧ FieldOk o2 ∧ FieldOk o3 ∧ FieldOk l0 ∧ FieldOk l1 ∧
      FieldOk l2 ∧
      DeltaOp.copyOffset o0 o1 o2 o3 + DeltaOp.copyLength l0 l1 l2 ≤ base.length))
  | .insert data => inferInstanceAs (Decidable (1 ≤ data.length ∧ data.length ≤ 127))

instance (d : DeltaDesc) (base : Bytes) : Decidable (d.Ok base) :=
  inferInstanceAs (Decidable (
    GroupsOk d.baseSize ∧ GroupsOk d.resultSize ∧ (∀ op ∈ d.ops, op.Ok base) ∧
    groupValue d.resultSize = (d.result base).length))

instance : (f : EntryForm) → Decidable f.Ok
  | .whole _ => isTrue trivial
  | .ofsDelta groups _ _ => inferInstanceAs (Decidable (GroupsOk groups))
  | .refDelta hash _ _ => inferInstanceAs (Decidable (hash.length = 20))

instance (d : EntryDesc) : Decidable d.EncodingOk :=
  inferInstanceAs (Decidable (
    d.sizeLow < 16 ∧ (∀ g ∈ d.sizeGroups, g < 128) ∧
    d.sizeLow + 16 * groupValue d.sizeGroups = d.stream.output.length ∧ d.stream.Ok ∧
    d.form.Ok))

instance (d : EntryDesc) (delta : DeltaDesc) : (b : Option EntryDesc) →
    Decidable (DeltaLinkTo d delta b)
  | none => isFalse id
  | some b =>
    inferInstanceAs (Decidable (
      b.depth < d.depth ∧ d.stream.output = delta.bytes ∧ delta.Ok b.content ∧
      d.content = delta.result b.content ∧ d.kind = b.kind))

instance (ds : List EntryDesc) (d : EntryDesc) (base : Nat) (delta : DeltaDesc) :
    Decidable (DeltaLinkOk ds d base delta) :=
  inferInstanceAs (Decidable (DeltaLinkTo d delta (ds.get? base)))

instance (ds : List EntryDesc) (i : Nat) (d : EntryDesc) : (f : EntryForm) →
    Decidable (FormOkIn ds i d f)
  | .whole k => inferInstanceAs (Decidable (d.kind = k ∧ d.content = d.stream.output))
  | .ofsDelta groups base delta =>
    inferInstanceAs (Decidable (
      (entryOffsets 12 ds).getD base 0 + backOffsetOf groups = (entryOffsets 12 ds).getD i 0 ∧
      DeltaLinkOk ds d base delta))
  | .refDelta hash base delta =>
    inferInstanceAs (Decidable (
      hash = ((ds.get? base).map EntryDesc.id).getD [] ∧ DeltaLinkOk ds d base delta))

instance (ds : List EntryDesc) (i : Nat) : (o : Option EntryDesc) →
    Decidable (EntryOkAt ds i o)
  | none => isFalse id
  | some d => inferInstanceAs (Decidable (d.EncodingOk ∧ FormOkIn ds i d d.form))

instance (ds : List EntryDesc) (i : Nat) : Decidable (EntryOkIn ds i) :=
  inferInstanceAs (Decidable (EntryOkAt ds i (ds.get? i)))

instance (ds : List EntryDesc) : Decidable (PackOk ds) :=
  inferInstanceAs (Decidable (
    ds.length < 2 ^ 32 ∧ (∀ i ∈ List.range ds.length, EntryOkIn ds i) ∧
    (ds.map EntryDesc.id).Nodup))

/-! ### Auxiliary definitions used in the proofs -/

/-- The value of a bit string read most significant bit first. -/
def msbVal : List Bool → Nat
  | [] => 0
  | b :: bs => b.toNat * 2 ^ bs.length + msbVal bs

/-- The first code of the level reached after the levels `pre`. -/
def firstAfter (pre : List Nat) (first : Nat) : Nat :=
  pre.foldl (fun f c => 2 * (f + c)) first

/-- The entry the parser builds from a described entry at `offset`. -/
def entryOf (d : EntryDesc) (offset : Nat) : PackEntry :=
  { offset := offset, kind := d.entryKind, size := d.stream.output.length,
    payload := d.stream.output }

/-- The entries the parser builds from a description. -/
def entriesOf : Nat → List EntryDesc → List PackEntry
  | _, [] => []
  | offset, d :: ds => entryOf d offset :: entriesOf (offset + d.bytes.length) ds

/-- The resolved object a described entry at an offset stands for. -/
def resolvedOf (p : EntryDesc × Nat) : ResolvedObject := mkResolved p.2 p.1.kind p.1.content

/-- The delta of `p` against `q` rebuilds the object of `p`. -/
def Link (p q : EntryDesc × Nat) (delta : DeltaDesc) : Prop :=
  q.1.depth < p.1.depth ∧ p.1.stream.output = delta.bytes ∧ delta.Ok q.1.content ∧
  p.1.content = delta.result q.1.content ∧ p.1.kind = q.1.kind

/-- What the pack's validity says of one entry, among the entries paired
with their offsets. -/
def PairOk (pairs : List (EntryDesc × Nat)) (p : EntryDesc × Nat) : Prop :=
  match p.1.form with
  | .whole k => p.1.kind = k ∧ p.1.content = p.1.stream.output
  | .ofsDelta groups _ delta => ∃ q ∈ pairs, q.2 + backOffsetOf groups = p.2 ∧ Link p q delta
  | .refDelta hash _ delta => ∃ q ∈ pairs, hash = q.1.id ∧ Link p q delta

/-- The result table holds only objects of the pack. -/
def TableOk (pairs : List (EntryDesc × Nat)) (table : List ResolvedObject) : Prop :=
  ∀ r ∈ table, ∃ p ∈ pairs, r = resolvedOf p

/-- Every entry with a shorter delta chain than `p` is resolved. -/
def Avail (pairs : List (EntryDesc × Nat)) (table : List ResolvedObject) (p : EntryDesc × Nat) :
    Prop :=
  ∀ q ∈ pairs, q.1.depth < p.1.depth → resolvedOf q ∈ table

/-! ### Sample packs and their descriptions -/

/-- A pack of one blob whose payload is a single block with dynamic Huffman
codes, as `git pack-objects` writes it for the 100-byte text
`a man a plan a canal panama; a santa at nasa; was it a car or a cat i saw;
never odd or even; madam` (one line, ended by a newline); the blob is
`fd2ef7bb63f7fb788ea242d113c1c5ce1125b33c`. -/
def packDynamic : Bytes :=
  [
    0x50, 0x41, 0x43, 0x4b, 0x00, 0x00, 0x00, 0x02, 0x00, 0x00, 0x00, 0x01, 0xb4, 0x06, 0x78, 0x9c,
    0x1d, 0x4c, 0xc9, 0x0d, 0xc0, 0x20, 0x0c, 0xfb, 0x77, 0x0a, 0xef, 0xc1, 0x34, 0x56, 0xe1, 0x81,
    0x44, 0x52, 0x04, 0x51, 0x59, 0xbf, 0x6e, 0x3e, 0xbe, 0x65, 0xc2, 0xe8, 0x20, 0xe6, 0x48, 0xba,
    0xe9, 0x1c, 0x98, 0x42, 0x63, 0x91, 0xdf, 0xf4, 0x20, 0x18, 0x70, 0x6e, 0x05, 0x87, 0x1b, 0x3d,
    0x72, 0xb7, 0xf0, 0xac, 0x14, 0x81, 0xae, 0xd9, 0x29, 0xf0, 0xf6, 0x36, 0xa5, 0xb5, 0xfe, 0x8d,
    0xb4, 0x17, 0x7d, 0x57, 0xda, 0xf5, 0x01, 0x8b, 0xaa, 0x21, 0x31, 0x84, 0x00, 0x8b, 0xd8, 0x15,
    0x1d, 0x7d, 0xef, 0xf3, 0x81, 0xe4, 0xde, 0xf0, 0xbe, 0x3c, 0x95, 0x2f, 0x60, 0x0a, 0xbb
  ]

/-- A pack of one blob whose payload is a single stored block, as
`git pack-objects` writes it with compression level 0 for the text
`hello, stored block` (ended by a newline); the blob is
`404fe627db7fb25a3fe9734e698ed524a674d75d`. -/
def packStored : Bytes :=
  [
    0x50, 0x41, 0x43, 0x4b, 0x00, 0x00, 0x00, 0x02, 0x00, 0x00, 0x00, 0x01, 0xb4, 0x01, 0x78, 0x01,
    0x01, 0x14, 0x00, 0xeb, 0xff, 0x68, 0x65, 0x6c, 0x6c, 0x6f, 0x2c, 0x20, 0x73, 0x74, 0x6f, 0x72,
    0x65, 0x64, 0x20, 0x62, 0x6c, 0x6f, 0x63, 0x6b, 0x0a, 0x4d, 0xf5, 0x07, 0x27, 0x91, 0x2f, 0x51,
    0xb8, 0x68, 0x17, 0x90, 0xbc, 0xde, 0x10, 0x67, 0xa9, 0xdd, 0xcc, 0x7c, 0xfc, 0x45, 0x86, 0x22,
    0x57
  ]

/-- The second pack of `TestPackfileUnpack`, described. -/
def descRefDelta3 : List EntryDesc :=
  [ { form := EntryForm.whole ObjectKind.blob,
      sizeLow := 12,
      sizeGroups := [8],
      stream := ZStream.mk 120 156 [Block.fixed [Sym.lit 65, Sym.lit 10, Sym.lit 65,
        Sym.copy 13 2 1 0, Sym.lit 66, Sym.lit 10, Sym.lit 67, Sym.lit 10, Sym.lit 68,
        Sym.lit 10, Sym.lit 69, Sym.copy 22 6 5 1]] [false, false, false, false, false, false,
        false],
      kind := ObjectKind.blob,
      content := [65, 10, 65, 10, 65, 10, 65, 10, 65, 10, 65, 10, 65, 10, 65, 10, 65, 10, 65,
        10, 65, 10, 65, 10, 65, 10, 65, 10, 66, 10, 67, 10, 68, 10, 69, 10, 66, 10, 67, 10, 68,
        10, 69, 10, 66, 10, 67, 10, 68, 10, 69, 10, 66, 10, 67, 10, 68, 10, 69, 10, 66, 10, 67,
        10, 68, 10, 69, 10, 66, 10, 67, 10, 68, 10, 69, 10, 66, 10, 67, 10, 68, 10, 69, 10, 66,
        10, 67, 10, 68, 10, 69, 10, 66, 10, 67, 10, 68, 10, 69, 10, 66, 10, 67, 10, 68, 10, 69,
        10, 66, 10, 67, 10, 68, 10, 69, 10, 66, 10, 67, 10, 68, 10, 69, 10, 66, 10, 67, 10, 68,
        10, 69, 10, 66, 10, 67, 10, 68, 10, 69, 10],
      depth := 0 },
    { form := EntryForm.refDelta [190, 34, 165, 199, 215, 178, 92, 153, 13, 137, 215, 193,
        131, 130, 240, 129, 95, 104, 63, 23] 0 (DeltaDesc.mk [12,
        1] [114] [DeltaOp.copy none none none none (some 114) none none]),
      sizeLow := 5,
      sizeGroups := [],
      stream := ZStream.mk 120 156 [Block.fixed [Sym.lit 140, Sym.lit 1, Sym.lit 114,
        Sym.lit 144, Sym.lit 114]] [false, false, false, false, false],
      kind := ObjectKind.blob,
      content := [65, 10, 65, 10, 65, 10, 65, 10, 65, 10, 65, 10, 65, 10, 65, 10, 65, 10, 65,
        10, 65, 10, 65, 10, 65, 10, 65, 10, 66, 10, 67, 10, 68, 10, 69, 10, 66, 10, 67, 10, 68,
        10, 69, 10, 66, 10, 67, 10, 68, 10, 69, 10, 66, 10, 67, 10, 68, 10, 69, 10, 66, 10, 67,
        10, 68, 10, 69, 10, 66, 10, 67, 10, 68, 10, 69, 10, 66, 10, 67, 10, 68, 10, 69, 10, 66,
        10, 67, 10, 68, 10, 69, 10, 66, 10, 67, 10, 68, 10, 69, 10, 66, 10, 67, 10, 68, 10, 69,
        10, 66, 10, 67, 10, 68, 10],
      depth := 1 },
    { form := EntryForm.refDelta [132, 223, 198, 251, 14, 134, 207, 41, 4, 157, 83, 4, 30, 45,
        85, 248, 99, 234, 207,
        216] 1 (DeltaDesc.mk [114] [98] [DeltaOp.copy (some 16) none none none (some 98) none none]),
      sizeLow := 5,
      sizeGroups := [],
      stream := ZStream.mk 120 156 [Block.fixed [Sym.lit 114, Sym.lit 98, Sym.lit 145,
        Sym.lit 16, Sym.lit 98]] [false, false, false, false, false],
      kind := ObjectKind.blob,
      content := [65, 10, 65, 10, 65, 10, 65, 10, 65, 10, 65, 10, 66, 10, 67, 10, 68, 10, 69,
        10, 66, 10, 67, 10, 68, 10, 69, 10, 66, 10, 67, 10, 68, 10, 69, 10, 66, 10, 67, 10, 68,
        10, 69, 10, 66, 10, 67, 10, 68, 10, 69, 10, 66, 10, 67, 10, 68, 10, 69, 10, 66, 10, 67,
        10, 68, 10, 69, 10, 66, 10, 67, 10, 68, 10, 69, 10, 66, 10, 67, 10, 68, 10, 69, 10, 66,
        10, 67, 10, 68, 10, 69, 10, 66, 10, 67, 10, 68, 10],
      depth := 2 } ]

/-- The fourth pack of `TestPackfileUnpack`, described. -/
def descOfsDelta3 : List EntryDesc :=
  [ { form := EntryForm.whole ObjectKind.blob,
      sizeLow := 12,
      sizeGroups := [8],
      stream := ZStream.mk 120 156 [Block.fixed [Sym.lit 65, Sym.lit 10, Sym.lit 65,
        Sym.copy 13 2 1 0, Sym.lit 66, Sym.lit 10, Sym.lit 67, Sym.lit 10, Sym.lit 68,
        Sym.lit 10, Sym.lit 69, Sym.copy 22 6 5 1]] [false, false, false, false, false, false,
        false],
      kind := ObjectKind.blob,
      content := [65, 10, 65, 10, 65, 10, 65, 10, 65, 10, 65, 10, 65, 10, 65, 10, 65, 10, 65,
        10, 65, 10, 65, 10, 65, 10, 65, 10, 66, 10, 67, 10, 68, 10, 69, 10, 66, 10, 67, 10, 68,
        10, 69, 10, 66, 10, 67, 10, 68, 10, 69, 10, 66, 10, 67, 10, 68, 10, 69, 10, 66, 10, 67,
        10, 68, 10, 69, 10, 66, 10, 67, 10, 68, 10, 69, 10, 66, 10, 67, 10, 68, 10, 69, 10, 66,
        10, 67, 10, 68, 10, 69, 10, 66, 10, 67, 10, 68, 10, 69, 10, 66, 10, 67, 10, 68, 10, 69,
        10, 66, 10, 67, 10, 68, 10, 69, 10, 66, 10, 67, 10, 68, 10, 69, 10, 66, 10, 67, 10, 68,
        10, 69, 10, 66, 10, 67, 10, 68, 10, 69, 10],
      depth := 0 },
    { form := EntryForm.ofsDelta [24] 0 (DeltaDesc.mk [12,
        1] [114] [DeltaOp.copy none none none none (some 114) none none]),
      sizeLow := 5,
      sizeGroups := [],
      stream := ZStream.mk 120 156 [Block.fixed [Sym.lit 140, Sym.lit 1, Sym.lit 114,
        Sym.lit 144, Sym.lit 114]] [false, false, false, false, false],
      kind := ObjectKind.blob,
      content := [65, 10, 65, 10, 65, 10, 65, 10, 65, 10, 65, 10, 65, 10, 65, 10, 65, 10, 65,
        10, 65, 10, 65, 10, 65, 10, 65, 10, 66, 10, 67, 10, 68, 10, 69, 10, 66, 10, 67, 10, 68,
        10, 69, 10, 66, 10, 67, 10, 68, 10, 69, 10, 66, 10, 67, 10, 68, 10, 69, 10, 66, 10, 67,
        10, 68, 10, 69, 10, 66, 10, 67, 10, 68, 10, 69, 10, 66, 10, 67, 10, 68, 10, 69, 10, 66,
        10, 67, 10, 68, 10, 69, 10, 66, 10, 67, 10, 68, 10, 69, 10, 66, 10, 67, 10, 68, 10, 69,
        10, 66, 10, 67, 10, 68, 10],
      depth := 1 },
    { form := EntryForm.ofsDelta [15] 1 (DeltaDesc.mk [114] [98] [DeltaOp.copy (some 16) none none none (some 98) none none]),
      sizeLow := 5,
      sizeGroups := [],
      stream := ZStream.mk 120 156 [Block.fixed [Sym.lit 114, Sym.lit 98, Sym.lit 145,
        Sym.lit 16, Sym.lit 98]] [false, false, false, false, false],
      kind := ObjectKind.blob,
      content := [65, 10, 65, 10, 65, 10, 65, 10, 65, 10, 65, 10, 66, 10, 67, 10, 68, 10, 69,
        10, 66, 10, 67, 10, 68, 10, 69, 10, 66, 10, 67, 10, 68, 10, 69, 10, 66, 10, 67, 10, 68,
        10, 69, 10, 66, 10, 67, 10, 68, 10, 69, 10, 66, 10, 67, 10, 68, 10, 69, 10, 66, 10, 67,
        10, 68, 10, 69, 10, 66, 10, 67, 10, 68, 10, 69, 10, 66, 10, 67, 10, 68, 10, 69, 10, 66,
        10, 67, 10, 68, 10, 69, 10, 66, 10, 67, 10, 68, 10],
      depth := 2 } ]

/-- The pack `packDynamic`, described. -/
def descDynamic : List EntryDesc :=
  [ { form := EntryForm.whole ObjectKind.blob,
      sizeLow := 4,
      sizeGroups := [6],
      stream := ZStream.mk 120 156 [Block.dynamic [0, 0, 0, 0, 0, 0, 0, 0, 0, 0, 6, 0, 0, 0,
        0, 0, 0, 0, 0, 0, 0, 0, 0, 0, 0, 0, 0, 0, 0, 0, 0, 0, 3, 0, 0, 0, 0, 0, 0, 0, 0, 0, 0,
        0, 0, 0, 0, 0, 0, 0, 0, 0, 0, 0, 0, 0, 0, 0, 0, 5, 0, 0, 0, 0, 0, 0, 0, 0, 0, 0, 0, 0,
        0, 0, 0, 0, 0, 0, 0, 0, 0, 0, 0, 0, 0, 0, 0, 0, 0, 0, 0, 0, 0, 0, 0, 0, 0, 3, 0, 6, 5,
        5, 0, 0, 0, 5, 0, 0, 5, 4, 4, 6, 5, 0, 5, 5, 4, 0, 6, 5, 0, 0, 0, 0, 0, 0, 0, 0, 0, 0,
        0, 0, 0, 0, 0, 0, 0, 0, 0, 0, 0, 0, 0, 0, 0, 0, 0, 0, 0, 0, 0, 0, 0, 0, 0, 0, 0, 0, 0,
        0, 0, 0, 0, 0, 0, 0, 0, 0, 0, 0, 0, 0, 0, 0, 0, 0, 0, 0, 0, 0, 0, 0, 0, 0, 0, 0, 0, 0,
        0, 0, 0, 0, 0, 0, 0, 0, 0, 0, 0, 0, 0, 0, 0, 0, 0, 0, 0, 0, 0, 0, 0, 0, 0, 0, 0, 0, 0,
        0, 0, 0, 0, 0, 0, 0, 0, 0, 0, 0, 0, 0, 0, 0, 0, 0, 0, 0, 0, 0, 0, 0, 0, 0, 0, 0, 0, 0,
        0, 0, 0, 0, 0, 0, 0, 0, 0, 0, 6, 3, 6, 4] [0, 0, 0, 0, 3, 3, 3, 3, 3, 3, 3, 0, 3] [3, 0,
        0, 3, 3, 2, 3, 0, 0, 0, 0, 0, 0, 0, 0, 0, 4, 4, 3] 10 [CLSym.zeros 10, CLSym.len 6,
        CLSym.zeros 21, CLSym.len 3, CLSym.zeros 26, CLSym.len 5, CLSym.zeros 37, CLSym.len 3,
        CLSym.len 0, CLSym.len 6, CLSym.len 5, CLSym.len 5, CLSym.zeros 3, CLSym.len 5,
        CLSym.len 0, CLSym.len 0, CLSym.len 5, CLSym.len 4, CLSym.len 4, CLSym.len 6,
        CLSym.len 5, CLSym.len 0, CLSym.len 5, CLSym.len 5, CLSym.len 4, CLSym.len 0,
        CLSym.len 6, CLSym.len 5, CLSym.zeros 136, CLSym.len 6, CLSym.len 3, CLSym.len 6,
        CLSym.len 4, CLSym.zeros 4, CLSym.len 3, CLSym.rep 6, CLSym.len 0,
        CLSym.len 3] [Sym.lit 97, Sym.lit 32, Sym.lit 109, Sym.lit 97, Sym.lit 110, Sym.lit 32,
        Sym.lit 97, Sym.lit 32, Sym.lit 112, Sym.lit 108, Sym.copy 2 0 5 0, Sym.lit 99,
        Sym.lit 97, Sym.lit 110, Sym.lit 97, Sym.lit 108, Sym.lit 32, Sym.lit 112,
        Sym.copy 0 0 4 1, Sym.lit 109, Sym.lit 97, Sym.lit 59, Sym.copy 0 0 7 3, Sym.lit 115,
        Sym.lit 97, Sym.lit 110, Sym.lit 116, Sym.lit 97, Sym.lit 32, Sym.lit 97, Sym.lit 116,
        Sym.lit 32, Sym.lit 110, Sym.lit 97, Sym.lit 115, Sym.copy 0 0 8 0, Sym.lit 119,
        Sym.lit 97, Sym.lit 115, Sym.lit 32, Sym.lit 105, Sym.lit 116, Sym.copy 2 0 10 7,
        Sym.lit 114, Sym.lit 32, Sym.lit 111, Sym.lit 114, Sym.copy 2 0 6 0, Sym.lit 116,
        Sym.lit 32, Sym.lit 105, Sym.copy 0 0 10 6, Sym.lit 119, Sym.lit 59, Sym.lit 32,
        Sym.lit 110, Sym.lit 101, Sym.lit 118, Sym.lit 101, Sym.copy 0 0 8 5, Sym.lit 100,
        Sym.lit 100, Sym.copy 1 0 9 1, Sym.copy 0 0 6 3, Sym.lit 110, Sym.lit 59,
        Sym.copy 0 0 12 27, Sym.lit 100, Sym.lit 97, Sym.lit 109, Sym.lit 10]] [false, false,
        false, false, false, false],
      kind := ObjectKind.blob,
      content := [97, 32, 109, 97, 110, 32, 97, 32, 112, 108, 97, 110, 32, 97, 32, 99, 97,
        110, 97, 108, 32, 112, 97, 110, 97, 109, 97, 59, 32, 97, 32, 115, 97, 110, 116, 97, 32,
        97, 116, 32, 110, 97, 115, 97, 59, 32, 119, 97, 115, 32, 105, 116, 32, 97, 32, 99, 97,
        114, 32, 111, 114, 32, 97, 32, 99, 97, 116, 32, 105, 32, 115, 97, 119, 59, 32, 110, 101,
        118, 101, 114, 32, 111, 100, 100, 32, 111, 114, 32, 101, 118, 101, 110, 59, 32, 109, 97,
        100, 97, 109, 10],
      depth := 0 } ]

/-- The pack `packStored`, described. -/
def descStored : List EntryDesc :=
  [ { form := EntryForm.whole ObjectKind.blob,
      sizeLow := 4,
      sizeGroups := [1],
      stream := ZStream.mk 120 1 [Block.stored [false, false, false, false, false] [104, 101,
        108, 108, 111, 44, 32, 115, 116, 111, 114, 101, 100, 32, 98, 108, 111, 99, 107, 10]] [],
      kind := ObjectKind.blob,
      content := [104, 101, 108, 108, 111, 44, 32, 115, 116, 111, 114, 101, 100, 32, 98, 108,
        111, 99, 107, 10],
      depth := 0 } ]

end git

/-! ## Theorems: `cmd.IndexPack` -/

namespace cmd

/-- Claim C9: for every argument list in which `--stdin` is not set and no
positional pack file name remains after flag parsing, `cmd.IndexPack` returns
the error "Must provide pack file name or --stdin"; the only call it makes is
the usage message, so no file is opened or created and `git.IndexPack` is not
called, whatever `-o` names. -/
theorem IndexPack_requires_pack_name (w : World) (args : List String) (fl : FlagValues)
    (hparse : flagsParse w.parseUint flagDefaults args = .ok fl)
    (hstdin : fl.stdin = false) (hargs : fl.args = []) :
    IndexPack w args
      = (.returned (some "Must provide pack file name or --stdin"), [Event.usage]) := by
  simp [IndexPack, hparse, hstdin, hargs]

/-- Witness for C9: `-o out.idx` alone parses to an output name with no
positional argument, and the command returns the error. -/
theorem IndexPack_requires_pack_name_witness :
    flagsParse okWorld.parseUint flagDefaults ["-o", "out.idx"]
        = .ok { flagDefaults with output := "out.idx" } ∧
      IndexPack okWorld ["-o", "out.idx"]
        = (.returned (some "Must provide pack file name or --stdin"), [Event.usage]) :=
  ⟨by decide, IndexPack_requires_pack_name okWorld ["-o", "out.idx"]
      { flagDefaults with output := "out.idx" } (by decide) (by decide) (by decide)⟩


/-- Claim C5, the code at `foo.pack`: with neither `-o` nor `--stdin`, and a
pack file `foo.pack` that opens, `cmd.IndexPack` returns "File name does not
end in .pack" and creates no index file, although the name ends in `.pack`. -/
theorem IndexPack_guess_rejects_pack_suffix :
    IndexPack okWorld ["foo.pack"]
      = (.returned (some "File name does not end in .pack"),
          [Event.openFile "foo.pack", Event.close "foo.pack"]) := by
  decide

/-- Claim C6, the code at `--stdin -o out.idx`: `git.IndexPack` is handed
`os.Stdin` itself; standard input is not copied to a file first. -/
theorem IndexPack_stdin_output_reads_stdin_directly :
    IndexPack okWorld ["--stdin", "-o", "out.idx"]
      = (.returned none,
          [Event.createFile "out.idx",
            Event.indexPack { flagDefaults.options with Output := some "out.idx" } PackSource.stdin,
            Event.writeIndex (some "out.idx"),
            Event.close "out.idx"]) := by
  decide

/-- Claim C7, the code at `--stdin foo.pack`: the file named by the pack
argument is created as the index output and receives what `WriteIndex`
writes; standard input is never copied to it. -/
theorem IndexPack_stdin_pack_argument_receives_index :
    IndexPack okWorld ["--stdin", "foo.pack"]
      = (.returned none,
          [Event.createFile "foo.pack",
            Event.indexPack { flagDefaults.options with Output := some "foo.pack" } PackSource.stdin,
            Event.writeIndex (some "foo.pack"),
            Event.close "foo.pack"]) := by
  decide

/-- Deferred calls never call `git.IndexPack`. -/
theorem runDeferred_no_indexPack (w : World) (idx : Option PackfileIndex)
    (ds : List Deferred) (out : Outcome) (o : IndexPackOptions) (s : PackSource) :
    Event.indexPack o s ∉ (runDeferred w idx ds out).2 := by
  induction ds generalizing out with
  | nil => simp [runDeferred]
  | cons d ds ih =>
    cases d with
    | closeFile n => simp [runDeferred, ih]
    | finishTemp a b =>
      cases idx with
      | none => simp [runDeferred, ih]
      | some i => simp [runDeferred, ih]

/-- Deferred `Close` calls leave the outcome alone and rename nothing. -/
theorem runDeferred_closeFile (w : World) (idx : Option PackfileIndex)
    (n : String) (out : Outcome) :
    runDeferred w idx [Deferred.closeFile n] out = (out, [Event.close n]) := by
  simp [runDeferred]

/-- Two deferred `Close` calls run most recent first. -/
theorem runDeferred_closeFile_two (w : World) (idx : Option PackfileIndex)
    (n m : String) (out : Outcome) :
    runDeferred w idx [Deferred.closeFile n, Deferred.closeFile m] out
      = (out, [Event.close n, Event.close m]) := by
  simp [runDeferred]

/-- The only `git.IndexPack` call `runCore` adds is the one on its own arguments. -/
theorem runCore_call (w : World) (options : IndexPackOptions) (packfile : PackSource)
    (defers : List Deferred) (events : List Event) (o : IndexPackOptions) (s : PackSource)
    (hev : Event.indexPack o s ∉ events)
    (hcall : Event.indexPack o s ∈ (runCore w options packfile defers events).2) :
    o = options ∧ s = packfile := by
  unfold runCore at hcall
  split at hcall <;>
    simpa [hev, runDeferred_no_indexPack] using hcall

/-- In the temporary-file mode the command is the two `TempFile` calls, the
copy of standard input, and the core with the rename closure deferred. -/
theorem IndexPack_tempMode_eq (w : World) (args : List String) (fl : FlagValues)
    (hparse : flagsParse w.parseUint flagDefaults args = .ok fl) (hmode : tempMode fl) :
    IndexPack w args =
      match w.tempFile 0 w.packDir ".tmppackfileidx" with
      | .error e => (.returned (some e), [Event.tempFile w.packDir ".tmppackfileidx"])
      | .ok fidx =>
        match w.tempFile 1 w.packDir ".tmppackfileidx" with
        | .error e =>
          (.returned (some e),
            [Event.tempFile w.packDir ".tmppackfileidx",
              Event.tempFile w.packDir ".tmppackfileidx", Event.close fidx])
        | .ok pack =>
          runCore w { fl.options with Output := some fidx } (PackSource.file pack)
            [Deferred.finishTemp fidx pack]
            [Event.tempFile w.packDir ".tmppackfileidx",
              Event.tempFile w.packDir ".tmppackfileidx",
              Event.copyStdinTo pack, Event.seekStart pack] := by
  obtain ⟨hs, ho, ha⟩ := hmode
  unfold IndexPack
  simp only [hparse, hs, if_true]
  unfold chooseOutput
  simp only [ho, ha, hs, if_true, ne_eq, not_true_eq_false, if_false]
  cases h0 : w.tempFile 0 w.packDir ".tmppackfileidx" with
  | error e0 => simp [returnEarly, runDeferred]
  | ok fidx =>
    cases h1 : w.tempFile 1 w.packDir ".tmppackfileidx" with
    | error e1 => simp [returnEarly, runDeferred]
    | ok pack => simp

/-- The events of `runCore` when the rename closure is the only deferred call. -/
theorem runCore_finishTemp_events (w : World) (options : IndexPackOptions)
    (packfile : PackSource) (fidx pack : String) (events : List Event) :
    (runCore w options packfile [Deferred.finishTemp fidx pack] events).2 =
      match w.gitIndexPack options packfile with
      | (some i, some _) =>
        events ++ [Event.indexPack options packfile, Event.close fidx, Event.close pack,
          Event.getTrailer,
          Event.rename fidx (w.packDir ++ "/pack-" ++ i.trailer ++ ".idx"),
          Event.rename pack (w.packDir ++ "/pack-" ++ i.trailer ++ ".pack")]
      | (some i, none) =>
        events ++ [Event.indexPack options packfile, Event.writeIndex options.Output,
          Event.close fidx, Event.close pack, Event.getTrailer,
          Event.rename fidx (w.packDir ++ "/pack-" ++ i.trailer ++ ".idx"),
          Event.rename pack (w.packDir ++ "/pack-" ++ i.trailer ++ ".pack")]
      | (none, _) =>
        events ++ [Event.indexPack options packfile, Event.close fidx, Event.close pack] := by
  unfold runCore
  rcases h : w.gitIndexPack options packfile with ⟨idx, err⟩
  cases idx <;> cases err <;> simp [runDeferred]

/-- Claim C8: in the `--stdin` mode with no `-o` and no pack argument, when
`git.IndexPack` is called and returns a non-nil index whose trailer is `H`,
the temporary index file (the first `TempFile`, the output handed to
`git.IndexPack`) is renamed to `<packDir>/pack-H.idx` and the temporary pack
copy (the second `TempFile`, the pack source) to `<packDir>/pack-H.pack`. -/
theorem IndexPack_temp_renamed_by_trailer (w : World) (args : List String) (fl : FlagValues)
    (options : IndexPackOptions) (src : PackSource) (i : PackfileIndex)
    (hparse : flagsParse w.parseUint flagDefaults args = .ok fl) (hmode : tempMode fl)
    (hcall : Event.indexPack options src ∈ (IndexPack w args).2)
    (hidx : (w.gitIndexPack options src).1 = some i) :
    ∃ fidx pack,
      w.tempFile 0 w.packDir ".tmppackfileidx" = .ok fidx ∧
      w.tempFile 1 w.packDir ".tmppackfileidx" = .ok pack ∧
      options.Output = some fidx ∧ src = PackSource.file pack ∧
      Event.rename fidx (w.packDir ++ "/pack-" ++ i.trailer ++ ".idx") ∈ (IndexPack w args).2 ∧
      Event.rename pack (w.packDir ++ "/pack-" ++ i.trailer ++ ".pack")
        ∈ (IndexPack w args).2 := by
  rw [IndexPack_tempMode_eq w args fl hparse hmode] at hcall ⊢
  cases h0 : w.tempFile 0 w.packDir ".tmppackfileidx" with
  | error e0 => simp [h0] at hcall
  | ok fidx =>
    cases h1 : w.tempFile 1 w.packDir ".tmppackfileidx" with
    | error e1 => simp [h0, h1] at hcall
    | ok pack =>
      simp only [h0, h1] at hcall ⊢
      obtain ⟨rfl, rfl⟩ := runCore_call _ _ _ _ _ _ _ (by simp) hcall
      refine ⟨fidx, pack, rfl, rfl, rfl, rfl, ?_, ?_⟩ <;>
        rw [runCore_finishTemp_events] <;>
        rcases h : w.gitIndexPack { fl.options with Output := some fidx }
            (PackSource.file pack) with ⟨idx, err⟩ <;>
        rw [h] at hidx <;> simp only at hidx <;> subst hidx <;>
        cases err <;> simp

/-- Counterexample to C4: with `--stdin` alone, `git.IndexPack` succeeds and
`WriteIndex` fails with "disk full"; `cmd.IndexPack` returns that error and
both temporary files are renamed to their permanent names all the same. -/
theorem IndexPack_write_failure_still_renames :
    (IndexPack writeFailWorld ["--stdin"]).1 = .returned (some "disk full") ∧
    Event.rename ".git/objects/pack/.tmppackfileidx101" ".git/objects/pack/pack-3a5f.idx"
      ∈ (IndexPack writeFailWorld ["--stdin"]).2 ∧
    Event.rename ".git/objects/pack/.tmppackfileidx202" ".git/objects/pack/pack-3a5f.pack"
      ∈ (IndexPack writeFailWorld ["--stdin"]).2 := by
  decide

/-- Claim C4, amended: in the `--stdin` mode with no `-o` and no pack argument,
a temporary file is renamed only when `git.IndexPack` was called and returned
a non-nil index; when it returned a nil index nothing is renamed; and when
`git.IndexPack` and `WriteIndex` both succeed the command returns no error
and both temporary files are renamed to their permanent names. -/
theorem IndexPack_temp_rename_gate (w : World) (args : List String) (fl : FlagValues)
    (hparse : flagsParse w.parseUint flagDefaults args = .ok fl) (hmode : tempMode fl) :
    ((∃ a b, Event.rename a b ∈ (IndexPack w args).2) →
      ∃ options src i, Event.indexPack options src ∈ (IndexPack w args).2 ∧
        (w.gitIndexPack options src).1 = some i) ∧
    (∀ options src, Event.indexPack options src ∈ (IndexPack w args).2 →
      (w.gitIndexPack options src).1 = none →
      ∀ a b, Event.rename a b ∉ (IndexPack w args).2) ∧
    (∀ options src i, Event.indexPack options src ∈ (IndexPack w args).2 →
      w.gitIndexPack options src = (some i, none) → i.writeErr = none →
      (IndexPack w args).1 = .returned none ∧
      ∃ fidx pack,
        w.tempFile 0 w.packDir ".tmppackfileidx" = .ok fidx ∧
        w.tempFile 1 w.packDir ".tmppackfileidx" = .ok pack ∧
        Event.rename fidx (w.packDir ++ "/pack-" ++ i.trailer ++ ".idx")
          ∈ (IndexPack w args).2 ∧
        Event.rename pack (w.packDir ++ "/pack-" ++ i.trailer ++ ".pack")
          ∈ (IndexPack w args).2) := by
  rw [IndexPack_tempMode_eq w args fl hparse hmode]
  cases h0 : w.tempFile 0 w.packDir ".tmppackfileidx" with
  | error e0 => simp
  | ok fidx =>
    cases h1 : w.tempFile 1 w.packDir ".tmppackfileidx" with
    | error e1 => simp
    | ok pack =>
      simp only
      refine ⟨?_, ?_, ?_⟩
      · rintro ⟨a, b, hab⟩
        rw [runCore_finishTemp_events] at hab ⊢
        rcases h : w.gitIndexPack { fl.options with Output := some fidx }
            (PackSource.file pack) with ⟨idx, err⟩
        rw [h] at hab
        cases idx with
        | none => simp at hab
        | some i =>
          refine ⟨_, _, i, ?_, by rw [h]⟩
          cases err <;> simp
      · intro options src hcall hnone a b hab
        obtain ⟨rfl, rfl⟩ := runCore_call _ _ _ _ _ _ _ (by simp) hcall
        rw [runCore_finishTemp_events] at hab
        rcases h : w.gitIndexPack { fl.options with Output := some fidx }
            (PackSource.file pack) with ⟨idx, err⟩
        rw [h] at hab hnone
        simp only at hnone
        subst hnone
        simp at hab
      · intro options src i hcall hres hw
        obtain ⟨rfl, rfl⟩ := runCore_call _ _ _ _ _ _ _ (by simp) hcall
        refine ⟨?_, fidx, pack, rfl, rfl, ?_, ?_⟩
        · unfold runCore
          rw [hres]
          simp [runDeferred, hw]
        · rw [runCore_finishTemp_events, hres]; simp
        · rw [runCore_finishTemp_events, hres]; simp


/-- Witness for C8: `--stdin` alone, with trailer `3a5f`. -/
theorem IndexPack_temp_renamed_by_trailer_witness :
    tempMode { flagDefaults with stdin := true } ∧
    ∃ fidx pack,
      okWorld.tempFile 0 okWorld.packDir ".tmppackfileidx" = .ok fidx ∧
      okWorld.tempFile 1 okWorld.packDir ".tmppackfileidx" = .ok pack ∧
      (some ".git/objects/pack/.tmppackfileidx101" : Option String) = some fidx ∧
      PackSource.file ".git/objects/pack/.tmppackfileidx202" = PackSource.file pack ∧
      Event.rename fidx (okWorld.packDir ++ "/pack-" ++ "3a5f" ++ ".idx")
        ∈ (IndexPack okWorld ["--stdin"]).2 ∧
      Event.rename pack (okWorld.packDir ++ "/pack-" ++ "3a5f" ++ ".pack")
        ∈ (IndexPack okWorld ["--stdin"]).2 :=
  ⟨by decide,
    IndexPack_temp_renamed_by_trailer okWorld ["--stdin"] { flagDefaults with stdin := true }
      { flagDefaults.options with Output := some ".git/objects/pack/.tmppackfileidx101" }
      (PackSource.file ".git/objects/pack/.tmppackfileidx202")
      { trailer := "3a5f", writeErr := none } (by decide) (by decide) (by decide) (by decide)⟩

/-- Witness for C4 amended: `--stdin` alone with a nil index renames nothing. -/
theorem IndexPack_temp_rename_gate_witness :
    tempMode { flagDefaults with stdin := true } ∧
    (∀ options src, Event.indexPack options src ∈ (IndexPack badPackWorld ["--stdin"]).2 →
      (badPackWorld.gitIndexPack options src).1 = none →
      ∀ a b, Event.rename a b ∉ (IndexPack badPackWorld ["--stdin"]).2) :=
  ⟨by decide,
    (IndexPack_temp_rename_gate badPackWorld ["--stdin"] { flagDefaults with stdin := true }
      (by decide) (by decide)).2.1⟩

end cmd

/-! ## Theorems: unpacking -/

namespace git

theorem natBits_length (n v : Nat) : (natBits n v).length = n := by
  induction n generalizing v with
  | zero => rfl
  | succ n ih => simp [natBits, ih]

theorem codeBits_length (n v : Nat) : (codeBits n v).length = n := by
  induction n with
  | zero => rfl
  | succ n ih => simp [codeBits, ih]

theorem readBits_succ_cons (n : Nat) (b : Bool) (bs : List Bool) :
    readBits (n + 1) (b :: bs)
      = (readBits n bs).map (fun p => (b.toNat + 2 * p.1, p.2)) := by
  rw [readBits]
  cases readBits n bs with
  | none => rfl
  | some p => rfl

theorem readBits_natBits (n v : Nat) (rest : List Bool) :
    readBits n (natBits n v ++ rest) = some (v % 2 ^ n, rest) := by
  induction n generalizing v with
  | zero => simp [natBits, readBits, Nat.mod_one]
  | succ n ih =>
    have e : v % 2 ^ (n + 1) = (decide (v % 2 = 1)).toNat + 2 * ((v / 2) % 2 ^ n) := by
      rw [pow_succ', Nat.mod_mul]
      by_cases h : v % 2 = 1
      · simp [h]
      · have h0 : v % 2 = 0 := by omega
        simp [h0]
    rw [natBits, List.cons_append, readBits_succ_cons, ih, e]
    rfl

theorem readBits_natBits_lt (n v : Nat) (rest : List Bool) (h : v < 2 ^ n) :
    readBits n (natBits n v ++ rest) = some (v, rest) := by
  rw [readBits_natBits, Nat.mod_eq_of_lt h]

theorem bitsOf_byteOfBits (b0 b1 b2 b3 b4 b5 b6 b7 : Bool) (rest : Bytes) :
    bitsOf (byteOfBits b0 b1 b2 b3 b4 b5 b6 b7 :: rest)
      = b0 :: b1 :: b2 :: b3 :: b4 :: b5 :: b6 :: b7 :: bitsOf rest := by
  have h : ∀ b0 b1 b2 b3 b4 b5 b6 b7 : Bool,
      [(byteOfBits b0 b1 b2 b3 b4 b5 b6 b7).testBit 0,
        (byteOfBits b0 b1 b2 b3 b4 b5 b6 b7).testBit 1,
        (byteOfBits b0 b1 b2 b3 b4 b5 b6 b7).testBit 2,
        (byteOfBits b0 b1 b2 b3 b4 b5 b6 b7).testBit 3,
        (byteOfBits b0 b1 b2 b3 b4 b5 b6 b7).testBit 4,
        (byteOfBits b0 b1 b2 b3 b4 b5 b6 b7).testBit 5,
        (byteOfBits b0 b1 b2 b3 b4 b5 b6 b7).testBit 6,
        (byteOfBits b0 b1 b2 b3 b4 b5 b6 b7).testBit 7]
        = [b0, b1, b2, b3, b4, b5, b6, b7] := by decide
  have := h b0 b1 b2 b3 b4 b5 b6 b7
  simp only [List.cons.injEq, and_true] at this
  obtain ⟨h0, h1, h2, h3, h4, h5, h6, h7⟩ := this
  simp only [bitsOf, h0, h1, h2, h3, h4, h5, h6, h7]

theorem bitsOf_append (a b : Bytes) : bitsOf (a ++ b) = bitsOf a ++ bitsOf b := by
  induction a with
  | nil => rfl
  | cons x xs ih => simp [bitsOf, ih]

theorem bitsOf_length (a : Bytes) : (bitsOf a).length = 8 * a.length := by
  induction a with
  | nil => rfl
  | cons x xs ih => simp [bitsOf, ih]; omega

theorem bitsOf_packBits (n : Nat) (bs : List Bool) (h : bs.length = 8 * n) :
    bitsOf (packBits bs) = bs := by
  induction n generalizing bs with
  | zero =>
    have : bs = [] := List.length_eq_zero.mp (by simpa using h)
    subst this; rfl
  | succ n ih =>
    match bs, h with
    | b0 :: b1 :: b2 :: b3 :: b4 :: b5 :: b6 :: b7 :: rest, h =>
      have hr : rest.length = 8 * n := by simp at h; omega
      simp only [packBits, bitsOf_byteOfBits, ih rest hr]
    | [], h => simp at h
    | [_], h => simp at h; omega
    | [_, _], h => simp at h; omega
    | [_, _, _], h => simp at h; omega
    | [_, _, _, _], h => simp at h; omega
    | [_, _, _, _, _], h => simp at h; omega
    | [_, _, _, _, _, _], h => simp at h; omega
    | [_, _, _, _, _, _, _], h => simp at h; omega

theorem packBits_length (n : Nat) (bs : List Bool) (h : bs.length = 8 * n) :
    (packBits bs).length = n := by
  have := bitsOf_length (packBits bs)
  rw [bitsOf_packBits n bs h, h] at this
  omega

theorem msbVal_lt (bs : List Bool) : msbVal bs < 2 ^ bs.length := by
  induction bs with
  | nil => simp [msbVal]
  | cons b bs ih =>
    simp only [msbVal, List.length_cons, pow_succ]
    have : b.toNat ≤ 1 := Bool.toNat_le b
    nlinarith

theorem msbVal_codeBits (n v : Nat) : msbVal (codeBits n v) = v % 2 ^ n := by
  induction n with
  | zero => simp [codeBits, msbVal, Nat.mod_one]
  | succ n ih =>
    simp only [codeBits, msbVal, codeBits_length, ih]
    rw [pow_succ, Nat.mod_mul]
    by_cases h : v / 2 ^ n % 2 = 1
    · simp [h]; ring
    · have h0 : v / 2 ^ n % 2 = 0 := by omega
      simp [h0]

theorem firstAfter_eq (pre : List Nat) (f : Nat) :
    firstAfter pre f = f * 2 ^ pre.length + 2 * kraftWeight pre := by
  induction pre generalizing f with
  | nil => simp [firstAfter, kraftWeight]
  | cons p pre ih =>
    have : firstAfter (p :: pre) f = firstAfter pre (2 * (f + p)) := rfl
    rw [this, ih]
    simp only [kraftWeight, List.length_cons, pow_succ]
    ring

theorem decodeSym_core (symbols : List Nat) (s : Nat) (rest : List Bool) :
    ∀ (pre : List Nat) (bs : List Bool) (c : Nat) (tl : List Nat) (code first index : Nat),
      pre.length + 1 = bs.length →
      firstAfter pre first ≤ code * 2 ^ pre.length + msbVal bs →
      code * 2 ^ pre.length + msbVal bs < firstAfter pre first + c →
      symbols.get? (index + pre.sum + (code * 2 ^ pre.length + msbVal bs - firstAfter pre first))
        = some s →
      decodeSym symbols (pre ++ c :: tl) code first index (bs ++ rest) = some (s, rest) := by
  intro pre
  induction pre with
  | nil =>
    intro bs c tl code first index hlen hlo hhi hsym
    match bs, hlen with
    | [b], _ =>
      simp only [firstAfter, List.foldl_nil, List.length_nil, pow_zero, mul_one, msbVal,
        List.sum_nil, add_zero] at hlo hhi hsym
      simp only [List.nil_append, List.cons_append, decodeSym, hhi, if_true, hsym]
      rfl
  | cons p pre ih =>
    intro bs c tl code first index hlen hlo hhi hsym
    match bs, hlen with
    | b :: bs', hlen =>
      have hlen' : pre.length + 1 = bs'.length := by simpa using hlen
      have hF : firstAfter (p :: pre) first = firstAfter pre (2 * (first + p)) := rfl
      have hT : code * 2 ^ (p :: pre).length + msbVal (b :: bs')
          = 2 * (code + b.toNat) * 2 ^ pre.length + msbVal bs' := by
        simp only [msbVal, List.length_cons, ← hlen', pow_succ]
        ring
      rw [hF, hT] at hlo hhi hsym
      have hge : ¬ (code + b.toNat < first + p) := by
        intro hlt
        have h1 := firstAfter_eq pre (2 * (first + p))
        have h2 := msbVal_lt bs'
        rw [← hlen', pow_succ] at h2
        have h3 : (code + b.toNat + 1) * 2 ^ pre.length ≤ (first + p) * 2 ^ pre.length :=
          Nat.mul_le_mul_right _ hlt
        nlinarith
      simp only [List.cons_append, decodeSym, hge, if_false]
      apply ih bs' c tl _ _ _ hlen' hlo hhi
      rw [← hsym]
      congr 2
      simp only [List.sum_cons]
      ring

theorem kraftWeight_append (a b : List Nat) :
    kraftWeight (a ++ b) = kraftWeight a * 2 ^ b.length + kraftWeight b := by
  induction a with
  | nil => simp [kraftWeight]
  | cons x xs ih =>
    show kraftWeight (x :: (xs ++ b)) = _
    rw [kraftWeight, ih, List.length_append, pow_add, kraftWeight]
    ring

theorem lengthCounts_length (lens : List Nat) : (lengthCounts lens).length = 15 := by
  simp [lengthCounts]

theorem lengthCounts_getElem (lens : List Nat) (k : Nat) (h : k < (lengthCounts lens).length) :
    (lengthCounts lens)[k] = lens.count (k + 1) := by
  simp [lengthCounts]

theorem lengthCounts_split (lens : List Nat) (k : Nat) (h : k < 15) :
    lengthCounts lens
      = (lengthCounts lens).take k ++ lens.count (k + 1) :: (lengthCounts lens).drop (k + 1) := by
  have hk : k < (lengthCounts lens).length := by rw [lengthCounts_length]; exact h
  conv_lhs => rw [← List.take_append_drop k (lengthCounts lens)]
  rw [List.drop_eq_getElem_cons hk, lengthCounts_getElem]

theorem nextCode_eq (lens : List Nat) (k : Nat) (h : k < 15) :
    nextCode lens (k + 1) = 2 * kraftWeight ((lengthCounts lens).take k) := by
  induction k with
  | zero => simp [nextCode, codeCount, kraftWeight]
  | succ k ih =>
    have hk : k < (lengthCounts lens).length := by rw [lengthCounts_length]; omega
    rw [nextCode, ih (by omega), List.take_succ, List.getElem?_eq_getElem hk,
      lengthCounts_getElem]
    simp only [Option.toList_some, kraftWeight_append, kraftWeight, List.length_cons,
      List.length_nil, codeCount]
    simp
    ring

theorem kraft_bound (lens : List Nat) (k : Nat) (h : k < 15) (hk : KraftOk lens) :
    2 * kraftWeight ((lengthCounts lens).take k) + lens.count (k + 1) ≤ 2 ^ (k + 1) := by
  unfold KraftOk at hk
  rw [lengthCounts_split lens k h, kraftWeight_append] at hk
  simp only [kraftWeight, List.length_cons, List.length_drop, lengthCounts_length] at hk
  have e : (15 : Nat) = (k + 1) + (15 - (k + 1)) := by omega
  have hp : (2 : Nat) ^ 15 = 2 ^ (k + 1) * 2 ^ (15 - (k + 1)) := by
    rw [← pow_add, ← e]
  rw [hp] at hk
  have hpos : 0 < 2 ^ (15 - (k + 1)) := pow_pos (by norm_num) _
  apply Nat.le_of_mul_le_mul_right _ hpos
  calc (2 * kraftWeight ((lengthCounts lens).take k) + lens.count (k + 1))
        * 2 ^ (15 - (k + 1))
      = kraftWeight ((lengthCounts lens).take k) * 2 ^ (15 - (k + 1) + 1)
          + lens.count (k + 1) * 2 ^ (15 - (k + 1)) := by rw [pow_succ]; ring
    _ ≤ _ := by omega

theorem enumFrom_filter_get (l : Nat) (lens : List Nat) :
    ∀ (n s : Nat), s < lens.length → lens.getD s 0 = l →
      (((lens.enumFrom n).filter (fun p => decide (p.2 = l))).map (fun p => p.1)).get?
          ((lens.take s).count l)
        = some (n + s) := by
  induction lens with
  | nil => intro n s h; simp at h
  | cons x xs ih =>
    intro n s hs hl
    cases s with
    | zero =>
      simp only [List.getD_cons_zero] at hl
      simp [List.enumFrom, List.filter, hl]
    | succ s =>
      simp only [List.getD_cons_succ] at hl
      have hs' : s < xs.length := by simpa using hs
      have := ih (n + 1) s hs' hl
      by_cases hx : x = l
      · simp only [List.enumFrom, List.filter, hx, decide_True, List.map_cons, List.take_succ_cons,
          List.count_cons_self, List.get?_cons_succ]
        rw [this]; congr 1; omega
      · simp only [List.enumFrom, List.filter, hx, decide_False, List.take_succ_cons]
        rw [List.count_cons_of_ne (fun h => hx h.symm), this]; congr 1; omega

theorem symbolsOfLength_get (lens : List Nat) (s l : Nat) (hs : s < lens.length)
    (hl : lens.getD s 0 = l) :
    (symbolsOfLength lens l).get? ((lens.take s).count l) = some s := by
  have := enumFrom_filter_get l lens 0 s hs hl
  simpa [symbolsOfLength, List.enum] using this

theorem enumFrom_filter_length (l : Nat) (lens : List Nat) :
    ∀ n, (((lens.enumFrom n).filter (fun p => decide (p.2 = l))).map (fun p => p.1)).length
      = lens.count l := by
  induction lens with
  | nil => intro n; simp
  | cons x xs ih =>
    intro n
    by_cases hx : x = l
    · simp [List.enumFrom, List.filter, hx, ih]
    · simp only [List.enumFrom, List.filter, hx, decide_False]
      rw [List.count_cons_of_ne (fun h => hx h.symm), ih]

theorem symbolsOfLength_length (lens : List Nat) (l : Nat) :
    (symbolsOfLength lens l).length = lens.count l := by
  simpa [symbolsOfLength, List.enum] using enumFrom_filter_length l lens 0

theorem count_take_lt (lens : List Nat) (s : Nat) (hs : s < lens.length) :
    (lens.take s).count (lens.getD s 0) < lens.count (lens.getD s 0) := by
  have h3 : lens.getD s 0 = lens[s] := by
    simp [List.getD_eq_getElem?_getD, List.getElem?_eq_getElem hs]
  rw [h3]
  have h1 : lens.count lens[s]
      = (lens.take s).count lens[s] + (lens.drop s).count lens[s] := by
    rw [← List.count_append, List.take_append_drop]
  have h2 : (lens.drop s).count lens[s] = (lens.drop (s + 1)).count lens[s] + 1 := by
    rw [List.drop_eq_getElem_cons hs, List.count_cons_self]
  omega

theorem flatMap_length_sum {α : Type} (g : Nat → List α) (L : List Nat) :
    (L.flatMap g).length = (L.map (fun i => (g i).length)).sum := by
  induction L with
  | nil => rfl
  | cons x xs ih => simp [List.flatMap_cons, ih]

theorem range15_split (k : Nat) (h : k < 15) :
    List.range 15 = (List.range 15).take k ++ k :: (List.range 15).drop (k + 1) := by
  have hk : k < (List.range 15).length := by simpa using h
  conv_lhs => rw [← List.take_append_drop k (List.range 15)]
  rw [List.drop_eq_getElem_cons hk, List.getElem_range]

theorem mkHuffman_symbols_get (lens : List Nat) (k r s : Nat) (h : k < 15)
    (hr : (symbolsOfLength lens (k + 1)).get? r = some s) :
    (mkHuffman lens).symbols.get? (((lengthCounts lens).take k).sum + r) = some s := by
  have hlen : (((List.range 15).take k).flatMap
      (fun l => symbolsOfLength lens (l + 1))).length = ((lengthCounts lens).take k).sum := by
    rw [flatMap_length_sum]
    simp only [symbolsOfLength_length, lengthCounts, List.map_take]
  have hsym : (mkHuffman lens).symbols
      = ((List.range 15).take k).flatMap (fun l => symbolsOfLength lens (l + 1))
        ++ (symbolsOfLength lens (k + 1)
          ++ ((List.range 15).drop (k + 1)).flatMap (fun l => symbolsOfLength lens (l + 1))) := by
    have e : (mkHuffman lens).symbols
        = (List.range 15).flatMap (fun l => symbolsOfLength lens (l + 1)) := rfl
    rw [e]
    conv_lhs => rw [range15_split k h]
    rw [List.flatMap_append, List.flatMap_cons]
  have hrlt : r < (symbolsOfLength lens (k + 1)).length := by
    rcases List.get?_eq_some.mp hr with ⟨h1, _⟩
    exact h1
  rw [hsym, ← hlen, List.get?_eq_getElem?, List.getElem?_append_right (by omega)]
  simp only [Nat.add_sub_cancel_left]
  rw [List.getElem?_append_left hrlt, ← List.get?_eq_getElem?]
  exact hr

/-- Decoding the code of a symbol gives the symbol back. -/
theorem decode_symbolBits (lens : List Nat) (s : Nat) (rest : List Bool) (hk : KraftOk lens)
    (hs : HasCode lens s) :
    (mkHuffman lens).decode (symbolBits lens s ++ rest) = some (s, rest) := by
  obtain ⟨hlt, h1, h15⟩ := hs
  obtain ⟨k, hkl⟩ : ∃ k, lens.getD s 0 = k + 1 := ⟨lens.getD s 0 - 1, by omega⟩
  have hk15 : k < 15 := by omega
  have hcounts : (mkHuffman lens).counts
      = (lengthCounts lens).take k ++ lens.count (k + 1) :: (lengthCounts lens).drop (k + 1) :=
    lengthCounts_split lens k hk15
  have hprelen : ((lengthCounts lens).take k).length = k := by
    rw [List.length_take, lengthCounts_length]; omega
  have hF : firstAfter ((lengthCounts lens).take k) 0 = nextCode lens (k + 1) := by
    rw [firstAfter_eq, nextCode_eq lens k hk15]; simp
  have hrank := count_take_lt lens s hlt
  rw [hkl] at hrank
  have hbound := kraft_bound lens k hk15 hk
  have hv : codeValue lens s = nextCode lens (k + 1) + (lens.take s).count (k + 1) := by
    unfold codeValue
    rw [hkl]
  have hvlt : codeValue lens s < 2 ^ (k + 1) := by
    rw [hv, nextCode_eq lens k hk15]; omega
  have hmsb : msbVal (symbolBits lens s) = codeValue lens s := by
    rw [symbolBits, hkl, msbVal_codeBits, Nat.mod_eq_of_lt hvlt]
  have hblen : ((lengthCounts lens).take k).length + 1 = (symbolBits lens s).length := by
    rw [hprelen, symbolBits, codeBits_length, hkl]
  unfold Huffman.decode
  rw [hcounts]
  apply decodeSym_core _ s rest _ _ _ _ 0 0 0 hblen
  · rw [hF, hmsb, hv]; omega
  · rw [hF, hmsb, hv]; omega
  · rw [hF, hmsb, hv]
    simp only [zero_mul, zero_add, Nat.add_sub_cancel_left]
    apply mkHuffman_symbols_get lens k _ s hk15
    exact symbolsOfLength_get lens s (k + 1) hlt hkl

theorem symbolBits_length (lens : List Nat) (s : Nat) :
    (symbolBits lens s).length = lens.getD s 0 := by
  simp [symbolBits, codeBits_length]

theorem copyBack_lzCopy (len dist : Nat) (out : Bytes) (h1 : 1 ≤ dist) (h2 : dist ≤ out.length) :
    copyBack len dist out.reverse = some (lzCopy len dist out).reverse := by
  induction len generalizing out with
  | zero => rfl
  | succ n ih =>
    have hget : out.reverse.get? (dist - 1) = some (out.getD (out.length - dist) 0) := by
      rw [List.get?_eq_getElem?, List.getElem?_reverse (by omega)]
      rw [List.getD_eq_getElem?_getD]
      have hi : out.length - 1 - (dist - 1) = out.length - dist := by omega
      rw [hi]
      have hlt : out.length - dist < out.length := by omega
      rw [List.getElem?_eq_getElem hlt]
      rfl
    rw [copyBack, hget]
    simp only
    have := ih (out ++ [out.getD (out.length - dist) 0]) (by simp; omega)
    rw [List.reverse_append] at this
    simpa [lzCopy] using this

theorem table_get?_getD {α : Type} (t : List α) (i : Nat) (d : α) (h : i < t.length) :
    t.get? i = some (t.getD i d) := by
  rw [List.get?_eq_getElem?, List.getD_eq_getElem?_getD, List.getElem?_eq_getElem h]
  rfl

theorem symBits_length_pos (litLens distLens : List Nat) (out : Bytes) (s : Sym)
    (h : Sym.Ok litLens distLens out s) : 1 ≤ (Sym.bits litLens distLens s).length := by
  cases s with
  | lit b =>
    have := h.2.2.1
    rw [Sym.bits, symbolBits_length]
    exact this
  | copy li lx di dx =>
    have := h.2.2.1.2.1
    rw [Sym.bits, List.length_append, List.length_append, List.length_append, symbolBits_length]
    omega

theorem symsBits_cons (litLens distLens : List Nat) (s : Sym) (syms : List Sym) :
    symsBits litLens distLens (s :: syms)
      = Sym.bits litLens distLens s ++ symsBits litLens distLens syms := by
  unfold symsBits
  rw [List.flatMap_cons, List.append_assoc]

theorem symsBits_nil (litLens distLens : List Nat) :
    symsBits litLens distLens [] = symbolBits litLens 256 := by
  unfold symsBits
  rfl

theorem symsBits_length_ge (litLens distLens : List Nat) (syms : List Sym) :
    ∀ out, SymsOk litLens distLens out syms → HasCode litLens 256 →
      syms.length + 1 ≤ (symsBits litLens distLens syms).length := by
  induction syms with
  | nil =>
    intro out _ h256
    rw [symsBits_nil, symbolBits_length]
    exact h256.2.1
  | cons s syms ih =>
    intro out hok h256
    have := ih _ hok.2 h256
    have hs := symBits_length_pos litLens distLens out s hok.1
    rw [symsBits_cons, List.length_append, List.length_cons]
    omega

set_option maxRecDepth 100000 in
theorem inflateCodes_succ (lit dist : Huffman) (fuel : Nat) (bits : List Bool) (out : Bytes) :
    inflateCodes lit dist (fuel + 1) bits out =
      match lit.decode bits with
      | none => none
      | some (sym, bits1) =>
        if sym < 256 then inflateCodes lit dist fuel bits1 (sym :: out)
        else if sym = 256 then some (bits1, out)
        else
          match lengthTable.get? (sym - 257) with
          | some (lb, le) =>
            match readBits le bits1 with
            | none => none
            | some (lx, bits2) =>
              match dist.decode bits2 with
              | none => none
              | some (dsym, bits3) =>
                match distTable.get? dsym with
                | some (db, de) =>
                  match readBits de bits3 with
                  | none => none
                  | some (dx, bits4) =>
                    if db + dx = 0 then none
                    else
                      match copyBack (lb + lx) (db + dx) out with
                      | some out1 => inflateCodes lit dist fuel bits4 out1
                      | none => none
                | none => none
          | none => none := by
  rfl

/-- Decoding the bits of a block's compressed data gives its output. -/
theorem inflateCodes_symsBits (litLens distLens : List Nat) (hkl : KraftOk litLens)
    (hkd : KraftOk distLens) (h256 : HasCode litLens 256) (rest : List Bool)
    (syms : List Sym) :
    ∀ (out : Bytes) (fuel : Nat), SymsOk litLens distLens out syms → syms.length + 1 ≤ fuel →
      inflateCodes (mkHuffman litLens) (mkHuffman distLens) fuel
          (symsBits litLens distLens syms ++ rest) out.reverse
        = some (rest, (symsOutput out syms).reverse) := by
  induction syms with
  | nil =>
    intro out fuel _ hf
    obtain ⟨f, rfl⟩ : ∃ f, fuel = f + 1 := ⟨fuel - 1, by omega⟩
    rw [symsBits_nil, inflateCodes_succ, decode_symbolBits litLens 256 rest hkl h256]
    rfl
  | cons s syms ih =>
    intro out fuel hok hf
    obtain ⟨f, rfl⟩ : ∃ f, fuel = f + 1 := ⟨fuel - 1, by omega⟩
    have hf' : syms.length + 1 ≤ f := by simpa using hf
    obtain ⟨hs, hrest⟩ := hok
    rw [symsBits_cons, List.append_assoc]
    cases s with
    | lit b =>
      obtain ⟨hb, hc⟩ := hs
      rw [Sym.bits, inflateCodes_succ, decode_symbolBits litLens b _ hkl hc]
      simp only [hb, if_true]
      have := ih (out ++ [b]) f hrest hf'
      rw [List.reverse_append] at this
      exact this
    | copy li lx di dx =>
      obtain ⟨hli, hlx, hcl, hdi, hdx, hcd, hd1, hd2⟩ := hs
      rw [Sym.bits, List.append_assoc, List.append_assoc, List.append_assoc, inflateCodes_succ,
        decode_symbolBits litLens (257 + li) _ hkl hcl]
      have e1 : ¬ (257 + li < 256) := by omega
      have e2 : ¬ (257 + li = 256) := by omega
      simp only [e1, e2, if_false, Nat.add_sub_cancel_left]
      rw [table_get?_getD lengthTable li (0, 0) hli]
      simp only
      rw [readBits_natBits_lt _ _ _ hlx]
      simp only
      rw [decode_symbolBits distLens di _ hkd hcd]
      simp only
      rw [table_get?_getD distTable di (0, 0) hdi]
      simp only
      rw [readBits_natBits_lt _ _ _ hdx]
      have e3 : ¬ ((distTable.getD di (0, 0)).1 + dx = 0) := by
        unfold Sym.copyDist at hd1; omega
      simp only [e3, if_false]
      have hcb := copyBack_lzCopy (Sym.copyLength li lx) (Sym.copyDist di dx) out hd1 hd2
      unfold Sym.copyLength Sym.copyDist at hcb
      rw [hcb]
      exact ih _ f hrest hf'

theorem readBytes_natBits (rest : List Bool) (data : Bytes) :
    ∀ out : Bytes, (∀ b ∈ data, b < 256) →
      readBytes data.length (data.flatMap (natBits 8) ++ rest) out
        = some (rest, data.reverse ++ out) := by
  induction data with
  | nil => intro out _; rfl
  | cons x xs ih =>
    intro out h
    have hx : x < 2 ^ 8 := by
      have := h x (List.mem_cons_self _ _); omega
    have hxs : ∀ b ∈ xs, b < 256 := fun b hb => h b (List.mem_cons_of_mem _ hb)
    rw [List.length_cons, List.flatMap_cons, List.append_assoc, readBytes,
      readBits_natBits_lt 8 x _ hx]
    simp only
    rw [ih (x :: out) hxs]
    simp

/-- A stored block decodes to its bytes. -/
theorem inflateStored_bits (pad : List Bool) (data : Bytes) (rest : List Bool) (out : Bytes)
    (hlen : data.length < 65536) (hdata : ∀ b ∈ data, b < 256)
    (hpad : pad.length = ((Block.stored pad data).bits ++ rest).length % 8) :
    inflateStored ((Block.stored pad data).bits ++ rest) out.reverse
      = some (rest, (out ++ data).reverse) := by
  unfold inflateStored
  rw [← hpad]
  simp only [Block.bits, List.append_assoc]
  rw [List.drop_left, readBits_natBits_lt 16 _ _ (by omega : data.length < 2 ^ 16)]
  simp only
  rw [readBits_natBits_lt 16 _ _ (by omega : 65535 - data.length < 2 ^ 16)]
  simp only
  have e : data.length + (65535 - data.length) = 65535 := by omega
  rw [if_pos e, readBytes_natBits rest data _ hdata, List.reverse_append]

theorem codeSpaceLeft_eq (cs : List Nat) :
    ∀ left : Nat, kraftWeight cs ≤ left * 2 ^ cs.length →
      codeSpaceLeft cs left = some (left * 2 ^ cs.length - kraftWeight cs) := by
  induction cs with
  | nil => intro left _; simp [codeSpaceLeft, kraftWeight]
  | cons c cs ih =>
    intro left h
    simp only [kraftWeight, List.length_cons, pow_succ] at h
    have hpos : 0 < 2 ^ cs.length := pow_pos (by norm_num) _
    have hc : ¬ (2 * left < c) := by
      intro hlt
      have : (2 * left + 1) * 2 ^ cs.length ≤ c * 2 ^ cs.length :=
        Nat.mul_le_mul_right _ hlt
      nlinarith
    have hle : c ≤ 2 * left := by omega
    have hsub : (2 * left - c) * 2 ^ cs.length = left * (2 ^ cs.length * 2) - c * 2 ^ cs.length := by
      rw [Nat.sub_mul]; ring_nf
    rw [codeSpaceLeft, if_neg hc, ih (2 * left - c) (by rw [hsub]; omega)]
    simp only [kraftWeight, List.length_cons, pow_succ, hsub]
    congr 1
    omega

theorem count_zero_one (lens : List Nat) (h : ∀ l ∈ lens, l ≤ 1) :
    lens.length - lens.count 0 = lens.count 1 := by
  induction lens with
  | nil => rfl
  | cons x xs ih =>
    have hx := h x (List.mem_cons_self _ _)
    have := ih (fun l hl => h l (List.mem_cons_of_mem _ hl))
    have hc0 : xs.count 0 ≤ xs.length := List.count_le_length _ _
    rcases (by omega : x = 0 ∨ x = 1) with rfl | rfl
    · rw [List.length_cons, List.count_cons_self, List.count_cons_of_ne (by decide)]
      omega
    · rw [List.length_cons, List.count_cons_self, List.count_cons_of_ne (by decide)]
      omega

theorem usableLengths_of (lens : List Nat) (h : CodeUsable lens) : usableLengths lens = true := by
  obtain ⟨hk, hc⟩ := h
  unfold usableLengths
  have hcs := codeSpaceLeft_eq (lengthCounts lens) 1
    (by rw [lengthCounts_length, one_mul]; exact hk)
  have e : (mkHuffman lens).counts = lengthCounts lens := rfl
  rw [e, hcs]
  simp only [lengthCounts_length, one_mul, Bool.or_eq_true, decide_eq_true_eq]
  rcases hc with h1 | h2
  · left; omega
  · right; exact count_zero_one lens h2

theorem codeSpaceLeft_complete (lens : List Nat) (h : kraftWeight (lengthCounts lens) = 2 ^ 15) :
    codeSpaceLeft (mkHuffman lens).counts 1 = some 0 := by
  have hcs := codeSpaceLeft_eq (lengthCounts lens) 1
    (by rw [lengthCounts_length, one_mul, h])
  have e : (mkHuffman lens).counts = lengthCounts lens := rfl
  rw [e, hcs, lengthCounts_length, one_mul, h, Nat.sub_self]

theorem readLengthLengths_bits (f : Nat → Nat) (hf : ∀ s, f s < 8) (rest : List Bool) :
    ∀ (order : List Nat) (n : Nat), n ≤ order.length →
      readLengthLengths order n ((order.take n).flatMap (fun s => natBits 3 (f s)) ++ rest)
        = some ((order.take n).map (fun s => (s, f s)), rest) := by
  intro order
  induction order with
  | nil =>
    intro n hn
    have : n = 0 := by simpa using hn
    subst this
    rfl
  | cons s order ih =>
    intro n hn
    cases n with
    | zero => rfl
    | succ n =>
      have hn' : n ≤ order.length := by simpa using hn
      rw [List.take_succ_cons, List.flatMap_cons, List.append_assoc, readLengthLengths,
        readBits_natBits_lt 3 (f s) _ (hf s)]
      simp only
      rw [ih n hn']
      rfl

theorem lookup_map_self (f : Nat → Nat) (s : Nat) (l : List Nat) :
    (l.map (fun x => (x, f x))).lookup s = if s ∈ l then some (f s) else none := by
  induction l with
  | nil => rfl
  | cons x xs ih =>
    rw [List.map_cons, List.lookup_cons]
    by_cases h : s = x
    · subst h; simp
    · have h' : (s == x) = false := by simpa using h
      rw [h', ih]
      simp [h]

theorem lengthOrder_mem (s : Nat) (h : s < 19) : s ∈ lengthOrder := by
  have : ∀ s : Fin 19, s.val ∈ lengthOrder := by decide
  exact this ⟨s, h⟩

theorem clTable_eq (clLens : List Nat) (k : Nat) (hlen : clLens.length = 19)
    (hz : ∀ s ∈ lengthOrder.drop k, clLens.getD s 0 = 0) :
    (List.range 19).map (fun s =>
        (((lengthOrder.take k).map (fun x => (x, clLens.getD x 0))).lookup s).getD 0)
      = clLens := by
  apply List.ext_getElem
  · simp [hlen]
  · intro i h1 h2
    have hi : i < 19 := by simpa using h1
    rw [List.getElem_map, List.getElem_range, lookup_map_self]
    have hget : clLens.getD i 0 = clLens[i] := by
      rw [List.getD_eq_getElem?_getD, List.getElem?_eq_getElem h2]; rfl
    by_cases hm : i ∈ lengthOrder.take k
    · rw [if_pos hm]; exact hget
    · rw [if_neg hm]
      have hmem := lengthOrder_mem i hi
      rw [← List.take_append_drop k lengthOrder, List.mem_append] at hmem
      rcases hmem with h | h
      · exact absurd h hm
      · rw [← hget, hz i h]; rfl

set_option maxRecDepth 100000 in
theorem readCodeLengths_succ (lencode : Huffman) (total fuel : Nat) (bits : List Bool)
    (acc : List Nat) :
    readCodeLengths lencode total (fuel + 1) bits acc =
      if acc.length = total then some (acc, bits)
      else if total < acc.length then none
      else
        match lencode.decode bits with
        | none => none
        | some (sym, r) =>
          if sym < 16 then readCodeLengths lencode total fuel r (sym :: acc)
          else if sym = 16 then
            match acc, readBits 2 r with
            | prev :: _, some (n, r1) =>
              readCodeLengths lencode total fuel r1 (List.replicate (3 + n) prev ++ acc)
            | _, _ => none
          else if sym = 17 then
            match readBits 3 r with
            | some (n, r1) =>
              readCodeLengths lencode total fuel r1 (List.replicate (3 + n) 0 ++ acc)
            | none => none
          else
            match readBits 7 r with
            | some (n, r1) =>
              readCodeLengths lencode total fuel r1 (List.replicate (11 + n) 0 ++ acc)
            | none => none := by
  rfl

theorem clSymExpand_length (acc : List Nat) (clLens : List Nat) (c : CLSym)
    (h : CLSym.Ok clLens acc c) : acc.length < (c.expand acc).length := by
  cases c with
  | len l => simp [CLSym.expand]
  | rep n => have := h.1; simp [CLSym.expand]; omega
  | zeros n => have := h.1; simp [CLSym.expand]; omega

theorem rleExpand_length (clLens : List Nat) (rle : List CLSym) :
    ∀ acc, RleOk clLens acc rle → acc.length + rle.length ≤ (rleExpand acc rle).length := by
  induction rle with
  | nil => intro acc _; simp [rleExpand]
  | cons c rle ih =>
    intro acc h
    have h1 := clSymExpand_length acc clLens c h.1
    have h2 := ih _ h.2
    simp only [rleExpand, List.foldl_cons, List.length_cons] at h2 ⊢
    omega

theorem getLastD_eq_head_reverse (acc : List Nat) (h : acc ≠ []) :
    ∃ tl, acc.reverse = acc.getLastD 0 :: tl := by
  induction acc using List.reverseRecOn with
  | nil => exact absurd rfl h
  | append_singleton xs x _ =>
    refine ⟨xs.reverse, ?_⟩
    simp [List.getLastD_eq_getLast?]

/-- Decoding the run-length coded code lengths gives the lengths. -/
theorem readCodeLengths_bits (clLens : List Nat) (hk : KraftOk clLens) (total : Nat)
    (rest : List Bool) (rle : List CLSym) :
    ∀ (acc : List Nat) (fuel : Nat), RleOk clLens acc rle →
      (rleExpand acc rle).length = total → rle.length + 1 ≤ fuel →
      readCodeLengths (mkHuffman clLens) total fuel (rle.flatMap (CLSym.bits clLens) ++ rest)
          acc.reverse
        = some ((rleExpand acc rle).reverse, rest) := by
  induction rle with
  | nil =>
    intro acc fuel _ htot hf
    obtain ⟨f, rfl⟩ : ∃ f, fuel = f + 1 := ⟨fuel - 1, by omega⟩
    simp only [rleExpand, List.foldl_nil] at htot
    rw [readCodeLengths_succ, List.length_reverse, if_pos htot]
    rfl
  | cons c rle ih =>
    intro acc fuel hok htot hf
    obtain ⟨f, rfl⟩ : ∃ f, fuel = f + 1 := ⟨fuel - 1, by omega⟩
    have hf' : rle.length + 1 ≤ f := by simpa using hf
    obtain ⟨hc, hrest⟩ := hok
    have hlt1 := clSymExpand_length acc clLens c hc
    have hlt2 := rleExpand_length clLens rle _ hrest
    have htot' : (rleExpand (c.expand acc) rle).length = total := htot
    have hne : ¬ (acc.length = total) := by omega
    have hnl : ¬ (total < acc.length) := by omega
    rw [readCodeLengths_succ, List.length_reverse, if_neg hne, if_neg hnl, List.flatMap_cons,
      List.append_assoc]
    have hih := ih (c.expand acc) f hrest htot' hf'
    cases c with
    | len l =>
      obtain ⟨hl, hcode⟩ := hc
      rw [CLSym.bits, decode_symbolBits clLens l _ hk hcode]
      have e : l < 16 := by omega
      simp only [e, if_true]
      simpa [CLSym.expand, rleExpand] using hih
    | rep n =>
      obtain ⟨h3, h6, hne', hcode⟩ := hc
      rw [CLSym.bits, List.append_assoc, decode_symbolBits clLens 16 _ hk hcode]
      have e1 : ¬ (16 < 16) := by omega
      simp only [e1, if_false, if_true]
      obtain ⟨tl, htl⟩ := getLastD_eq_head_reverse acc hne'
      rw [readBits_natBits_lt 2 (n - 3) _ (by omega : n - 3 < 2 ^ 2), htl]
      simp only
      have e2 : 3 + (n - 3) = n := by omega
      rw [e2, ← htl]
      simpa [CLSym.expand, rleExpand, List.reverse_append] using hih
    | zeros n =>
      obtain ⟨h3, h138, hcode⟩ := hc
      by_cases h10 : n ≤ 10
      · rw [if_pos h10] at hcode
        rw [CLSym.bits, if_pos h10, List.append_assoc,
          decode_symbolBits clLens 17 _ hk hcode]
        have e1 : ¬ (17 < 16) := by omega
        have e2 : ¬ (17 = 16) := by omega
        simp only [e1, e2, if_false, if_true]
        rw [readBits_natBits_lt 3 (n - 3) _ (by omega : n - 3 < 2 ^ 3)]
        simp only
        have e3 : 3 + (n - 3) = n := by omega
        rw [e3]
        simpa [CLSym.expand, rleExpand, List.reverse_append] using hih
      · rw [if_neg h10] at hcode
        rw [CLSym.bits, if_neg h10, List.append_assoc,
          decode_symbolBits clLens 18 _ hk hcode]
        have e1 : ¬ (18 < 16) := by omega
        have e2 : ¬ (18 = 16) := by omega
        have e4 : ¬ (18 = 17) := by omega
        simp only [e1, e2, e4, if_false]
        rw [readBits_natBits_lt 7 (n - 11) _ (by omega : n - 11 < 2 ^ 7)]
        simp only
        have e3 : 11 + (n - 11) = n := by omega
        rw [e3]
        simpa [CLSym.expand, rleExpand, List.reverse_append] using hih

theorem clSymBits_length_pos (clLens acc : List Nat) (c : CLSym) (h : CLSym.Ok clLens acc c) :
    1 ≤ (c.bits clLens).length := by
  cases c with
  | len l =>
    have := h.2.2.1
    rw [CLSym.bits, symbolBits_length]; exact this
  | rep n =>
    have := h.2.2.2.2.1
    rw [CLSym.bits, List.length_append, symbolBits_length]; omega
  | zeros n =>
    obtain ⟨_, _, hc⟩ := h
    by_cases h10 : n ≤ 10
    · rw [if_pos h10] at hc
      have := hc.2.1
      rw [CLSym.bits, if_pos h10, List.length_append, symbolBits_length]; omega
    · rw [if_neg h10] at hc
      have := hc.2.1
      rw [CLSym.bits, if_neg h10, List.length_append, symbolBits_length]; omega

theorem rleBits_length_ge (clLens : List Nat) (rle : List CLSym) :
    ∀ acc, RleOk clLens acc rle → rle.length ≤ (rle.flatMap (CLSym.bits clLens)).length := by
  induction rle with
  | nil => intro acc _; simp
  | cons c rle ih =>
    intro acc h
    have h1 := clSymBits_length_pos clLens acc c h.1
    have h2 := ih _ h.2
    rw [List.flatMap_cons, List.length_append, List.length_cons]
    omega

/-- A dynamic block decodes to the output of its data. -/
theorem inflateDynamic_bits (litLens distLens clLens : List Nat) (hclen : Nat)
    (rle : List CLSym) (syms : List Sym) (pos : Nat) (out : Bytes) (rest : List Bool)
    (hok : (Block.dynamic litLens distLens clLens hclen rle syms).Ok pos out) :
    inflateDynamic ((Block.dynamic litLens distLens clLens hclen rle syms).bits ++ rest)
        out.reverse
      = some (rest, (symsOutput out syms).reverse) := by
  obtain ⟨hl1, hl2, hd1, hd2, hh, hcl, hcl8, hz, hclk, hrle, hexp, h256, hul, hud, hsyms⟩ := hok
  have hkc : KraftOk clLens := by unfold KraftOk; rw [hclk]
  have hf8 : ∀ s, clLens.getD s 0 < 8 := by
    intro s
    rw [List.getD_eq_getElem?_getD]
    by_cases hs : s < clLens.length
    · rw [List.getElem?_eq_getElem hs]
      exact hcl8 _ (List.getElem_mem _)
    · rw [List.getElem?_eq_none (by omega)]
      show 0 < 8
      omega
  unfold inflateDynamic
  simp only [Block.bits, List.append_assoc]
  rw [readBits_natBits_lt 5 _ _ (by omega : litLens.length - 257 < 2 ^ 5)]
  simp only
  rw [readBits_natBits_lt 5 _ _ (by omega : distLens.length - 1 < 2 ^ 5)]
  simp only
  rw [readBits_natBits_lt 4 _ _ (by omega : hclen < 2 ^ 4)]
  simp only
  have e1 : ¬ (286 < litLens.length - 257 + 257 ∨ 30 < distLens.length - 1 + 1) := by omega
  rw [if_neg e1]
  rw [readLengthLengths_bits (fun s => clLens.getD s 0) hf8 _ lengthOrder (hclen + 4)
    (by simp [lengthOrder]; omega)]
  simp only
  rw [clTable_eq clLens (hclen + 4) hcl hz, codeSpaceLeft_complete clLens hclk]
  simp only [ne_eq, not_true_eq_false, if_false]
  have htot : (rleExpand [] rle).length = litLens.length - 257 + 257 + (distLens.length - 1 + 1) := by
    rw [hexp, List.length_append]; omega
  have hfuel : rle.length + 1 ≤
      (rle.flatMap (CLSym.bits clLens) ++ (symsBits litLens distLens syms ++ rest)).length + 1 := by
    have := rleBits_length_ge clLens rle [] hrle
    rw [List.length_append]; omega
  have hrc := readCodeLengths_bits clLens hkc _ (symsBits litLens distLens syms ++ rest) rle []
    _ hrle htot hfuel
  rw [List.reverse_nil] at hrc
  rw [hrc]
  simp only [List.reverse_reverse, hexp]
  have hnl : litLens.length - 257 + 257 = litLens.length := by omega
  rw [hnl, List.take_left, List.drop_left]
  have h256' : ¬ ((litLens ++ distLens).getD 256 0 = 0) := by
    obtain ⟨ha, hb, _⟩ := h256
    rw [List.getD_eq_getElem?_getD, List.getElem?_append_left ha,
      ← List.getD_eq_getElem?_getD]
    omega
  rw [if_neg h256', usableLengths_of litLens hul, usableLengths_of distLens hud]
  simp only [not_true_eq_false, if_false]
  apply inflateCodes_symsBits litLens distLens hul.1 hud.1 h256 rest syms out _ hsyms
  have := symsBits_length_ge litLens distLens syms out hsyms h256
  rw [List.length_append]; omega

theorem fixedLit_kraft : KraftOk fixedLitLens := by
  show kraftWeight (lengthCounts fixedLitLens) ≤ 2 ^ 15
  decide!

theorem fixedDist_kraft : KraftOk fixedDistLens := by
  show kraftWeight (lengthCounts fixedDistLens) ≤ 2 ^ 15
  decide!

theorem fixedLit_256 : HasCode fixedLitLens 256 := by
  show 256 < fixedLitLens.length ∧ 1 ≤ fixedLitLens.getD 256 0 ∧ fixedLitLens.getD 256 0 ≤ 15
  decide!

/-- The block decoder of each type gives the block's output. -/
theorem inflateBlock_bits (b : Block) (pos : Nat) (out : Bytes) (rest : List Bool)
    (hok : b.Ok pos out) (halign : (pos + 3 + (b.bits ++ rest).length) % 8 = 0) :
    (if b.type = 0 then inflateStored (b.bits ++ rest) out.reverse
     else if b.type = 1 then
       inflateCodes fixedLit fixedDist ((b.bits ++ rest).length + 1) (b.bits ++ rest) out.reverse
     else if b.type = 2 then inflateDynamic (b.bits ++ rest) out.reverse
     else none)
      = some (rest, (b.output out).reverse) := by
  cases b with
  | stored pad data =>
    obtain ⟨hp8, hpa, hlen, hdata⟩ := hok
    have e0 : (Block.stored pad data).type = 0 := rfl
    rw [if_pos e0]
    apply inflateStored_bits pad data rest out hlen hdata
    omega
  | fixed syms =>
    have e : ¬ ((Block.fixed syms).type = 0) := by simp [Block.type]
    have e1 : (Block.fixed syms).type = 1 := rfl
    rw [if_neg e, if_pos e1]
    have hb : (Block.fixed syms).bits = symsBits fixedLitLens fixedDistLens syms := rfl
    rw [hb]
    apply inflateCodes_symsBits fixedLitLens fixedDistLens fixedLit_kraft fixedDist_kraft
      fixedLit_256 rest syms out _ hok
    have := symsBits_length_ge fixedLitLens fixedDistLens syms out hok fixedLit_256
    rw [List.length_append]; omega
  | dynamic litLens distLens clLens hclen rle syms =>
    have e0 : ¬ ((Block.dynamic litLens distLens clLens hclen rle syms).type = 0) := by
      simp [Block.type]
    have e1 : ¬ ((Block.dynamic litLens distLens clLens hclen rle syms).type = 1) := by
      simp [Block.type]
    have e2 : (Block.dynamic litLens distLens clLens hclen rle syms).type = 2 := rfl
    rw [if_neg e0, if_neg e1, if_pos e2]
    exact inflateDynamic_bits litLens distLens clLens hclen rle syms pos out rest hok

theorem blockType_lt (b : Block) : b.type < 2 ^ 2 := by
  cases b <;> simp [Block.type]

set_option maxRecDepth 100000 in
theorem inflateBlocks_succ (fuel : Nat) (bits : List Bool) (out : Bytes) :
    inflateBlocks (fuel + 1) bits out =
      match readBits 1 bits with
      | none => none
      | some (final, r1) =>
        match readBits 2 r1 with
        | none => none
        | some (btype, r2) =>
          match (if btype = 0 then inflateStored r2 out
                 else if btype = 1 then inflateCodes fixedLit fixedDist (r2.length + 1) r2 out
                 else if btype = 2 then inflateDynamic r2 out
                 else none) with
          | none => none
          | some (r3, out1) =>
            if final = 1 then some (r3, out1) else inflateBlocks fuel r3 out1 := by
  rfl

theorem readBits_one (b : Bool) (bs : List Bool) : readBits 1 (b :: bs) = some (b.toNat, bs) := by
  rw [readBits_succ_cons]
  rfl

/-- A sequence of blocks decodes to its output. -/
theorem inflateBlocks_bits (rest : List Bool) (blocks : List Block) :
    ∀ (pos : Nat) (out : Bytes) (fuel : Nat), blocks ≠ [] → BlocksOk pos out blocks →
      (pos + (blocksBits blocks ++ rest).length) % 8 = 0 → blocks.length ≤ fuel →
      inflateBlocks fuel (blocksBits blocks ++ rest) out.reverse
        = some (rest, (blocksOutput out blocks).reverse) := by
  induction blocks with
  | nil => intro pos out fuel h; exact absurd rfl h
  | cons b bs ih =>
    intro pos out fuel _ hok halign hf
    obtain ⟨f, rfl⟩ : ∃ f, fuel = f + 1 := ⟨fuel - 1, by simp at hf; omega⟩
    obtain ⟨hb, hbs⟩ := hok
    cases bs with
    | nil =>
      have e : blocksBits [b] ++ rest = true :: (natBits 2 b.type ++ (b.bits ++ rest)) := by
        simp [blocksBits]
      rw [e] at halign ⊢
      rw [inflateBlocks_succ, readBits_one]
      simp only
      rw [readBits_natBits_lt 2 _ _ (blockType_lt b)]
      simp only
      rw [inflateBlock_bits b pos out rest hb (by
        simp only [List.length_cons, List.length_append, natBits_length] at halign ⊢
        omega)]
      simp [blocksOutput]
    | cons b2 bs2 =>
      have e : blocksBits (b :: b2 :: bs2) ++ rest
          = false :: (natBits 2 b.type ++ (b.bits ++ (blocksBits (b2 :: bs2) ++ rest))) := by
        simp [blocksBits]
      rw [e] at halign ⊢
      rw [inflateBlocks_succ, readBits_one]
      simp only
      rw [readBits_natBits_lt 2 _ _ (blockType_lt b)]
      simp only
      rw [inflateBlock_bits b pos out _ hb (by
        simp only [List.length_cons, List.length_append, natBits_length] at halign ⊢
        omega)]
      simp only [Bool.toNat_false, zero_ne_one, if_false]
      have := ih (pos + 3 + b.bits.length) (b.output out) f (by simp) hbs (by
        simp only [List.length_cons, List.length_append, natBits_length] at halign ⊢
        omega) (by simpa using hf)
      simpa [blocksOutput] using this

theorem adler32Loop_lt (bs : Bytes) :
    ∀ a b, a < 65521 → b < 65521 → adler32Loop bs a b < 2 ^ 32 := by
  induction bs with
  | nil => intro a b ha hb; simp only [adler32Loop]; omega
  | cons x xs ih =>
    intro a b _ _
    rw [adler32Loop]
    exact ih _ _ (Nat.mod_lt _ (by norm_num)) (Nat.mod_lt _ (by norm_num))

theorem adler32_lt (bs : Bytes) : adler32 bs < 2 ^ 32 :=
  adler32Loop_lt bs 1 0 (by norm_num) (by norm_num)

theorem beWord_four (v : Nat) :
    beWord v 4 = [(v >>> 24) % 256, (v >>> 16) % 256, (v >>> 8) % 256, (v >>> 0) % 256] := by
  rfl

theorem beWord_length (v w : Nat) : (beWord v w).length = w := by
  simp [beWord]

theorem wordOf_beWord_four (v : Nat) (h : v < 2 ^ 32) : wordOf (beWord v 4) = v := by
  rw [beWord_four]
  simp only [wordOf, List.foldl_cons, List.foldl_nil, Nat.shiftRight_eq_div_pow]
  omega

theorem blocksBits_length_ge (blocks : List Block) : blocks.length ≤ (blocksBits blocks).length := by
  induction blocks with
  | nil => simp
  | cons b bs ih =>
    cases bs with
    | nil => simp [blocksBits]
    | cons b2 bs2 =>
      have e : blocksBits (b :: b2 :: bs2)
          = false :: (natBits 2 b.type ++ b.bits) ++ blocksBits (b2 :: bs2) := rfl
      rw [e]
      simp only [List.length_cons, List.length_append] at ih ⊢
      omega

/-- The decompressor inverts a well-formed zlib stream: it yields the
stream's output and the number of bytes the stream occupies, whatever
follows it. -/
theorem zlibInflate_bytes (z : ZStream) (tail : Bytes) (hok : z.Ok) :
    zlibInflate (z.bytes ++ tail) = some (z.output, z.bytes.length) := by
  obtain ⟨h1, h2, h3, h4, hne, hblocks, hpad, halign⟩ := hok
  obtain ⟨n, hn⟩ : ∃ n, (blocksBits z.blocks ++ z.pad).length = 8 * n :=
    ⟨((blocksBits z.blocks).length + z.pad.length) / 8, by
      rw [List.length_append]; omega⟩
  have hbody : bitsOf (packBits (blocksBits z.blocks ++ z.pad)) = blocksBits z.blocks ++ z.pad :=
    bitsOf_packBits n _ hn
  have hbodylen : (packBits (blocksBits z.blocks ++ z.pad)).length = n := packBits_length n _ hn
  have hdata : z.bytes ++ tail
      = z.cmf :: z.flg :: (packBits (blocksBits z.blocks ++ z.pad)
          ++ (beWord (adler32 z.output) 4 ++ tail)) := by
    simp [ZStream.bytes, List.append_assoc]
  have hbits : bitsOf (packBits (blocksBits z.blocks ++ z.pad)
        ++ (beWord (adler32 z.output) 4 ++ tail))
      = blocksBits z.blocks ++ (z.pad ++ bitsOf (beWord (adler32 z.output) 4 ++ tail)) := by
    rw [bitsOf_append, hbody, List.append_assoc]
  have hhead : ¬ (z.cmf % 16 ≠ 8 ∨ 7 < z.cmf / 16 ∨ (z.cmf * 256 + z.flg) % 31 ≠ 0
      ∨ (z.flg / 32) % 2 = 1) := by omega
  have hlenb : z.bytes.length = 2 + n + 4 := by
    simp [ZStream.bytes, hbodylen, beWord_length]; omega
  rw [hdata, zlibInflate]
  rw [if_neg hhead, hbits]
  have hinfl := inflateBlocks_bits (z.pad ++ bitsOf (beWord (adler32 z.output) 4 ++ tail))
    z.blocks 0 [] ((blocksBits z.blocks
      ++ (z.pad ++ bitsOf (beWord (adler32 z.output) 4 ++ tail))).length + 1)
    hne hblocks (by
      simp only [List.length_append, bitsOf_length, zero_add] at hn ⊢
      omega) (by
      have := blocksBits_length_ge z.blocks
      simp only [List.length_append]
      omega)
  rw [List.reverse_nil] at hinfl
  rw [hinfl]
  simp only
  have hleft : (z.pad ++ bitsOf (beWord (adler32 z.output) 4 ++ tail)).length / 8
      = 4 + tail.length := by
    simp only [List.length_append, bitsOf_length, beWord_length]
    omega
  have hrestlen : (packBits (blocksBits z.blocks ++ z.pad)
      ++ (beWord (adler32 z.output) 4 ++ tail)).length - (4 + tail.length) = n := by
    simp only [List.length_append, hbodylen, beWord_length]
    omega
  rw [hleft, hrestlen]
  have hdrop : (packBits (blocksBits z.blocks ++ z.pad)
      ++ (beWord (adler32 z.output) 4 ++ tail)).drop n
      = beWord (adler32 z.output) 4 ++ tail := by
    rw [← hbodylen, List.drop_left]
  have htake : (beWord (adler32 z.output) 4 ++ tail).take 4 = beWord (adler32 z.output) 4 := by
    exact List.take_left' (beWord_length (adler32 z.output) 4)
  rw [hdrop, htake, List.reverse_reverse]
  have hout : blocksOutput [] z.blocks = z.output := rfl
  rw [hout, beWord_length, wordOf_beWord_four _ (adler32_lt _), hlenb]
  simp

theorem groupBytes_cons2 (g g2 : Nat) (gs : List Nat) :
    groupBytes (g :: g2 :: gs) = (128 + g) :: groupBytes (g2 :: gs) := rfl

theorem readSizeTail_groups (rest : Bytes) (gs : List Nat) :
    ∀ (shift acc : Nat), gs ≠ [] → (∀ g ∈ gs, g < 128) →
      readSizeTail (groupBytes gs ++ rest) shift acc
        = some (acc + groupValue gs * 2 ^ shift, rest) := by
  induction gs with
  | nil => intro _ _ h; exact absurd rfl h
  | cons g gs ih =>
    intro shift acc _ hg
    have hg0 : g < 128 := hg g (List.mem_cons_self _ _)
    cases gs with
    | nil =>
      have e : ¬ (128 ≤ g) := by omega
      simp only [groupBytes, List.cons_append, List.nil_append, readSizeTail, if_neg e,
        groupValue, Nat.shiftLeft_eq]
      simp
    | cons g2 gs2 =>
      have hrest : ∀ x ∈ g2 :: gs2, x < 128 := fun x hx => hg x (List.mem_cons_of_mem _ hx)
      have e : 128 ≤ 128 + g := by omega
      have em : (128 + g) % 128 = g := by omega
      rw [groupBytes_cons2, List.cons_append, readSizeTail, if_pos e, em,
        ih (shift + 7) _ (by simp) hrest]
      simp only [Nat.shiftLeft_eq, groupValue, pow_add]
      congr 2
      ring

theorem readVarint_groups (rest : Bytes) (gs : List Nat) :
    ∀ (shift acc : Nat), gs ≠ [] → (∀ g ∈ gs, g < 128) →
      readVarint (groupBytes gs ++ rest) shift acc
        = some (acc + groupValue gs * 2 ^ shift, rest) := by
  induction gs with
  | nil => intro _ _ h; exact absurd rfl h
  | cons g gs ih =>
    intro shift acc _ hg
    have hg0 : g < 128 := hg g (List.mem_cons_self _ _)
    cases gs with
    | nil =>
      have e : ¬ (128 ≤ g) := by omega
      simp only [groupBytes, List.cons_append, List.nil_append, readVarint, if_neg e,
        groupValue, Nat.shiftLeft_eq]
      simp
    | cons g2 gs2 =>
      have hrest : ∀ x ∈ g2 :: gs2, x < 128 := fun x hx => hg x (List.mem_cons_of_mem _ hx)
      have e : 128 ≤ 128 + g := by omega
      have em : (128 + g) % 128 = g := by omega
      rw [groupBytes_cons2, List.cons_append, readVarint, if_pos e, em,
        ih (shift + 7) _ (by simp) hrest]
      simp only [Nat.shiftLeft_eq, groupValue, pow_add]
      congr 2
      ring

theorem readOffsetTail_groups (rest : Bytes) (gs : List Nat) :
    ∀ (acc : Nat), gs ≠ [] → (∀ g ∈ gs, g < 128) →
      readOffsetTail (groupBytes gs ++ rest) acc = some (offsetValue acc gs, rest) := by
  induction gs with
  | nil => intro _ h; exact absurd rfl h
  | cons g gs ih =>
    intro acc _ hg
    have hg0 : g < 128 := hg g (List.mem_cons_self _ _)
    cases gs with
    | nil =>
      have e : ¬ (128 ≤ g) := by omega
      simp only [groupBytes, List.cons_append, List.nil_append, readOffsetTail, if_neg e,
        offsetValue]
      rfl
    | cons g2 gs2 =>
      have hrest : ∀ x ∈ g2 :: gs2, x < 128 := fun x hx => hg x (List.mem_cons_of_mem _ hx)
      have e : 128 ≤ 128 + g := by omega
      have em : (128 + g) % 128 = g := by omega
      rw [groupBytes_cons2, List.cons_append, readOffsetTail, if_pos e, em,
        ih _ (by simp) hrest]
      conv_rhs => rw [offsetValue]

theorem readBackOffset_groups (rest : Bytes) (g : Nat) (gs : List Nat)
    (hg : ∀ x ∈ g :: gs, x < 128) :
    readBackOffset (groupBytes (g :: gs) ++ rest) = some (offsetValue g gs, rest) := by
  have hg0 : g < 128 := hg g (List.mem_cons_self _ _)
  cases gs with
  | nil =>
    have e : ¬ (128 ≤ g) := by omega
    simp only [groupBytes, List.cons_append, List.nil_append, readBackOffset, if_neg e,
      offsetValue]
  | cons g2 gs2 =>
    have hrest : ∀ x ∈ g2 :: gs2, x < 128 := fun x hx => hg x (List.mem_cons_of_mem _ hx)
    have e : 128 ≤ 128 + g := by omega
    have em : (128 + g) % 128 = g := by omega
    rw [groupBytes_cons2, List.cons_append, readBackOffset, if_pos e, em,
      readOffsetTail_groups rest _ _ (by simp) hrest]

theorem readEntryHeader_bytes (type low : Nat) (groups : List Nat) (rest : Bytes)
    (ht : type < 8) (hl : low < 16) (hg : ∀ g ∈ groups, g < 128) :
    readEntryHeader (entryHeaderBytes type low groups ++ rest)
      = some (type, low + 16 * groupValue groups, rest) := by
  cases groups with
  | nil =>
    have e : ¬ (128 ≤ 16 * type + low) := by omega
    simp only [entryHeaderBytes, List.cons_append, List.nil_append, readEntryHeader, if_neg e,
      groupValue]
    congr 2
    · omega
    · congr 1; omega
  | cons g gs =>
    have e : 128 ≤ 128 + 16 * type + low := by omega
    have e16 : (128 + 16 * type + low) % 16 = low := by omega
    have e8 : (128 + 16 * type + low) / 16 % 8 = type := by omega
    simp only [entryHeaderBytes, List.cons_append, readEntryHeader, if_pos e]
    rw [readSizeTail_groups rest (g :: gs) 4 _ (by simp) hg, e16, e8]
    simp only
    congr 3
    ring

theorem opcode_testBit :
    ∀ b0 b1 b2 b3 b4 b5 b6 : Bool,
      (128 + (if b0 then 2 ^ 0 else 0) + (if b1 then 2 ^ 1 else 0) + (if b2 then 2 ^ 2 else 0)
          + (if b3 then 2 ^ 3 else 0) + (if b4 then 2 ^ 4 else 0) + (if b5 then 2 ^ 5 else 0)
          + (if b6 then 2 ^ 6 else 0) : Nat).testBit 0 = b0 ∧
      (128 + (if b0 then 2 ^ 0 else 0) + (if b1 then 2 ^ 1 else 0) + (if b2 then 2 ^ 2 else 0)
          + (if b3 then 2 ^ 3 else 0) + (if b4 then 2 ^ 4 else 0) + (if b5 then 2 ^ 5 else 0)
          + (if b6 then 2 ^ 6 else 0) : Nat).testBit 1 = b1 ∧
      (128 + (if b0 then 2 ^ 0 else 0) + (if b1 then 2 ^ 1 else 0) + (if b2 then 2 ^ 2 else 0)
          + (if b3 then 2 ^ 3 else 0) + (if b4 then 2 ^ 4 else 0) + (if b5 then 2 ^ 5 else 0)
          + (if b6 then 2 ^ 6 else 0) : Nat).testBit 2 = b2 ∧
      (128 + (if b0 then 2 ^ 0 else 0) + (if b1 then 2 ^ 1 else 0) + (if b2 then 2 ^ 2 else 0)
          + (if b3 then 2 ^ 3 else 0) + (if b4 then 2 ^ 4 else 0) + (if b5 then 2 ^ 5 else 0)
          + (if b6 then 2 ^ 6 else 0) : Nat).testBit 3 = b3 ∧
      (128 + (if b0 then 2 ^ 0 else 0) + (if b1 then 2 ^ 1 else 0) + (if b2 then 2 ^ 2 else 0)
          + (if b3 then 2 ^ 3 else 0) + (if b4 then 2 ^ 4 else 0) + (if b5 then 2 ^ 5 else 0)
          + (if b6 then 2 ^ 6 else 0) : Nat).testBit 4 = b4 ∧
      (128 + (if b0 then 2 ^ 0 else 0) + (if b1 then 2 ^ 1 else 0) + (if b2 then 2 ^ 2 else 0)
          + (if b3 then 2 ^ 3 else 0) + (if b4 then 2 ^ 4 else 0) + (if b5 then 2 ^ 5 else 0)
          + (if b6 then 2 ^ 6 else 0) : Nat).testBit 5 = b5 ∧
      (128 + (if b0 then 2 ^ 0 else 0) + (if b1 then 2 ^ 1 else 0) + (if b2 then 2 ^ 2 else 0)
          + (if b3 then 2 ^ 3 else 0) + (if b4 then 2 ^ 4 else 0) + (if b5 then 2 ^ 5 else 0)
          + (if b6 then 2 ^ 6 else 0) : Nat).testBit 6 = b6 := by
  decide

theorem opcode_ge :
    ∀ b0 b1 b2 b3 b4 b5 b6 : Bool,
      128 ≤ (128 + (if b0 then 2 ^ 0 else 0) + (if b1 then 2 ^ 1 else 0)
          + (if b2 then 2 ^ 2 else 0) + (if b3 then 2 ^ 3 else 0) + (if b4 then 2 ^ 4 else 0)
          + (if b5 then 2 ^ 5 else 0) + (if b6 then 2 ^ 6 else 0) : Nat) := by
  intros; omega

theorem readMasked_step (op bit shift : Nat) (fields : List (Nat × Nat)) (x : Option Nat)
    (bytes : Bytes) (acc : Nat) (h : op.testBit bit = x.isSome) :
    readMasked op ((bit, shift) :: fields) (x.toList ++ bytes) acc
      = readMasked op fields bytes (acc + x.getD 0 * 2 ^ shift) := by
  cases x with
  | none =>
    have h' : op.testBit bit = false := by simpa using h
    simp [readMasked, h']
  | some b =>
    have h' : op.testBit bit = true := by simpa using h
    simp [readMasked, h', Nat.shiftLeft_eq]

theorem readMasked_nil (op : Nat) (bytes : Bytes) (acc : Nat) :
    readMasked op [] bytes acc = some (acc, bytes) := rfl

set_option maxRecDepth 100000 in
theorem applyOps_cons (base : Bytes) (fuel op : Nat) (rest out : Bytes) :
    applyOps base (fuel + 1) (op :: rest) out =
      if 128 ≤ op then
        match readMasked op [(0, 0), (1, 8), (2, 16), (3, 24)] rest 0 with
        | none => .error .CorruptObject
        | some (off, rest1) =>
          match readMasked op [(4, 0), (5, 8), (6, 16)] rest1 0 with
          | none => .error .CorruptObject
          | some (len, rest2) =>
            if base.length < off + (if len = 0 then 65536 else len) then .error .CorruptObject
            else
              applyOps base fuel rest2
                (out ++ (base.drop off).take (if len = 0 then 65536 else len))
      else if op = 0 then .error .CorruptObject
      else if rest.length < op then .error .CorruptObject
      else applyOps base fuel (rest.drop op) (out ++ rest.take op) := by
  rfl

theorem applyOps_nil (base : Bytes) (fuel : Nat) (out : Bytes) :
    applyOps base (fuel + 1) [] out = .ok out := rfl

theorem presentBit_eq (x : Option Nat) (bit : Nat) :
    presentBit x bit = if x.isSome = true then 2 ^ bit else 0 := rfl

theorem deltaOpBytes_length_pos (op : DeltaOp) : 1 ≤ op.bytes.length := by
  cases op <;> simp [DeltaOp.bytes]

theorem opsBytes_length_ge (ops : List DeltaOp) :
    ops.length ≤ (ops.flatMap DeltaOp.bytes).length := by
  induction ops with
  | nil => simp
  | cons op ops ih =>
    have := deltaOpBytes_length_pos op
    rw [List.flatMap_cons, List.length_append, List.length_cons]
    omega

/-- Replaying the bytes of a list of instructions gives their output. -/
theorem applyOps_bytes (base : Bytes) (ops : List DeltaOp) :
    ∀ (out : Bytes) (fuel : Nat), (∀ op ∈ ops, op.Ok base) → ops.length + 1 ≤ fuel →
      applyOps base fuel (ops.flatMap DeltaOp.bytes) out
        = .ok (out ++ ops.flatMap (DeltaOp.output base)) := by
  induction ops with
  | nil =>
    intro out fuel _ hf
    obtain ⟨f, rfl⟩ : ∃ f, fuel = f + 1 := ⟨fuel - 1, by omega⟩
    simp [applyOps_nil]
  | cons op ops ih =>
    intro out fuel hok hf
    obtain ⟨f, rfl⟩ : ∃ f, fuel = f + 1 := ⟨fuel - 1, by omega⟩
    have hf' : ops.length + 1 ≤ f := by simpa using hf
    have hop := hok op (List.mem_cons_self _ _)
    have hops : ∀ o ∈ ops, o.Ok base := fun o ho => hok o (List.mem_cons_of_mem _ ho)
    rw [List.flatMap_cons, List.flatMap_cons]
    cases op with
    | copy o0 o1 o2 o3 l0 l1 l2 =>
      obtain ⟨_, _, _, _, _, _, _, hrange⟩ := hop
      obtain ⟨t0, t1, t2, t3, t4, t5, t6⟩ :=
        opcode_testBit o0.isSome o1.isSome o2.isSome o3.isSome l0.isSome l1.isSome l2.isSome
      have hge := opcode_ge o0.isSome o1.isSome o2.isSome o3.isSome l0.isSome l1.isSome l2.isSome
      simp only [DeltaOp.bytes, presentBit_eq, List.cons_append, List.append_assoc]
      rw [applyOps_cons, if_pos hge,
        readMasked_step _ 0 0 _ o0 _ _ t0, readMasked_step _ 1 8 _ o1 _ _ t1,
        readMasked_step _ 2 16 _ o2 _ _ t2, readMasked_step _ 3 24 _ o3 _ _ t3,
        readMasked_nil]
      simp only
      rw [readMasked_step _ 4 0 _ l0 _ _ t4, readMasked_step _ 5 8 _ l1 _ _ t5,
        readMasked_step _ 6 16 _ l2 _ _ t6, readMasked_nil]
      simp only [pow_zero, mul_one, zero_add]
      have hnot : ¬ (base.length < DeltaOp.copyOffset o0 o1 o2 o3
          + DeltaOp.copyLength l0 l1 l2) := by omega
      unfold DeltaOp.copyOffset DeltaOp.copyLength at hnot
      rw [if_neg hnot, ih _ f hops hf']
      simp [DeltaOp.output, DeltaOp.copyOffset, DeltaOp.copyLength, List.append_assoc]
    | insert data =>
      obtain ⟨h1, h127⟩ := hop
      have e1 : ¬ (128 ≤ data.length) := by omega
      have e2 : ¬ (data.length = 0) := by omega
      have e3 : ¬ ((data ++ ops.flatMap DeltaOp.bytes).length < data.length) := by
        rw [List.length_append]; omega
      simp only [DeltaOp.bytes, List.cons_append]
      rw [applyOps_cons, if_neg e1, if_neg e2, if_neg e3, List.drop_left, List.take_left,
        ih _ f hops hf']
      simp [DeltaOp.output, List.append_assoc]

/-- Applying the bytes of a well-formed delta to the base gives its result. -/
theorem applyDelta_bytes (d : DeltaDesc) (base : Bytes) (hok : d.Ok base) :
    applyDelta base d.bytes = .ok (d.result base) := by
  obtain ⟨hb, hr, hops, hsize⟩ := hok
  unfold applyDelta DeltaDesc.bytes
  rw [List.append_assoc, readVarint_groups _ d.baseSize 0 0 hb.1 hb.2]
  simp only
  rw [readVarint_groups _ d.resultSize 0 0 hr.1 hr.2]
  simp only
  rw [applyOps_bytes base d.ops [] _ hops (by
    have := opsBytes_length_ge d.ops
    omega)]
  simp only [List.nil_append, pow_zero, mul_one, zero_add]
  have e : (d.ops.flatMap (DeltaOp.output base)).length = groupValue d.resultSize := by
    rw [hsize]; rfl
  rw [if_pos e]
  rfl

theorem decompress_stream (z : ZStream) (post : Bytes) (hz : z.Ok) :
    decompress (z.bytes ++ post) z.output.length = .ok (z.output, z.bytes.length) := by
  unfold decompress
  rw [zlibInflate_bytes z post hz]
  simp

theorem typeCode_lt (k : EntryKind) : typeCode k < 8 := by
  cases k with
  | object o => cases o <;> simp [typeCode]
  | ofsDelta _ => simp [typeCode]
  | refDelta _ => simp [typeCode]

/-- The entry parser reads a well-formed entry and stops right after it. -/
theorem parseEntry_desc (pre post : Bytes) (d : EntryDesc) (henc : d.EncodingOk)
    (hback : ∀ groups base delta, d.form = .ofsDelta groups base delta →
      backOffsetOf groups ≤ pre.length) :
    parseEntry (pre ++ (d.bytes ++ post)) pre.length
      = .ok (entryOf d pre.length, pre.length + d.bytes.length) := by
  obtain ⟨hlow, hgroups, hsize, hz, hform⟩ := henc
  have hdrop : (pre ++ (d.bytes ++ post)).drop pre.length = d.bytes ++ post := List.drop_left _ _
  have hhead := readEntryHeader_bytes (typeCode d.entryKind) d.sizeLow d.sizeGroups
    (d.baseBytes ++ (d.stream.bytes ++ post)) (typeCode_lt _) hlow hgroups
  have hbytes : d.bytes ++ post
      = entryHeaderBytes (typeCode d.entryKind) d.sizeLow d.sizeGroups
        ++ (d.baseBytes ++ (d.stream.bytes ++ post)) := by
    simp [EntryDesc.bytes, List.append_assoc]
  unfold parseEntry
  rw [hdrop, hbytes, hhead, hsize]
  simp only
  have hlen : (pre ++ (entryHeaderBytes (typeCode d.entryKind) d.sizeLow d.sizeGroups
      ++ (d.baseBytes ++ (d.stream.bytes ++ post)))).length
      = pre.length + (entryHeaderBytes (typeCode d.entryKind) d.sizeLow d.sizeGroups).length
        + d.baseBytes.length + d.stream.bytes.length + post.length := by
    simp only [List.length_append]; omega
  have hdlen : d.bytes.length
      = (entryHeaderBytes (typeCode d.entryKind) d.sizeLow d.sizeGroups).length
        + d.baseBytes.length + d.stream.bytes.length := by
    simp only [EntryDesc.bytes, List.length_append]
  rw [hlen, hdlen]
  cases hf : d.form with
  | whole k =>
    have hk : d.entryKind = .object k := by simp [EntryDesc.entryKind, hf]
    have hb : d.baseBytes = [] := by simp [EntryDesc.baseBytes, hf]
    rw [hk, hb]
    simp only [List.nil_append, List.length_nil, add_zero]
    rw [decompress_stream d.stream post hz]
    cases k <;>
      simp [typeCode, entryOf, hk, List.length_append] <;> omega
  | ofsDelta groups base delta =>
    have hk : d.entryKind = .ofsDelta (backOffsetOf groups) := by simp [EntryDesc.entryKind, hf]
    have hb : d.baseBytes = groupBytes groups := by simp [EntryDesc.baseBytes, hf]
    rw [hf] at hform
    obtain ⟨hne, hg⟩ := hform
    obtain ⟨g, gs, rfl⟩ : ∃ g gs, groups = g :: gs := by
      cases groups with
      | nil => exact absurd rfl hne
      | cons g gs => exact ⟨g, gs, rfl⟩
    have hbo := hback _ _ _ hf
    rw [hk, hb]
    have e6 : typeCode (.ofsDelta (backOffsetOf (g :: gs))) = 6 := rfl
    rw [e6, if_pos rfl, readBackOffset_groups _ g gs hg]
    simp only
    have hnlt : ¬ (pre.length < offsetValue g gs) := by
      have : backOffsetOf (g :: gs) = offsetValue g gs := rfl
      omega
    rw [if_neg hnlt, decompress_stream d.stream post hz]
    simp only [entryOf, hk, List.length_append]
    congr 2
    omega
  | refDelta hash base delta =>
    have hk : d.entryKind = .refDelta hash := by simp [EntryDesc.entryKind, hf]
    have hb : d.baseBytes = hash := by simp [EntryDesc.baseBytes, hf]
    rw [hf] at hform
    replace hform : hash.length = 20 := hform
    rw [hk, hb]
    have e7 : typeCode (.refDelta hash) = 7 := rfl
    have n6 : ¬ ((7 : Nat) = 6) := by omega
    have hlen20 : ¬ ((hash ++ (d.stream.bytes ++ post)).length < 20) := by
      rw [List.length_append]; omega
    rw [e7, if_neg n6, if_pos rfl, if_neg hlen20]
    have hd : (hash ++ (d.stream.bytes ++ post)).drop 20 = d.stream.bytes ++ post := by
      rw [← hform, List.drop_left]
    have ht : (hash ++ (d.stream.bytes ++ post)).take 20 = hash := by
      rw [← hform, List.take_left]
    rw [hd, ht, decompress_stream d.stream post hz]
    simp only [entryOf, hk, List.length_append]
    congr 2
    omega

theorem entryOffsets_getD_succ (off : Nat) (d : EntryDesc) (ds : List EntryDesc) (i : Nat) :
    (entryOffsets off (d :: ds)).getD (i + 1) 0
      = (entryOffsets (off + d.bytes.length) ds).getD i 0 := by
  simp [entryOffsets]

theorem entryOffsets_getD_zero (off : Nat) (d : EntryDesc) (ds : List EntryDesc) :
    (entryOffsets off (d :: ds)).getD 0 0 = off := by
  simp [entryOffsets]

/-- The parser reads a sequence of well-formed entries and stops after it. -/
theorem parseEntries_desc (post : Bytes) (ds : List EntryDesc) :
    ∀ (pre : Bytes), (∀ d ∈ ds, d.EncodingOk) →
      (∀ i d, ds.get? i = some d → ∀ groups base delta, d.form = .ofsDelta groups base delta →
        backOffsetOf groups ≤ (entryOffsets pre.length ds).getD i 0) →
      parseEntries (pre ++ (ds.flatMap EntryDesc.bytes ++ post)) ds.length pre.length
        = .ok (entriesOf pre.length ds, pre.length + (ds.flatMap EntryDesc.bytes).length) := by
  induction ds with
  | nil => intro pre _ _; rfl
  | cons d ds ih =>
    intro pre henc hback
    have hd := henc d (List.mem_cons_self _ _)
    have hds : ∀ x ∈ ds, x.EncodingOk := fun x hx => henc x (List.mem_cons_of_mem _ hx)
    have hb0 : ∀ groups base delta, d.form = .ofsDelta groups base delta →
        backOffsetOf groups ≤ pre.length := by
      intro groups base delta hf
      have := hback 0 d rfl groups base delta hf
      rwa [entryOffsets_getD_zero] at this
    have hpack : pre ++ ((d :: ds).flatMap EntryDesc.bytes ++ post)
        = pre ++ (d.bytes ++ (ds.flatMap EntryDesc.bytes ++ post)) := by
      rw [List.flatMap_cons, List.append_assoc]
    have hpack2 : pre ++ (d.bytes ++ (ds.flatMap EntryDesc.bytes ++ post))
        = (pre ++ d.bytes) ++ (ds.flatMap EntryDesc.bytes ++ post) := by
      rw [List.append_assoc]
    have hih := ih (pre ++ d.bytes) hds (by
      intro i x hx groups base delta hf
      have := hback (i + 1) x (by simpa using hx) groups base delta hf
      rw [entryOffsets_getD_succ] at this
      rwa [List.length_append])
    rw [List.length_append] at hih
    rw [hpack, List.length_cons, parseEntries, parseEntry_desc pre _ d hd hb0]
    simp only
    rw [hpack2, hih]
    simp only [entriesOf, List.flatMap_cons, List.length_append]
    congr 2
    omega

theorem sha1_length (msg : Bytes) : (sha1 msg).length = 20 := by
  simp [sha1, beWord_length]

theorem wordOf_beWord_lt (v : Nat) (h : v < 2 ^ 32) : wordOf (beWord v 4) = v :=
  wordOf_beWord_four v h

/-- The header of a described pack parses to the number of entries. -/
theorem parseHeader_packBytes (ds : List EntryDesc) (hn : ds.length < 2 ^ 32) :
    parseHeader (packBytes ds) = .ok ds.length := by
  have hpack : packBytes ds
      = 80 :: 65 :: 67 :: 75 :: (beWord 2 4 ++ (beWord ds.length 4
          ++ (ds.flatMap EntryDesc.bytes ++ sha1 (packBody ds)))) := by
    simp [packBytes, packBody, List.append_assoc]
  have hlen : ¬ ((packBytes ds).length < 12) := by
    rw [hpack]
    simp only [List.length_cons, List.length_append, beWord_length]
    omega
  have h4 : (packBytes ds).take 4 = [80, 65, 67, 75] := by
    rw [hpack]; rfl
  have hv : ((packBytes ds).drop 4).take 4 = beWord 2 4 := by
    rw [hpack]
    show (beWord 2 4 ++ _).take 4 = _
    exact List.take_left' (beWord_length 2 4)
  have hc : ((packBytes ds).drop 8).take 4 = beWord ds.length 4 := by
    rw [hpack]
    show ((beWord 2 4 ++ _).drop 4).take 4 = _
    rw [List.drop_left' (beWord_length 2 4)]
    exact List.take_left' (beWord_length _ 4)
  unfold parseHeader
  rw [if_neg hlen, h4, hv, hc, wordOf_beWord_four 2 (by norm_num),
    wordOf_beWord_four _ hn]
  simp

theorem declaredCount_packBytes (ds : List EntryDesc) (hn : ds.length < 2 ^ 32) :
    declaredCount (packBytes ds) = ds.length := by
  have := parseHeader_packBytes ds hn
  unfold parseHeader at this
  split at this
  · cases this
  · split at this
    · cases this
    · split at this
      · cases this
      · unfold declaredCount
        exact Except.ok.inj this

theorem resolvedOf_offset (p : EntryDesc × Nat) : (resolvedOf p).offset = p.2 := rfl
theorem resolvedOf_hash (p : EntryDesc × Nat) : (resolvedOf p).hash = p.1.id := rfl
theorem resolvedOf_content (p : EntryDesc × Nat) : (resolvedOf p).content = p.1.content := rfl
theorem resolvedOf_kind (p : EntryDesc × Nat) : (resolvedOf p).kind = p.1.kind := rfl

theorem resolveEntry_delta (pairs : List (EntryDesc × Nat)) (table : List ResolvedObject)
    (hT : TableOk pairs table) (p q : EntryDesc × Nat) (delta : DeltaDesc)
    (hq : q ∈ pairs) (hlink : Link p q delta) (test : ResolvedObject → Bool)
    (hq_test : test (resolvedOf q) = true)
    (huniq : ∀ q' ∈ pairs, test (resolvedOf q') = true → q' = q) :
    ((match table.find? test with
      | none => (.ok none : Except PackError (Option ResolvedObject))
      | some b =>
        match applyDelta b.content p.1.stream.output with
        | .error err => .error err
        | .ok content => .ok (some (mkResolved p.2 b.kind content))) = .ok none ∨
     (match table.find? test with
      | none => (.ok none : Except PackError (Option ResolvedObject))
      | some b =>
        match applyDelta b.content p.1.stream.output with
        | .error err => .error err
        | .ok content => .ok (some (mkResolved p.2 b.kind content)))
        = .ok (some (resolvedOf p))) ∧
    (Avail pairs table p →
     (match table.find? test with
      | none => (.ok none : Except PackError (Option ResolvedObject))
      | some b =>
        match applyDelta b.content p.1.stream.output with
        | .error err => .error err
        | .ok content => .ok (some (mkResolved p.2 b.kind content)))
        = .ok (some (resolvedOf p))) := by
  obtain ⟨hdepth, hpayload, hdok, hcontent, hkind⟩ := hlink
  cases hfind : table.find? test with
  | none =>
    refine ⟨Or.inl rfl, ?_⟩
    intro hav
    have hmem := hav q hq hdepth
    have := List.find?_eq_none.mp hfind _ hmem
    exact absurd hq_test this
  | some b =>
    have hb_mem : b ∈ table := List.mem_of_find?_eq_some hfind
    have hb_test : test b = true := List.find?_some hfind
    obtain ⟨q', hq', rfl⟩ := hT b hb_mem
    have hqq := huniq q' hq' hb_test
    subst hqq
    have happly : applyDelta (resolvedOf q').content p.1.stream.output
        = .ok (delta.result q'.1.content) := by
      rw [hpayload, resolvedOf_content]
      exact applyDelta_bytes delta _ hdok
    have hres : (match applyDelta (resolvedOf q').content p.1.stream.output with
        | .error err => (.error err : Except PackError (Option ResolvedObject))
        | .ok content => .ok (some (mkResolved p.2 (resolvedOf q').kind content)))
        = .ok (some (resolvedOf p)) := by
      rw [happly]
      simp only [resolvedOf, hcontent, hkind]
      rfl
    exact ⟨Or.inr hres, fun _ => hres⟩

/-- One resolution step on a described entry: it stays pending or resolves to
the described object, and it resolves when the shorter chains are resolved. -/
theorem resolveEntry_pair (pairs : List (EntryDesc × Nat)) (table : List ResolvedObject)
    (hP : ∀ p ∈ pairs, PairOk pairs p) (hO : (pairs.map (fun p => p.2)).Nodup)
    (hI : (pairs.map (fun p => p.1.id)).Nodup) (hT : TableOk pairs table)
    (p : EntryDesc × Nat) (hp : p ∈ pairs) :
    (resolveEntry table (entryOf p.1 p.2) = .ok none ∨
      resolveEntry table (entryOf p.1 p.2) = .ok (some (resolvedOf p))) ∧
    (Avail pairs table p → resolveEntry table (entryOf p.1 p.2) = .ok (some (resolvedOf p))) := by
  have hok := hP p hp
  unfold PairOk at hok
  unfold resolveEntry
  cases hf : p.1.form with
  | whole k =>
    rw [hf] at hok
    obtain ⟨hk, hc⟩ := hok
    have hkind : (entryOf p.1 p.2).kind = .object k := by
      simp [entryOf, EntryDesc.entryKind, hf]
    rw [hkind]
    have : (.ok (some (mkResolved (entryOf p.1 p.2).offset k (entryOf p.1 p.2).payload))
        : Except PackError (Option ResolvedObject)) = .ok (some (resolvedOf p)) := by
      simp only [entryOf, resolvedOf, hk, hc]
    exact ⟨Or.inr this, fun _ => this⟩
  | ofsDelta groups base delta =>
    rw [hf] at hok
    obtain ⟨q, hq, hoff, hlink⟩ := hok
    have hkind : (entryOf p.1 p.2).kind = .ofsDelta (backOffsetOf groups) := by
      simp [entryOf, EntryDesc.entryKind, hf]
    rw [hkind]
    have hsub : (entryOf p.1 p.2).offset - backOffsetOf groups = q.2 := by
      simp only [entryOf]; omega
    simp only [hsub]
    exact resolveEntry_delta pairs table hT p q delta hq hlink
      (fun r => decide (r.offset = q.2)) (by simp [resolvedOf_offset])
      (fun q' hq' ht => by
        have h2 : q'.2 = q.2 := by simpa [resolvedOf_offset] using ht
        exact List.inj_on_of_nodup_map hO hq' hq h2)
  | refDelta hash base delta =>
    rw [hf] at hok
    obtain ⟨q, hq, hhash, hlink⟩ := hok
    have hkind : (entryOf p.1 p.2).kind = .refDelta hash := by
      simp [entryOf, EntryDesc.entryKind, hf]
    rw [hkind]
    simp only
    exact resolveEntry_delta pairs table hT p q delta hq hlink
      (fun r => decide (r.hash = hash)) (by simp [resolvedOf_hash, hhash])
      (fun q' hq' ht => by
        have h2 : q'.1.id = q.1.id := by
          have : q'.1.id = hash := by simpa [resolvedOf_hash] using ht
          rw [this, hhash]
        exact List.inj_on_of_nodup_map hI hq' hq h2)

theorem table_pair_of_offset (pairs : List (EntryDesc × Nat)) (table : List ResolvedObject)
    (hO : (pairs.map (fun p => p.2)).Nodup) (hT : TableOk pairs table)
    (p : EntryDesc × Nat) (hp : p ∈ pairs) (r : ResolvedObject) (hr : r ∈ table)
    (hoff : r.offset = p.2) : r = resolvedOf p := by
  obtain ⟨q, hq, rfl⟩ := hT r hr
  have : q = p := List.inj_on_of_nodup_map hO hq hp hoff
  rw [this]

/-- One pass keeps the table within the pack's objects and resolves every
entry whose shorter chains are resolved. -/
theorem resolvePass_pairs (pairs : List (EntryDesc × Nat))
    (hP : ∀ p ∈ pairs, PairOk pairs p) (hO : (pairs.map (fun p => p.2)).Nodup)
    (hI : (pairs.map (fun p => p.1.id)).Nodup) (es : List (EntryDesc × Nat)) :
    ∀ table : List ResolvedObject, (∀ p ∈ es, p ∈ pairs) → TableOk pairs table →
      (table.map (fun r => r.offset)).Nodup →
      ∃ added, resolvePass (es.map (fun p => entryOf p.1 p.2)) table = .ok (table ++ added) ∧
        TableOk pairs (table ++ added) ∧ ((table ++ added).map (fun r => r.offset)).Nodup ∧
        ∀ p ∈ es, Avail pairs table p → resolvedOf p ∈ table ++ added := by
  induction es with
  | nil =>
    intro table _ hT hN
    exact ⟨[], by simp [resolvePass], by simpa using hT, by simpa using hN, by simp⟩
  | cons p es ih =>
    intro table hes hT hN
    have hp : p ∈ pairs := hes p (List.mem_cons_self _ _)
    have hes' : ∀ x ∈ es, x ∈ pairs := fun x hx => hes x (List.mem_cons_of_mem _ hx)
    rw [List.map_cons, resolvePass]
    by_cases hany : table.any (fun r => decide (r.offset = (entryOf p.1 p.2).offset)) = true
    · rw [if_pos hany]
      obtain ⟨added, h1, h2, h3, h4⟩ := ih table hes' hT hN
      refine ⟨added, h1, h2, h3, ?_⟩
      intro x hx hav
      rcases List.mem_cons.mp hx with rfl | hx'
      · obtain ⟨r, hr, hroff⟩ := List.any_eq_true.mp hany
        have hroff' : r.offset = x.2 := by simpa [entryOf] using hroff
        have := table_pair_of_offset pairs table hO hT x hp r hr hroff'
        rw [← this]
        exact List.mem_append_left _ hr
      · exact h4 x hx' hav
    · rw [if_neg hany]
      obtain ⟨hcases, havail⟩ := resolveEntry_pair pairs table hP hO hI hT p hp
      rcases hcases with hnone | hsome
      · rw [hnone]
        simp only
        obtain ⟨added, h1, h2, h3, h4⟩ := ih table hes' hT hN
        refine ⟨added, h1, h2, h3, ?_⟩
        intro x hx hav
        rcases List.mem_cons.mp hx with rfl | hx'
        · have := havail hav
          rw [hnone] at this
          cases this
        · exact h4 x hx' hav
      · rw [hsome]
        simp only
        have hT1 : TableOk pairs (table ++ [resolvedOf p]) := by
          intro r hr
          rcases List.mem_append.mp hr with h | h
          · exact hT r h
          · exact ⟨p, hp, by simpa using h⟩
        have hN1 : ((table ++ [resolvedOf p]).map (fun r => r.offset)).Nodup := by
          rw [List.map_append, List.nodup_append]
          refine ⟨hN, by simp, ?_⟩
          intro a ha hb
          have hb' : a = p.2 := by simpa [resolvedOf_offset] using hb
          subst hb'
          obtain ⟨r, hr, hroff⟩ := List.mem_map.mp ha
          apply hany
          exact List.any_eq_true.mpr ⟨r, hr, by simpa [entryOf] using hroff⟩
        obtain ⟨added, h1, h2, h3, h4⟩ := ih (table ++ [resolvedOf p]) hes' hT1 hN1
        refine ⟨resolvedOf p :: added, ?_, ?_, ?_, ?_⟩
        · rw [h1]; simp
        · simpa using h2
        · simpa using h3
        · intro x hx hav
          rcases List.mem_cons.mp hx with rfl | hx'
          · simp
          · have := h4 x hx' (fun q hq hd => List.mem_append_left _ (hav q hq hd))
            simpa using this

theorem all_resolved_of_closed (pairs : List (EntryDesc × Nat)) (table : List ResolvedObject)
    (h : ∀ p ∈ pairs, Avail pairs table p → resolvedOf p ∈ table) :
    ∀ p ∈ pairs, resolvedOf p ∈ table := by
  have key : ∀ n, ∀ p ∈ pairs, p.1.depth < n → resolvedOf p ∈ table := by
    intro n
    induction n with
    | zero => intro p _ hd; omega
    | succ n ih =>
      intro p hp hd
      apply h p hp
      intro q hq hqd
      exact ih q hq (by omega)
  intro p hp
  exact key (p.1.depth + 1) p hp (by omega)

theorem all_resolved_of_length (pairs : List (EntryDesc × Nat)) (table : List ResolvedObject)
    (hO : (pairs.map (fun p => p.2)).Nodup) (hT : TableOk pairs table)
    (hN : (table.map (fun r => r.offset)).Nodup) (hlen : pairs.length ≤ table.length) :
    ∀ p ∈ pairs, resolvedOf p ∈ table := by
  have hsub : table.map (fun r => r.offset) ⊆ pairs.map (fun p => p.2) := by
    intro a ha
    obtain ⟨r, hr, rfl⟩ := List.mem_map.mp ha
    obtain ⟨q, hq, rfl⟩ := hT r hr
    exact List.mem_map.mpr ⟨q, hq, rfl⟩
  have hperm := (List.subperm_of_subset hN hsub).perm_of_length_le (by simpa using hlen)
  intro p hp
  have hmem : p.2 ∈ table.map (fun r => r.offset) :=
    hperm.mem_iff.mpr (List.mem_map.mpr ⟨p, hp, rfl⟩)
  obtain ⟨r, hr, hroff⟩ := List.mem_map.mp hmem
  rw [← table_pair_of_offset pairs table hO hT p hp r hr hroff]
  exact hr

/-- The passes resolve every entry of a well-formed pack. -/
theorem resolvePasses_pairs (pairs : List (EntryDesc × Nat))
    (hP : ∀ p ∈ pairs, PairOk pairs p) (hO : (pairs.map (fun p => p.2)).Nodup)
    (hI : (pairs.map (fun p => p.1.id)).Nodup) :
    ∀ (fuel : Nat) (table : List ResolvedObject), TableOk pairs table →
      (table.map (fun r => r.offset)).Nodup → pairs.length ≤ table.length + fuel →
      ∃ table', resolvePasses (pairs.map (fun p => entryOf p.1 p.2)) fuel table = .ok table' ∧
        TableOk pairs table' ∧ ∀ p ∈ pairs, resolvedOf p ∈ table' := by
  intro fuel
  induction fuel with
  | zero =>
    intro table hT hN hlen
    exact ⟨table, rfl, hT, all_resolved_of_length pairs table hO hT hN (by simpa using hlen)⟩
  | succ fuel ih =>
    intro table hT hN hlen
    obtain ⟨added, h1, h2, h3, h4⟩ :=
      resolvePass_pairs pairs hP hO hI pairs table (fun p hp => hp) hT hN
    rw [resolvePasses, h1]
    simp only
    by_cases heq : (table ++ added).length = table.length
    · rw [if_pos heq]
      have hadd : added = [] := by
        have : added.length = 0 := by rw [List.length_append] at heq; omega
        exact List.length_eq_zero.mp this
      subst hadd
      refine ⟨table ++ [], rfl, h2, ?_⟩
      apply all_resolved_of_closed pairs (table ++ [])
      intro p hp hav
      exact h4 p hp (fun q hq hd => by simpa using hav q hq hd)
    · rw [if_neg heq]
      apply ih (table ++ added) h2 h3
      rw [List.length_append] at heq ⊢
      omega

/-- With every entry resolved, the ids come out in pack order. -/
theorem collectHashes_pairs (pairs : List (EntryDesc × Nat)) (entries : List PackEntry)
    (table : List ResolvedObject) (hO : (pairs.map (fun p => p.2)).Nodup)
    (hT : TableOk pairs table) (es : List (EntryDesc × Nat)) :
    (∀ p ∈ es, p ∈ pairs) → (∀ p ∈ es, resolvedOf p ∈ table) →
      collectHashes entries table (es.map (fun p => entryOf p.1 p.2))
        = .ok (es.map (fun p => p.1.id)) := by
  induction es with
  | nil => intro _ _; rfl
  | cons p es ih =>
    intro hes hres
    have hp := hes p (List.mem_cons_self _ _)
    have hr := hres p (List.mem_cons_self _ _)
    rw [List.map_cons, collectHashes]
    cases hfind : table.find? (fun r => decide (r.offset = (entryOf p.1 p.2).offset)) with
    | none =>
      have := List.find?_eq_none.mp hfind _ hr
      simp [resolvedOf_offset, entryOf] at this
    | some r =>
      have hmem : r ∈ table := List.mem_of_find?_eq_some hfind
      have hoff : r.offset = p.2 := by
        have := List.find?_some hfind
        simpa [entryOf] using this
      have hreq := table_pair_of_offset pairs table hO hT p hp r hmem hoff
      simp only
      rw [ih (fun x hx => hes x (List.mem_cons_of_mem _ hx))
        (fun x hx => hres x (List.mem_cons_of_mem _ hx))]
      simp [hreq, resolvedOf_hash]

theorem entryOffsets_length (off : Nat) (ds : List EntryDesc) :
    (entryOffsets off ds).length = ds.length := by
  induction ds generalizing off with
  | nil => rfl
  | cons d ds ih => simp [entryOffsets, ih]

theorem entriesOf_eq_map (off : Nat) (ds : List EntryDesc) :
    entriesOf off ds = (ds.zip (entryOffsets off ds)).map (fun p => entryOf p.1 p.2) := by
  induction ds generalizing off with
  | nil => rfl
  | cons d ds ih => simp [entriesOf, entryOffsets, ih]

theorem entryBytes_length_pos (d : EntryDesc) : 1 ≤ d.bytes.length := by
  unfold EntryDesc.bytes entryHeaderBytes
  cases d.sizeGroups <;> simp

theorem entryOffsets_ge (ds : List EntryDesc) :
    ∀ off, ∀ o ∈ entryOffsets off ds, off ≤ o := by
  induction ds with
  | nil => intro off o ho; simp [entryOffsets] at ho
  | cons d ds ih =>
    intro off o ho
    simp only [entryOffsets, List.mem_cons] at ho
    rcases ho with rfl | ho
    · exact Nat.le_refl _
    · have := ih _ o ho
      omega

theorem entryOffsets_nodup (ds : List EntryDesc) : ∀ off, (entryOffsets off ds).Nodup := by
  induction ds with
  | nil => intro off; simp [entryOffsets]
  | cons d ds ih =>
    intro off
    simp only [entryOffsets, List.nodup_cons]
    refine ⟨?_, ih _⟩
    intro hmem
    have := entryOffsets_ge ds _ off hmem
    have := entryBytes_length_pos d
    omega

theorem mem_pairs_iff (ds : List EntryDesc) (p : EntryDesc × Nat) :
    p ∈ ds.zip (entryOffsets 12 ds) ↔
      ∃ i, ds.get? i = some p.1 ∧ (entryOffsets 12 ds).getD i 0 = p.2 ∧ i < ds.length := by
  rw [List.mem_iff_getElem?]
  constructor
  · rintro ⟨i, hi⟩
    obtain ⟨h1, h2⟩ := List.getElem?_zip_eq_some.mp hi
    have hlt : i < ds.length := by
      by_contra hge
      rw [List.getElem?_eq_none (by omega)] at h1
      cases h1
    refine ⟨i, by rw [List.get?_eq_getElem?]; exact h1, ?_, hlt⟩
    rw [List.getD_eq_getElem?_getD, h2]
    rfl
  · rintro ⟨i, h1, h2, hlt⟩
    refine ⟨i, List.getElem?_zip_eq_some.mpr ⟨by rw [← List.get?_eq_getElem?]; exact h1, ?_⟩⟩
    have hlt' : i < (entryOffsets 12 ds).length := by rw [entryOffsets_length]; exact hlt
    rw [List.getD_eq_getElem?_getD, List.getElem?_eq_getElem hlt'] at h2
    rw [List.getElem?_eq_getElem hlt']
    congr 1

theorem pair_of_base (ds : List EntryDesc) (base : Nat) (b : EntryDesc)
    (hb : ds.get? base = some b) :
    (b, (entryOffsets 12 ds).getD base 0) ∈ ds.zip (entryOffsets 12 ds) := by
  rw [mem_pairs_iff]
  have hlt : base < ds.length := by
    by_contra hge
    rw [List.get?_eq_getElem?, List.getElem?_eq_none (by omega)] at hb
    cases hb
  exact ⟨base, hb, rfl, hlt⟩

theorem link_of_deltaLink (ds : List EntryDesc) (p : EntryDesc × Nat) (base : Nat)
    (delta : DeltaDesc) (h : DeltaLinkOk ds p.1 base delta) :
    ∃ b, ds.get? base = some b ∧ Link p (b, (entryOffsets 12 ds).getD base 0) delta := by
  unfold DeltaLinkOk at h
  cases hb : ds.get? base with
  | none => rw [hb] at h; exact absurd h id
  | some b =>
    rw [hb] at h
    exact ⟨b, rfl, h⟩

theorem pairOk_of_packOk (ds : List EntryDesc) (hok : PackOk ds) :
    ∀ p ∈ ds.zip (entryOffsets 12 ds), p.1.EncodingOk ∧ PairOk (ds.zip (entryOffsets 12 ds)) p := by
  intro p hp
  obtain ⟨i, hi, hoff, hlt⟩ := (mem_pairs_iff ds p).mp hp
  have hent := hok.2.1 i (List.mem_range.mpr hlt)
  unfold EntryOkIn at hent
  rw [hi] at hent
  obtain ⟨henc, hform⟩ := hent
  refine ⟨henc, ?_⟩
  unfold PairOk
  cases hf : p.1.form with
  | whole k =>
    rw [hf] at hform
    exact hform
  | ofsDelta groups base delta =>
    rw [hf] at hform
    obtain ⟨ho, hl⟩ := hform
    obtain ⟨b, hb, hlink⟩ := link_of_deltaLink ds p base delta hl
    exact ⟨_, pair_of_base ds base b hb, by simp only; omega, hlink⟩
  | refDelta hash base delta =>
    rw [hf] at hform
    obtain ⟨hh, hl⟩ := hform
    obtain ⟨b, hb, hlink⟩ := link_of_deltaLink ds p base delta hl
    refine ⟨_, pair_of_base ds base b hb, ?_, hlink⟩
    rw [hh, hb]
    rfl

/-- Unpacking the bytes of a well-formed pack succeeds and returns the id of
every described object, in pack order. -/
theorem UnpackObjects_packBytes (ds : List EntryDesc) (hok : PackOk ds) :
    UnpackObjects (packBytes ds) = .ok (ds.map EntryDesc.id) := by
  have hpairs := pairOk_of_packOk ds hok
  have hlenO := entryOffsets_length 12 ds
  have hfst : (ds.zip (entryOffsets 12 ds)).map Prod.fst = ds :=
    List.map_fst_zip _ _ (by omega)
  have hsnd : (ds.zip (entryOffsets 12 ds)).map Prod.snd = entryOffsets 12 ds :=
    List.map_snd_zip _ _ (by omega)
  have hO : ((ds.zip (entryOffsets 12 ds)).map (fun p => p.2)).Nodup := by
    have := entryOffsets_nodup ds 12
    rw [← hsnd] at this
    exact this
  have hI : ((ds.zip (entryOffsets 12 ds)).map (fun p => p.1.id)).Nodup := by
    have e : (ds.zip (entryOffsets 12 ds)).map (fun p => p.1.id)
        = ((ds.zip (entryOffsets 12 ds)).map Prod.fst).map EntryDesc.id := by
      rw [List.map_map]; rfl
    rw [e, hfst]
    exact hok.2.2
  have hids : (ds.zip (entryOffsets 12 ds)).map (fun p => p.1.id) = ds.map EntryDesc.id := by
    have e : (ds.zip (entryOffsets 12 ds)).map (fun p => p.1.id)
        = ((ds.zip (entryOffsets 12 ds)).map Prod.fst).map EntryDesc.id := by
      rw [List.map_map]; rfl
    rw [e, hfst]
  have hplen : (ds.zip (entryOffsets 12 ds)).length = ds.length := by
    rw [List.length_zip, hlenO, Nat.min_self]
  -- the header
  have hhead := parseHeader_packBytes ds hok.1
  -- the entries
  have hpre : ([80, 65, 67, 75] ++ beWord 2 4 ++ beWord ds.length 4 : Bytes).length = 12 := by
    simp [beWord_length]
  have hpack : packBytes ds
      = ([80, 65, 67, 75] ++ beWord 2 4 ++ beWord ds.length 4)
        ++ (ds.flatMap EntryDesc.bytes ++ sha1 (packBody ds)) := by
    simp [packBytes, packBody, List.append_assoc]
  have hbody : packBody ds
      = ([80, 65, 67, 75] ++ beWord 2 4 ++ beWord ds.length 4) ++ ds.flatMap EntryDesc.bytes := rfl
  have hparse := parseEntries_desc (sha1 (packBody ds)) ds
    ([80, 65, 67, 75] ++ beWord 2 4 ++ beWord ds.length 4)
    (by
      intro d hd
      obtain ⟨i, hi⟩ := List.mem_iff_get?.mp hd
      have hlt : i < ds.length := by
        by_contra hge
        rw [List.get?_eq_getElem?, List.getElem?_eq_none (by omega)] at hi
        cases hi
      have := (hpairs (d, (entryOffsets 12 ds).getD i 0)
        ((mem_pairs_iff ds _).mpr ⟨i, hi, rfl, hlt⟩)).1
      exact this)
    (by
      intro i d hi groups base delta hf
      rw [hpre]
      have hlt : i < ds.length := by
        by_contra hge
        rw [List.get?_eq_getElem?, List.getElem?_eq_none (by omega)] at hi
        cases hi
      have hent := hok.2.1 i (List.mem_range.mpr hlt)
      unfold EntryOkIn at hent
      rw [hi] at hent
      obtain ⟨_, hform⟩ := hent
      rw [hf] at hform
      have := hform.1
      omega)
  rw [hpre, ← hpack] at hparse
  have hstop : 12 + (ds.flatMap EntryDesc.bytes).length = (packBody ds).length := by
    rw [hbody, List.length_append, hpre]
  rw [hstop] at hparse
  -- the trailer
  have hplen2 : (packBytes ds).length = (packBody ds).length + 20 := by
    rw [packBytes, List.length_append, sha1_length]
  have htake : (packBytes ds).take (packBody ds).length = packBody ds := by
    rw [packBytes, List.take_left]
  have hdrop : (packBytes ds).drop (packBody ds).length = sha1 (packBody ds) := by
    rw [packBytes, List.drop_left]
  -- the resolution
  obtain ⟨table, hres, hT, hall⟩ := resolvePasses_pairs (ds.zip (entryOffsets 12 ds))
    (fun p hp => (hpairs p hp).2) hO hI (ds.zip (entryOffsets 12 ds)).length []
    (by intro r hr; simp at hr) (by simp) (by simp)
  have hcollect := collectHashes_pairs (ds.zip (entryOffsets 12 ds))
    (entriesOf 12 ds) table hO hT (ds.zip (entryOffsets 12 ds)) (fun p hp => hp) hall
  rw [← entriesOf_eq_map] at hres hcollect
  have hentlen : (entriesOf 12 ds).length = (ds.zip (entryOffsets 12 ds)).length := by
    rw [entriesOf_eq_map, List.length_map]
  unfold UnpackObjects
  rw [hhead]
  simp only
  rw [hparse]
  simp only
  have e1 : ¬ ((packBody ds).length + 20 ≠ (packBytes ds).length) := by
    rw [hplen2]; simp
  have e2 : ¬ (sha1 ((packBytes ds).take (packBody ds).length)
      ≠ (packBytes ds).drop (packBody ds).length) := by
    rw [htake, hdrop]; simp
  rw [if_neg e1, if_neg e2, hentlen, hres]
  simp only
  rw [hcollect, hids]


/-- The first fixture unpacks to the two ids, in pack order. -/
theorem UnpackObjects_packRefDelta2 :
    UnpackObjects packRefDelta2 = .ok [idBe22, id84df] := by
  decide!

/-- The second fixture unpacks to the three ids, in pack order. -/
theorem UnpackObjects_packRefDelta3 :
    UnpackObjects packRefDelta3 = .ok [idBe22, id84df, idBbd8] := by
  decide!

/-- The third fixture unpacks to the two ids, in pack order. -/
theorem UnpackObjects_packOfsDelta2 :
    UnpackObjects packOfsDelta2 = .ok [idBe22, id84df] := by
  decide!

/-- The fourth fixture unpacks to the three ids, in pack order. -/
theorem UnpackObjects_packOfsDelta3 :
    UnpackObjects packOfsDelta3 = .ok [idBe22, id84df, idBbd8] := by
  decide!

/-- The three ids in hexadecimal. -/
theorem hex_ids :
    hex idBe22 = "be22a5c7d7b25c990d89d7c18382f0815f683f17" ∧
    hex id84df = "84dfc6fb0e86cf29049d53041e2d55f863eacfd8" ∧
    hex idBbd8 = "bbd835f67c0ef19084d9b97e9219c1b38e66bd80" := by
  decide

/-- Claim C1: for each of the four fixture packs of `TestPackfileUnpack`,
`UnpackObjects` succeeds and the set of ids it returns is exactly the expected
set: `84df…`, `be22…` for the 2-object REF_DELTA pack; those two and `bbd8…`
for the 3-object REF_DELTA chain; and the same two sets for the OFS_DELTA
packs. -/
theorem UnpackObjects_fixture_ids :
    (∃ shas, UnpackObjects packRefDelta2 = .ok shas ∧
      ∀ id, id ∈ shas.map hex ↔
        id = "84dfc6fb0e86cf29049d53041e2d55f863eacfd8" ∨
        id = "be22a5c7d7b25c990d89d7c18382f0815f683f17") ∧
    (∃ shas, UnpackObjects packRefDelta3 = .ok shas ∧
      ∀ id, id ∈ shas.map hex ↔
        id = "84dfc6fb0e86cf29049d53041e2d55f863eacfd8" ∨
        id = "be22a5c7d7b25c990d89d7c18382f0815f683f17" ∨
        id = "bbd835f67c0ef19084d9b97e9219c1b38e66bd80") ∧
    (∃ shas, UnpackObjects packOfsDelta2 = .ok shas ∧
      ∀ id, id ∈ shas.map hex ↔
        id = "84dfc6fb0e86cf29049d53041e2d55f863eacfd8" ∨
        id = "be22a5c7d7b25c990d89d7c18382f0815f683f17") ∧
    (∃ shas, UnpackObjects packOfsDelta3 = .ok shas ∧
      ∀ id, id ∈ shas.map hex ↔
        id = "84dfc6fb0e86cf29049d53041e2d55f863eacfd8" ∨
        id = "be22a5c7d7b25c990d89d7c18382f0815f683f17" ∨
        id = "bbd835f67c0ef19084d9b97e9219c1b38e66bd80") := by
  obtain ⟨h1, h2, h3⟩ := hex_ids
  refine ⟨⟨_, UnpackObjects_packRefDelta2, ?_⟩, ⟨_, UnpackObjects_packRefDelta3, ?_⟩,
    ⟨_, UnpackObjects_packOfsDelta2, ?_⟩, ⟨_, UnpackObjects_packOfsDelta3, ?_⟩⟩ <;>
    intro id <;> simp only [List.map, List.mem_cons, List.mem_nil_iff, or_false, h1, h2, h3] <;>
    tauto

/-- The second fixture is the bytes of its description, which is well formed. -/
theorem validPack_packRefDelta3 : ValidPack packRefDelta3 :=
  ⟨descRefDelta3, by decide!, by decide!⟩

/-- The fourth fixture is the bytes of its description, which is well formed. -/
theorem validPack_packOfsDelta3 : ValidPack packOfsDelta3 :=
  ⟨descOfsDelta3, by decide!, by decide!⟩

/-- The pack with a dynamic block is the bytes of its description, which is
well formed. -/
theorem validPack_packDynamic : ValidPack packDynamic :=
  ⟨descDynamic, by decide!, by decide!⟩

/-- The pack with a stored block is the bytes of its description, which is
well formed. -/
theorem validPack_packStored : ValidPack packStored :=
  ⟨descStored, by decide!, by decide!⟩

/-- Claim C2: for every valid pack, `UnpackObjects` succeeds and the number of
ids it returns equals the object count declared in bytes 8..11 of the header.
A valid pack is the bytes of a well-formed description (`ValidPack`): header,
entries with well-formed zlib payloads (stored, fixed and dynamic blocks),
deltas that apply to bases inside the pack, and the trailing hash. -/
theorem UnpackObjects_valid_pack_count (pack : Bytes) (h : ValidPack pack) :
    ∃ shas, UnpackObjects pack = .ok shas ∧ shas.length = declaredCount pack := by
  obtain ⟨ds, hok, rfl⟩ := h
  refine ⟨ds.map EntryDesc.id, UnpackObjects_packBytes ds hok, ?_⟩
  rw [List.length_map, declaredCount_packBytes ds hok.1]

/-- Witness for C2: the second and the fourth fixture of `TestPackfileUnpack`
(a REF_DELTA chain and an OFS_DELTA chain, 3 objects each) are valid packs, and
so are a pack with a dynamic Huffman block and a pack with a stored block, of
one object each; for each of them `UnpackObjects` returns as many ids as the
header declares. -/
theorem UnpackObjects_valid_pack_count_witness :
    (ValidPack packRefDelta3 ∧ declaredCount packRefDelta3 = 3 ∧
      ∃ shas, UnpackObjects packRefDelta3 = .ok shas ∧
        shas.length = declaredCount packRefDelta3) ∧
    (ValidPack packOfsDelta3 ∧ declaredCount packOfsDelta3 = 3 ∧
      ∃ shas, UnpackObjects packOfsDelta3 = .ok shas ∧
        shas.length = declaredCount packOfsDelta3) ∧
    (ValidPack packDynamic ∧ declaredCount packDynamic = 1 ∧
      ∃ shas, UnpackObjects packDynamic = .ok shas ∧
        shas.length = declaredCount packDynamic) ∧
    (ValidPack packStored ∧ declaredCount packStored = 1 ∧
      ∃ shas, UnpackObjects packStored = .ok shas ∧
        shas.length = declaredCount packStored) :=
  ⟨⟨validPack_packRefDelta3, by decide,
      UnpackObjects_valid_pack_count packRefDelta3 validPack_packRefDelta3⟩,
    ⟨validPack_packOfsDelta3, by decide,
      UnpackObjects_valid_pack_count packOfsDelta3 validPack_packOfsDelta3⟩,
    ⟨validPack_packDynamic, by decide,
      UnpackObjects_valid_pack_count packDynamic validPack_packDynamic⟩,
    ⟨validPack_packStored, by decide,
      UnpackObjects_valid_pack_count packStored validPack_packStored⟩⟩

end git
